import Mathlib

set_option maxRecDepth 4000

/-!
Verification of the jettison wire-format engine (src/jettison.js together
with src/polyfill.js, the in-repository implementation of the byte-buffer
primitive).  JavaScript numbers are modelled as exact rationals plus the
IEEE special values; the 32-bit coercions (ToInt32) that JavaScript applies
inside bitwise operators are modelled explicitly wherever the source relies
on them.  Byte buffers are modelled as lists of byte values; encoders
produce the list of bytes they write and decoders consume a prefix of a
list, returning none where the source would raise a range error.
-/

namespace Jettison

/-- JS truncation toward zero of a finite number (the integer part taken by
ToInt32 before wrapping). -/
def jsTrunc (q : ℚ) : ℤ := if 0 ≤ q then ⌊q⌋ else -⌊-q⌋

/-- JS ToInt32: truncate toward zero, then wrap into the interval
from -2^31 to 2^31 - 1. -/
def jsToInt32 (q : ℚ) : ℤ := (jsTrunc q + 2 ^ 31) % 2 ^ 32 - 2 ^ 31

/-- JS expression (value & 255): ToInt32, then bitwise and with 255.  In
two's complement this is the nonnegative remainder mod 256 (wrapping
mod 2^32 preserves the low byte). -/
def jsAnd255 (q : ℚ) : ℕ := (jsToInt32 q % 256).toNat

/-- JS expression (value >> 8): ToInt32, then arithmetic shift right by 8,
which is floor division by 256 (Int division by a positive divisor). -/
def jsShr8 (q : ℚ) : ℤ := jsToInt32 q / 256

@[simp] theorem jsTrunc_intCast (z : ℤ) : jsTrunc (z : ℚ) = z := by
  unfold jsTrunc
  by_cases h : 0 ≤ (z : ℚ)
  · simp [h]
  · push_neg at h
    simp only [if_neg (not_le.mpr h)]
    rw [← Int.cast_neg, Int.floor_intCast]
    omega

theorem jsToInt32_intCast (z : ℤ) :
    jsToInt32 (z : ℚ) = (z + 2 ^ 31) % 2 ^ 32 - 2 ^ 31 := by
  unfold jsToInt32
  rw [jsTrunc_intCast]

theorem jsAnd255_intCast (z : ℤ) : jsAnd255 (z : ℚ) = (z % 256).toNat := by
  unfold jsAnd255 jsToInt32
  rw [jsTrunc_intCast]
  congr 1
  omega

theorem jsShr8_intCast (z : ℤ) :
    jsShr8 (z : ℚ) = ((z + 2 ^ 31) % 2 ^ 32 - 2 ^ 31) / 256 := by
  unfold jsShr8 jsToInt32
  rw [jsTrunc_intCast]

/-!
### IntegerPolyfill (src/polyfill.js) and IntegerCodec (src/jettison.js)

The polyfill writes one byte per loop iteration, least significant byte
first; for big-endian output the loop walks the buffer backwards, which is
the same as reversing the emission-order list.
-/

/-- Configuration of IntegerPolyfill (and of jettison's IntegerCodec, which
derives the same min and max values from byteLength and signedness). -/
structure IntegerPolyfill where
  byteLength : ℕ
  signed : Bool
deriving DecidableEq, Repr

def IntegerPolyfill.bitLength (c : IntegerPolyfill) : ℕ := c.byteLength * 8

def IntegerPolyfill.minValue (c : IntegerPolyfill) : ℤ :=
  if c.signed then -(2 ^ (c.bitLength - 1)) else 0

def IntegerPolyfill.maxValue (c : IntegerPolyfill) : ℤ :=
  if c.signed then 2 ^ (c.bitLength - 1) - 1 else 2 ^ c.bitLength - 1

/-- The clamp performed by both IntegerCodec.set and IntegerPolyfill.set:
below the minimum becomes the minimum, above the maximum the maximum. -/
def jsClamp (minV maxV : ℤ) (q : ℚ) : ℚ :=
  if q < (minV : ℚ) then (minV : ℚ) else if q > (maxV : ℚ) then (maxV : ℚ) else q

/-- The byte-emission loop of IntegerPolyfill.set: each iteration stores
(value & 255) and then shifts the value right by 8 bits. -/
def intEmit : ℕ → ℚ → List ℕ
  | 0, _ => []
  | n + 1, v => jsAnd255 v :: intEmit n ((jsShr8 v : ℤ) : ℚ)

/-- IntegerPolyfill.set: clamp, then emit byteLength bytes, low byte first;
big-endian output reverses the emission order (the source walks the buffer
backwards). -/
def IntegerPolyfill.set (c : IntegerPolyfill) (v : ℚ) (le : Bool) : List ℕ :=
  let w := jsClamp c.minValue c.maxValue v
  let em := intEmit c.byteLength w
  if le then em else em.reverse

/-- The accumulation loop of IntegerPolyfill.get: value += byte * scale with
scale multiplied by 256 each step, reading in emission (little-endian)
order. -/
def intAccum : List ℕ → ℕ
  | [] => 0
  | b :: rest => b + 256 * intAccum rest

/-- IntegerPolyfill.get: accumulate byteLength bytes; for signed codecs the
test (value & signBit) checks the top bit and, when it is set, 2^bitLength
is subtracted. -/
def IntegerPolyfill.get (c : IntegerPolyfill) (bytes : List ℕ) (le : Bool) : ℤ :=
  let em := if le then bytes else bytes.reverse
  let u := intAccum em
  if c.signed ∧ u.testBit (c.bitLength - 1) then (u : ℤ) - 2 ^ c.bitLength else (u : ℤ)

/-- jettison's IntegerCodec.set: clamp (jettison level) and delegate to the
buffer primitive (polyfill level, which clamps again with the same
bounds). -/
def IntegerCodec.set (c : IntegerPolyfill) (v : ℚ) (le : Bool) : List ℕ :=
  IntegerPolyfill.set c (jsClamp c.minValue c.maxValue v) le

/-- jettison's IntegerCodec.get as a stream operation: consume byteLength
bytes; reading past the end of the buffer is a range error (none). -/
def IntegerCodec.get (c : IntegerPolyfill) (bytes : List ℕ) (le : Bool) :
    Option (ℤ × List ℕ) :=
  if c.byteLength ≤ bytes.length then
    some (IntegerPolyfill.get c (bytes.take c.byteLength) le, bytes.drop c.byteLength)
  else none

/-- The integer codecs registered in _codecs (src/jettison.js). -/
def cInt8 : IntegerPolyfill := ⟨1, true⟩
def cInt16 : IntegerPolyfill := ⟨2, true⟩
def cInt32 : IntegerPolyfill := ⟨4, true⟩
def cUint8 : IntegerPolyfill := ⟨1, false⟩
def cUint16 : IntegerPolyfill := ⟨2, false⟩
def cUint32 : IntegerPolyfill := ⟨4, false⟩

def integerCodecList : List IntegerPolyfill :=
  [cInt8, cInt16, cInt32, cUint8, cUint16, cUint32]

theorem jsClamp_of_mem (minV maxV : ℤ) (v : ℤ) (h1 : minV ≤ v) (h2 : v ≤ maxV) :
    jsClamp minV maxV (v : ℚ) = (v : ℚ) := by
  unfold jsClamp
  rw [if_neg, if_neg]
  · exact not_lt.mpr (by exact_mod_cast h2)
  · exact not_lt.mpr (by exact_mod_cast h1)

theorem jsClamp_of_lt (minV maxV : ℤ) (q : ℚ) (h : q < (minV : ℚ)) :
    jsClamp minV maxV q = (minV : ℚ) := if_pos h

theorem jsClamp_of_gt (minV maxV : ℤ) (q : ℚ) (hmm : minV ≤ maxV)
    (h : q > (maxV : ℚ)) : jsClamp minV maxV q = (maxV : ℚ) := by
  unfold jsClamp
  rw [if_neg, if_pos h]
  have : (minV : ℚ) ≤ (maxV : ℚ) := by exact_mod_cast hmm
  exact not_lt.mpr (le_trans this (le_of_lt h))

theorem len1 (a : ℕ) (l : List ℕ) : 1 ≤ (a :: l).length := by simp

theorem len2 (a b : ℕ) (l : List ℕ) : 2 ≤ (a :: b :: l).length := by simp

theorem len4 (a b c d : ℕ) (l : List ℕ) : 4 ≤ (a :: b :: c :: d :: l).length := by
  simp

theorem take1 (a : ℕ) (l : List ℕ) : List.take 1 (a :: l) = [a] := rfl

theorem drop1 (a : ℕ) (l : List ℕ) : List.drop 1 (a :: l) = l := rfl

theorem take2 (a b : ℕ) (l : List ℕ) : List.take 2 (a :: b :: l) = [a, b] := rfl

theorem drop2 (a b : ℕ) (l : List ℕ) : List.drop 2 (a :: b :: l) = l := rfl

theorem take4 (a b c d : ℕ) (l : List ℕ) :
    List.take 4 (a :: b :: c :: d :: l) = [a, b, c, d] := rfl

theorem drop4 (a b c d : ℕ) (l : List ℕ) :
    List.drop 4 (a :: b :: c :: d :: l) = l := rfl

theorem cInt8_roundtrip (v : ℤ) (h1 : -(2^7) ≤ v) (h2 : v ≤ 2^7 - 1)
    (le : Bool) (rest : List ℕ) :
    IntegerCodec.get cInt8 (IntegerCodec.set cInt8 v le ++ rest) le = some (v, rest) := by
  have hmin : (cInt8).minValue = -(2^7) := by decide
  have hmax : (cInt8).maxValue = 2^7 - 1 := by decide
  unfold IntegerCodec.set IntegerPolyfill.set
  rw [hmin, hmax, jsClamp_of_mem _ _ v h1 h2, jsClamp_of_mem _ _ v h1 h2]
  cases le
  case false =>
    show IntegerCodec.get cInt8 ((intEmit 1 ((v : ℤ) : ℚ)).reverse ++ rest) false = _
    simp only [intEmit, jsAnd255_intCast, jsShr8_intCast,
      List.reverse_cons, List.reverse_nil, List.nil_append, List.cons_append,
      List.append_assoc, List.append_nil, IntegerCodec.get, cInt8]
    rw [if_pos (len1 _ _), take1, drop1]
    simp only [IntegerPolyfill.get, IntegerPolyfill.bitLength, intAccum, cInt8,
      List.reverse_cons, List.reverse_nil, List.nil_append, List.cons_append,
      Option.some.injEq, Prod.mk.injEq, Nat.testBit_to_div_mod, and_true,
      true_and, eq_self_iff_true, show (1 * 8 - 1 : ℕ) = 7 from rfl,
      show (1 * 8 : ℕ) = 8 from rfl]
    split_ifs with h <;> simp only [decide_eq_true_eq] at h <;> omega
  case true =>
    show IntegerCodec.get cInt8 (intEmit 1 ((v : ℤ) : ℚ) ++ rest) true = _
    simp only [intEmit, jsAnd255_intCast, jsShr8_intCast,
      List.reverse_cons, List.reverse_nil, List.nil_append, List.cons_append,
      List.append_assoc, List.append_nil, IntegerCodec.get, cInt8]
    rw [if_pos (len1 _ _), take1, drop1]
    simp only [IntegerPolyfill.get, IntegerPolyfill.bitLength, intAccum, cInt8,
      List.reverse_cons, List.reverse_nil, List.nil_append, List.cons_append,
      Option.some.injEq, Prod.mk.injEq, Nat.testBit_to_div_mod, and_true,
      true_and, eq_self_iff_true, show (1 * 8 - 1 : ℕ) = 7 from rfl,
      show (1 * 8 : ℕ) = 8 from rfl]
    split_ifs with h <;> simp only [decide_eq_true_eq] at h <;> omega

theorem cUint8_roundtrip (v : ℤ) (h1 : 0 ≤ v) (h2 : v ≤ 2^8 - 1)
    (le : Bool) (rest : List ℕ) :
    IntegerCodec.get cUint8 (IntegerCodec.set cUint8 v le ++ rest) le = some (v, rest) := by
  have hmin : (cUint8).minValue = 0 := by decide
  have hmax : (cUint8).maxValue = 2^8 - 1 := by decide
  unfold IntegerCodec.set IntegerPolyfill.set
  rw [hmin, hmax, jsClamp_of_mem _ _ v h1 h2, jsClamp_of_mem _ _ v h1 h2]
  cases le
  case false =>
    show IntegerCodec.get cUint8 ((intEmit 1 ((v : ℤ) : ℚ)).reverse ++ rest) false = _
    simp only [intEmit, jsAnd255_intCast, jsShr8_intCast,
      List.reverse_cons, List.reverse_nil, List.nil_append, List.cons_append,
      List.append_assoc, List.append_nil, IntegerCodec.get, cUint8]
    rw [if_pos (len1 _ _), take1, drop1]
    simp only [IntegerPolyfill.get, IntegerPolyfill.bitLength, intAccum, cUint8,
      List.reverse_cons, List.reverse_nil, List.nil_append, List.cons_append,
      Option.some.injEq, Prod.mk.injEq, Nat.testBit_to_div_mod, and_true,
      show ((false = true) = False) from by simp, false_and, if_false, show (1 * 8 - 1 : ℕ) = 7 from rfl,
      show (1 * 8 : ℕ) = 8 from rfl]
    omega
  case true =>
    show IntegerCodec.get cUint8 (intEmit 1 ((v : ℤ) : ℚ) ++ rest) true = _
    simp only [intEmit, jsAnd255_intCast, jsShr8_intCast,
      List.reverse_cons, List.reverse_nil, List.nil_append, List.cons_append,
      List.append_assoc, List.append_nil, IntegerCodec.get, cUint8]
    rw [if_pos (len1 _ _), take1, drop1]
    simp only [IntegerPolyfill.get, IntegerPolyfill.bitLength, intAccum, cUint8,
      List.reverse_cons, List.reverse_nil, List.nil_append, List.cons_append,
      Option.some.injEq, Prod.mk.injEq, Nat.testBit_to_div_mod, and_true,
      show ((false = true) = False) from by simp, false_and, if_false, show (1 * 8 - 1 : ℕ) = 7 from rfl,
      show (1 * 8 : ℕ) = 8 from rfl]
    omega

theorem cInt16_roundtrip (v : ℤ) (h1 : -(2^15) ≤ v) (h2 : v ≤ 2^15 - 1)
    (le : Bool) (rest : List ℕ) :
    IntegerCodec.get cInt16 (IntegerCodec.set cInt16 v le ++ rest) le = some (v, rest) := by
  have hmin : (cInt16).minValue = -(2^15) := by decide
  have hmax : (cInt16).maxValue = 2^15 - 1 := by decide
  unfold IntegerCodec.set IntegerPolyfill.set
  rw [hmin, hmax, jsClamp_of_mem _ _ v h1 h2, jsClamp_of_mem _ _ v h1 h2]
  cases le
  case false =>
    show IntegerCodec.get cInt16 ((intEmit 2 ((v : ℤ) : ℚ)).reverse ++ rest) false = _
    simp only [intEmit, jsAnd255_intCast, jsShr8_intCast,
      List.reverse_cons, List.reverse_nil, List.nil_append, List.cons_append,
      List.append_assoc, List.append_nil, IntegerCodec.get, cInt16]
    rw [if_pos (len2 _ _ _), take2, drop2]
    have e1 : (v + 2 ^ 31) % 2 ^ 32 - 2 ^ 31 = v := by omega
    simp only [e1]
    simp only [IntegerPolyfill.get, IntegerPolyfill.bitLength, intAccum, cInt16,
      List.reverse_cons, List.reverse_nil, List.nil_append, List.cons_append,
      Option.some.injEq, Prod.mk.injEq, Nat.testBit_to_div_mod, and_true,
      true_and, eq_self_iff_true, show (2 * 8 - 1 : ℕ) = 15 from rfl,
      show (2 * 8 : ℕ) = 16 from rfl]
    split_ifs with h <;> simp only [decide_eq_true_eq] at h <;> omega
  case true =>
    show IntegerCodec.get cInt16 (intEmit 2 ((v : ℤ) : ℚ) ++ rest) true = _
    simp only [intEmit, jsAnd255_intCast, jsShr8_intCast,
      List.reverse_cons, List.reverse_nil, List.nil_append, List.cons_append,
      List.append_assoc, List.append_nil, IntegerCodec.get, cInt16]
    rw [if_pos (len2 _ _ _), take2, drop2]
    have e1 : (v + 2 ^ 31) % 2 ^ 32 - 2 ^ 31 = v := by omega
    simp only [e1]
    simp only [IntegerPolyfill.get, IntegerPolyfill.bitLength, intAccum, cInt16,
      List.reverse_cons, List.reverse_nil, List.nil_append, List.cons_append,
      Option.some.injEq, Prod.mk.injEq, Nat.testBit_to_div_mod, and_true,
      true_and, eq_self_iff_true, show (2 * 8 - 1 : ℕ) = 15 from rfl,
      show (2 * 8 : ℕ) = 16 from rfl]
    split_ifs with h <;> simp only [decide_eq_true_eq] at h <;> omega

theorem cUint16_roundtrip (v : ℤ) (h1 : 0 ≤ v) (h2 : v ≤ 2^16 - 1)
    (le : Bool) (rest : List ℕ) :
    IntegerCodec.get cUint16 (IntegerCodec.set cUint16 v le ++ rest) le = some (v, rest) := by
  have hmin : (cUint16).minValue = 0 := by decide
  have hmax : (cUint16).maxValue = 2^16 - 1 := by decide
  unfold IntegerCodec.set IntegerPolyfill.set
  rw [hmin, hmax, jsClamp_of_mem _ _ v h1 h2, jsClamp_of_mem _ _ v h1 h2]
  cases le
  case false =>
    show IntegerCodec.get cUint16 ((intEmit 2 ((v : ℤ) : ℚ)).reverse ++ rest) false = _
    simp only [intEmit, jsAnd255_intCast, jsShr8_intCast,
      List.reverse_cons, List.reverse_nil, List.nil_append, List.cons_append,
      List.append_assoc, List.append_nil, IntegerCodec.get, cUint16]
    rw [if_pos (len2 _ _ _), take2, drop2]
    simp only [IntegerPolyfill.get, IntegerPolyfill.bitLength, intAccum, cUint16,
      List.reverse_cons, List.reverse_nil, List.nil_append, List.cons_append,
      Option.some.injEq, Prod.mk.injEq, Nat.testBit_to_div_mod, and_true,
      show ((false = true) = False) from by simp, false_and, if_false, show (2 * 8 - 1 : ℕ) = 15 from rfl,
      show (2 * 8 : ℕ) = 16 from rfl]
    omega
  case true =>
    show IntegerCodec.get cUint16 (intEmit 2 ((v : ℤ) : ℚ) ++ rest) true = _
    simp only [intEmit, jsAnd255_intCast, jsShr8_intCast,
      List.reverse_cons, List.reverse_nil, List.nil_append, List.cons_append,
      List.append_assoc, List.append_nil, IntegerCodec.get, cUint16]
    rw [if_pos (len2 _ _ _), take2, drop2]
    simp only [IntegerPolyfill.get, IntegerPolyfill.bitLength, intAccum, cUint16,
      List.reverse_cons, List.reverse_nil, List.nil_append, List.cons_append,
      Option.some.injEq, Prod.mk.injEq, Nat.testBit_to_div_mod, and_true,
      show ((false = true) = False) from by simp, false_and, if_false, show (2 * 8 - 1 : ℕ) = 15 from rfl,
      show (2 * 8 : ℕ) = 16 from rfl]
    omega

theorem cInt32_roundtrip (v : ℤ) (h1 : -(2^31) ≤ v) (h2 : v ≤ 2^31 - 1)
    (le : Bool) (rest : List ℕ) :
    IntegerCodec.get cInt32 (IntegerCodec.set cInt32 v le ++ rest) le = some (v, rest) := by
  have hmin : (cInt32).minValue = -(2^31) := by decide
  have hmax : (cInt32).maxValue = 2^31 - 1 := by decide
  unfold IntegerCodec.set IntegerPolyfill.set
  rw [hmin, hmax, jsClamp_of_mem _ _ v h1 h2, jsClamp_of_mem _ _ v h1 h2]
  cases le
  case false =>
    show IntegerCodec.get cInt32 ((intEmit 4 ((v : ℤ) : ℚ)).reverse ++ rest) false = _
    simp only [intEmit, jsAnd255_intCast, jsShr8_intCast,
      List.reverse_cons, List.reverse_nil, List.nil_append, List.cons_append,
      List.append_assoc, List.append_nil, IntegerCodec.get, cInt32]
    rw [if_pos (len4 _ _ _ _ _), take4, drop4]
    have e1 : (v + 2 ^ 31) % 2 ^ 32 - 2 ^ 31 = v := by omega
    simp only [e1]
    have e2 : (v / 256 + 2 ^ 31) % 2 ^ 32 - 2 ^ 31 = v / 256 := by omega
    simp only [e2]
    have e3 : (v / 256 / 256 + 2 ^ 31) % 2 ^ 32 - 2 ^ 31 = v / 256 / 256 := by omega
    simp only [e3]
    simp only [IntegerPolyfill.get, IntegerPolyfill.bitLength, intAccum, cInt32,
      List.reverse_cons, List.reverse_nil, List.nil_append, List.cons_append,
      Option.some.injEq, Prod.mk.injEq, Nat.testBit_to_div_mod, and_true,
      true_and, eq_self_iff_true, show (4 * 8 - 1 : ℕ) = 31 from rfl,
      show (4 * 8 : ℕ) = 32 from rfl]
    split_ifs with h <;> simp only [decide_eq_true_eq] at h <;> omega
  case true =>
    show IntegerCodec.get cInt32 (intEmit 4 ((v : ℤ) : ℚ) ++ rest) true = _
    simp only [intEmit, jsAnd255_intCast, jsShr8_intCast,
      List.reverse_cons, List.reverse_nil, List.nil_append, List.cons_append,
      List.append_assoc, List.append_nil, IntegerCodec.get, cInt32]
    rw [if_pos (len4 _ _ _ _ _), take4, drop4]
    have e1 : (v + 2 ^ 31) % 2 ^ 32 - 2 ^ 31 = v := by omega
    simp only [e1]
    have e2 : (v / 256 + 2 ^ 31) % 2 ^ 32 - 2 ^ 31 = v / 256 := by omega
    simp only [e2]
    have e3 : (v / 256 / 256 + 2 ^ 31) % 2 ^ 32 - 2 ^ 31 = v / 256 / 256 := by omega
    simp only [e3]
    simp only [IntegerPolyfill.get, IntegerPolyfill.bitLength, intAccum, cInt32,
      List.reverse_cons, List.reverse_nil, List.nil_append, List.cons_append,
      Option.some.injEq, Prod.mk.injEq, Nat.testBit_to_div_mod, and_true,
      true_and, eq_self_iff_true, show (4 * 8 - 1 : ℕ) = 31 from rfl,
      show (4 * 8 : ℕ) = 32 from rfl]
    split_ifs with h <;> simp only [decide_eq_true_eq] at h <;> omega

theorem cUint32_roundtrip (v : ℤ) (h1 : 0 ≤ v) (h2 : v ≤ 2^32 - 1)
    (le : Bool) (rest : List ℕ) :
    IntegerCodec.get cUint32 (IntegerCodec.set cUint32 v le ++ rest) le = some (v, rest) := by
  have hmin : (cUint32).minValue = 0 := by decide
  have hmax : (cUint32).maxValue = 2^32 - 1 := by decide
  unfold IntegerCodec.set IntegerPolyfill.set
  rw [hmin, hmax, jsClamp_of_mem _ _ v h1 h2, jsClamp_of_mem _ _ v h1 h2]
  cases le
  case false =>
    show IntegerCodec.get cUint32 ((intEmit 4 ((v : ℤ) : ℚ)).reverse ++ rest) false = _
    simp only [intEmit, jsAnd255_intCast, jsShr8_intCast,
      List.reverse_cons, List.reverse_nil, List.nil_append, List.cons_append,
      List.append_assoc, List.append_nil, IntegerCodec.get, cUint32]
    rw [if_pos (len4 _ _ _ _ _), take4, drop4]
    simp only [IntegerPolyfill.get, IntegerPolyfill.bitLength, intAccum, cUint32,
      List.reverse_cons, List.reverse_nil, List.nil_append, List.cons_append,
      Option.some.injEq, Prod.mk.injEq, Nat.testBit_to_div_mod, and_true,
      show ((false = true) = False) from by simp, false_and, if_false, show (4 * 8 - 1 : ℕ) = 31 from rfl,
      show (4 * 8 : ℕ) = 32 from rfl]
    omega
  case true =>
    show IntegerCodec.get cUint32 (intEmit 4 ((v : ℤ) : ℚ) ++ rest) true = _
    simp only [intEmit, jsAnd255_intCast, jsShr8_intCast,
      List.reverse_cons, List.reverse_nil, List.nil_append, List.cons_append,
      List.append_assoc, List.append_nil, IntegerCodec.get, cUint32]
    rw [if_pos (len4 _ _ _ _ _), take4, drop4]
    simp only [IntegerPolyfill.get, IntegerPolyfill.bitLength, intAccum, cUint32,
      List.reverse_cons, List.reverse_nil, List.nil_append, List.cons_append,
      Option.some.injEq, Prod.mk.injEq, Nat.testBit_to_div_mod, and_true,
      show ((false = true) = False) from by simp, false_and, if_false, show (4 * 8 - 1 : ℕ) = 31 from rfl,
      show (4 * 8 : ℕ) = 32 from rfl]
    omega


/-- Minimum does not exceed maximum for each registered integer codec. -/
theorem integer_minValue_le_maxValue :
    ∀ c ∈ integerCodecList, c.minValue ≤ c.maxValue := by decide

theorem intEmit_length (n : ℕ) (v : ℚ) : (intEmit n v).length = n := by
  induction n generalizing v with
  | zero => rfl
  | succ m ih => simp [intEmit, ih]

theorem IntegerCodec.set_length (c : IntegerPolyfill) (v : ℚ) (le : Bool) :
    (IntegerCodec.set c v le).length = c.byteLength := by
  unfold IntegerCodec.set IntegerPolyfill.set
  cases le <;> simp [intEmit_length]

/-!
### BooleanCodec (src/jettison.js)

Just the uint8 codec with truthiness coercion on write and a nonzero test
on read.
-/

def BooleanCodec.set (b : Bool) (le : Bool) : List ℕ :=
  IntegerCodec.set cUint8 ((cond b 1 0 : ℤ) : ℚ) le

def BooleanCodec.get (bytes : List ℕ) (le : Bool) : Option (Bool × List ℕ) :=
  match IntegerCodec.get cUint8 bytes le with
  | none => none
  | some (v, rest) => some (decide (v ≠ 0), rest)

theorem BooleanCodec.roundtrip (b : Bool) (le : Bool) (rest : List ℕ) :
    BooleanCodec.get (BooleanCodec.set b le ++ rest) le = some (b, rest) := by
  unfold BooleanCodec.get BooleanCodec.set
  rw [cUint8_roundtrip (cond b 1 0) (by cases b <;> decide) (by cases b <;> decide)]
  cases b <;> rfl

/-!
### BooleanArrayCodec (src/jettison.js)

A varint length (7-bit groups, continuation high bit) followed by the
boolean flags packed 8 per byte, least significant bit first.
-/

/-- The while loop of BooleanArrayCodec._setLength for a nonzero remainder:
emit the low seven bits, set the high bit when more bits remain.  The first
argument is fuel bounding the iteration count (the loop exits when the
remainder reaches zero, after at most one iteration per bit). -/
def varintLoop : ℕ → ℕ → List ℕ
  | 0, _ => []
  | f + 1, r =>
    if r = 0 then [] else
      let b := r &&& 127
      let r2 := r >>> 7
      (if r2 ≠ 0 then b ||| 128 else b) :: varintLoop f r2

/-- BooleanArrayCodec._setLength: zero encodes as a single zero byte. -/
def BooleanArrayCodec.setLength (L : ℕ) : List ℕ :=
  if L = 0 then [0] else varintLoop (L + 1) L

/-- The packing loop of BooleanArrayCodec.set: accumulate bits least
significant first, flushing each full byte, and flush the final partial
byte if any bits were set into it. -/
def packBits : List Bool → ℕ → ℕ → List ℕ
  | [], byte, bit => if 0 < bit then [byte] else []
  | v :: rest, byte, bit =>
    if bit = 8 then byte :: packBits rest (cond v 1 0) 1
    else packBits rest (byte ||| (cond v 1 0 <<< bit)) (bit + 1)

/-- BooleanArrayCodec.set (endianness is irrelevant: only uint8 writes). -/
def BooleanArrayCodec.set (l : List Bool) : List ℕ :=
  BooleanArrayCodec.setLength l.length ++ packBits l 0 0

/-- The loop of BooleanArrayCodec._getLength: accumulate 7-bit groups while
the high bit of each byte is set.  Running out of bytes is a range error. -/
def varintRead : List ℕ → ℕ → ℕ → Option (ℕ × List ℕ)
  | [], _, _ => none
  | b :: rest, i, acc =>
    let acc2 := acc ||| ((b &&& 127) <<< (i * 7))
    if b &&& 128 ≠ 0 then varintRead rest (i + 1) acc2 else some (acc2, rest)

/-- One byte's worth of flags: bit 0 first, k flags taken from the byte. -/
def bitsOfByte (b : ℕ) (k : ℕ) : List Bool :=
  (List.range k).map fun bit => decide (b >>> bit &&& 1 ≠ 0)

/-- The read loop of BooleanArrayCodec.get: ceil(L / 8) bytes, up to eight
flags per byte, stopping at the declared length. -/
def unpackBits : List ℕ → ℕ → Option (List Bool × List ℕ)
  | bs, 0 => some ([], bs)
  | [], _ => none
  | b :: rest, L =>
    if L ≤ 8 then some (bitsOfByte b L, rest)
    else
      match unpackBits rest (L - 8) with
      | some (vs, r) => some (bitsOfByte b 8 ++ vs, r)
      | none => none

def BooleanArrayCodec.get (bytes : List ℕ) : Option (List Bool × List ℕ) :=
  match varintRead bytes 0 0 with
  | none => none
  | some (L, rest) => unpackBits rest L

/-- BooleanArrayCodec.getByteLength, for a present value of length L.  The
source computes floor(log2(length)) + 1 bits; for length 0 the JS value is
-Infinity and the ceil/max pipeline collapses to one byte, modelled by the
explicit zero case. -/
def BooleanArrayCodec.getByteLength (L : ℕ) : ℕ :=
  let valueBytes := (L + 7) / 8
  let lengthBytes := if L = 0 then 1 else max ((Nat.log 2 L + 1 + 6) / 7) 1
  lengthBytes + valueBytes

example : BooleanArrayCodec.set [] = [0] := by decide
example : BooleanArrayCodec.set [true] = [1, 1] := by decide
example : BooleanArrayCodec.get (BooleanArrayCodec.set [true, false, true]) =
    some ([true, false, true], []) := by decide

/-- Claim C5: every integer codec clamps: a numeric input below the type
minimum encodes as the minimum and one above the maximum as the maximum,
with no error; in particular uint8 encodes 256 like 255 and -1 like 0. -/
theorem claim_C5_integer_clamping :
    (∀ c ∈ integerCodecList, ∀ (q : ℚ) (le : Bool),
      (q < (c.minValue : ℚ) →
        IntegerCodec.set c q le = IntegerCodec.set c ((c.minValue : ℤ) : ℚ) le) ∧
      ((c.maxValue : ℚ) < q →
        IntegerCodec.set c q le = IntegerCodec.set c ((c.maxValue : ℤ) : ℚ) le)) ∧
    IntegerCodec.set cUint8 256 false = IntegerCodec.set cUint8 255 false ∧
    IntegerCodec.set cUint8 (-1) false = IntegerCodec.set cUint8 0 false := by
  refine ⟨?_, by decide, by decide⟩
  intro c hc q le
  have hmm := integer_minValue_le_maxValue c hc
  constructor
  · intro h
    unfold IntegerCodec.set
    rw [jsClamp_of_lt _ _ _ h, jsClamp_of_mem _ _ _ (le_refl _) hmm]
  · intro h
    unfold IntegerCodec.set
    rw [jsClamp_of_gt _ _ _ hmm h, jsClamp_of_mem _ _ _ hmm (le_refl _)]

/-- Witness for C5: a concrete application of the clamping theorem, with
uint8 and the out-of-range inputs 300 (above) and -7 (below). -/
theorem claim_C5_integer_clamping_witness :
    IntegerCodec.set cUint8 300 false = IntegerCodec.set cUint8 ((cUint8.maxValue : ℤ) : ℚ) false ∧
    IntegerCodec.set cUint8 (-7) false = IntegerCodec.set cUint8 ((cUint8.minValue : ℤ) : ℚ) false :=
  ⟨(claim_C5_integer_clamping.1 cUint8 (by decide) 300 false).2 (by decide),
   (claim_C5_integer_clamping.1 cUint8 (by decide) (-7) false).1 (by decide)⟩

/-- Claim C6: the BooleanArray codec encodes the empty array as the single
byte 0; an array of 255 true flags encodes as the varint length bytes
255, 1 followed by 32 flag bytes, all 255 except a final 127; and flags
pack least-significant-bit first in array order (seven true flags then a
false one yield the single flag byte 127 after the length byte 8). -/
theorem claim_C6_boolean_array_bytes :
    BooleanArrayCodec.set [] = [0] ∧
    BooleanArrayCodec.set (List.replicate 255 true) =
      [255, 1] ++ List.replicate 31 255 ++ [127] ∧
    BooleanArrayCodec.set
      [true, true, true, true, true, true, true, false] = [8, 127] := by
  refine ⟨by decide, ?_, by decide⟩
  decide

/-!
### FloatPolyfill (src/polyfill.js)

IEEE-754 encoding written from scratch in the source.  JS numbers are
modelled as exact rationals; the special values NaN, Infinity, -Infinity
and negative zero are separate constructors.  Math.floor(Math.log2 v) is
the exact integer base-2 logarithm here (the source keeps a guard branch
against log imprecision; it is retained below and is provably dead in the
exact model).
-/

/-- A JavaScript number as seen by the float codec: the special values, or
a finite rational (fin 0 is positive zero). -/
inductive JSNum where
  | nan
  | inf
  | ninf
  | negzero
  | fin (q : ℚ)
deriving DecidableEq, Repr

structure FloatPolyfill where
  byteLength : ℕ
  numSignificandBits : ℕ
  roundTo : ℚ
deriving DecidableEq, Repr

def FloatPolyfill.numExponentBits (p : FloatPolyfill) : ℕ :=
  p.byteLength * 8 - p.numSignificandBits - 1

/-- (1 << numExponentBits) - 1. -/
def FloatPolyfill.exponentMax (p : FloatPolyfill) : ℕ := 2 ^ p.numExponentBits - 1

/-- exponentMax >> 1. -/
def FloatPolyfill.exponentBias (p : FloatPolyfill) : ℕ := p.exponentMax / 2

/-- The float32 instance from DataViewPolyfill.prototype._polyfills, with
the jspack rounding constant. -/
def float32Polyfill : FloatPolyfill := ⟨4, 23, (2:ℚ)^(-24 : ℤ) - (2:ℚ)^(-77 : ℤ)⟩

/-- The float64 instance; roundTo is absent in the source and defaults
to 0. -/
def float64Polyfill : FloatPolyfill := ⟨8, 52, 0⟩

/-- exponent = Math.floor(log2(absValue)), then the guard: if
absValue * 2^-exponent < 1 the exponent is decremented (and the
coefficient doubled); with an exact logarithm the guard never fires. -/
def logExponent (av : ℚ) : ℤ :=
  let e := Int.log 2 av
  if av * (2:ℚ)^(-e) < 1 then e - 1 else e

/-- The rounding addition: half an ULP, scaled for the normalized or the
denormalized range depending on the (pre-carry) biased exponent. -/
def FloatPolyfill.roundedAbs (p : FloatPolyfill) (av : ℚ) (e : ℤ) : ℚ :=
  if 1 ≤ e + (p.exponentBias : ℤ) then av + p.roundTo / (2:ℚ)^(-e)
  else av + p.roundTo * (2:ℚ)^((1 : ℤ) - (p.exponentBias : ℤ))

/-- The exponent after the rounding carry: if the rounded value reaches 2
at the current scale, the exponent is incremented (and the coefficient
halved). -/
def FloatPolyfill.carriedExponent (p : FloatPolyfill) (av : ℚ) : ℤ :=
  let e := logExponent av
  let av2 := p.roundedAbs av e
  if 2 ≤ av2 * (2:ℚ)^(-e) then e + 1 else e

/-- The finite nonzero branch of FloatPolyfill.set, producing the sign bit,
the biased exponent field and the (possibly fractional) significand that
the byte-emission step receives. -/
def FloatPolyfill.encodeFinite (p : FloatPolyfill) (q : ℚ) : ℕ × ℕ × ℚ :=
  let signed : ℕ := if q < 0 then 1 else 0
  let av := |q|
  let e := logExponent av
  let av2 := p.roundedAbs av e
  let e2 := p.carriedExponent av
  let biased := e2 + (p.exponentBias : ℤ)
  if (p.exponentMax : ℤ) ≤ biased then
    -- overflow: encoded as Infinity with the appropriate sign
    (signed, p.exponentMax, 0)
  else if biased < 1 then
    -- denormalized
    (signed, 0, av2 * (2:ℚ)^((p.exponentBias : ℤ) - 1) * (2:ℚ)^p.numSignificandBits)
  else
    -- normalized
    (signed, biased.toNat, (av2 * (2:ℚ)^(-e2) - 1) * (2:ℚ)^p.numSignificandBits)

/-- The significand-emission loop of _floatPartsToByteArray: while at least
eight significand bits remain, store (significand & 0xff) and divide by
256 (an exact, possibly fractional, float division in the source).  The
first argument is fuel (byteLength bounds the iteration count). -/
def sigLoop : ℕ → ℕ → ℚ → List ℕ × ℕ × ℚ
  | 0, rem, s => ([], rem, s)
  | f + 1, rem, s =>
    if 8 ≤ rem then
      let t := sigLoop f (rem - 8) (s / 256)
      (jsAnd255 s :: t.1, t.2.1, t.2.2)
    else ([], rem, s)

/-- The exponent-emission loop: while exponent bits remain, store
(exponent & 0xff) and divide by 256. -/
def expLoop : ℕ → ℕ → ℚ → List ℕ
  | 0, _, _ => []
  | f + 1, rem, e =>
    if 0 < rem then jsAnd255 e :: expLoop f (rem - 8) (e / 256) else []

/-- bytes[i - increment] |= signed * 128: the sign bit lands in the byte
written last, the last element in emission order. -/
def orLast (signed : ℕ) : List ℕ → List ℕ
  | [] => []
  | [b] => [b ||| signed * 128]
  | b :: rest => b :: orLast signed rest

/-- FloatPolyfill._floatPartsToByteArray.  Bytes are emitted least
significant first; little-endian writes them forward, big-endian walks the
buffer backwards, i.e. reverses the emission order.  The leftover
significand bits are merged into the exponent with
(exponent << remaining) | significand, ToInt32 truncating the fractional
significand. -/
def FloatPolyfill.partsToBytes (p : FloatPolyfill) (signed : ℕ) (exponent : ℕ)
    (significand : ℚ) (le : Bool) : List ℕ :=
  let t := sigLoop p.byteLength p.numSignificandBits significand
  let e2 : ℕ := (exponent <<< t.2.1) ||| (jsTrunc t.2.2).toNat
  let em := t.1 ++ expLoop p.byteLength (p.numExponentBits + t.2.1) ((e2 : ℤ) : ℚ)
  let em2 := orLast signed em
  if le then em2 else em2.reverse

/-- FloatPolyfill.set: the special-value branches, then the finite
pipeline.  A zero value takes the sign from the test 1/value === -Infinity
(negative zero sets the sign bit). -/
def FloatPolyfill.set (p : FloatPolyfill) (v : JSNum) (le : Bool) : List ℕ :=
  match v with
  | .nan => p.partsToBytes 0 p.exponentMax ((2:ℚ)^(p.numSignificandBits - 1)) le
  | .inf => p.partsToBytes 0 p.exponentMax 0 le
  | .ninf => p.partsToBytes 1 p.exponentMax 0 le
  | .negzero => p.partsToBytes 1 0 0 le
  | .fin q =>
    if q = 0 then p.partsToBytes 0 0 0 le
    else
      let parts := p.encodeFinite q
      p.partsToBytes parts.1 parts.2.1 parts.2.2 le

/-- The byte-reading loop of FloatPolyfill.get: while bits remain,
acc = acc * 256 + byte.  The remaining-bit count is an integer because the
source lets it go negative and uses the leftover.  Fuel bounds the
iterations. -/
def getLoop : ℕ → ℤ → ℕ → List ℕ → ℕ × ℤ × List ℕ
  | 0, rem, acc, bs => (acc, rem, bs)
  | f + 1, rem, acc, bs =>
    if 0 < rem then getLoop f (rem - 8) (acc * 256 + bs.headD 0) bs.tail
    else (acc, rem, bs)

/-- The parsing phase of FloatPolyfill.get: sign bit and upper exponent
bits from the first byte (in big-endian view; little-endian reads the
bytes backwards), further exponent bytes, then the split of the shared
byte into exponent and significand, then the significand bytes. -/
def FloatPolyfill.getParts (p : FloatPolyfill) (bytes : List ℕ) (le : Bool) :
    ℕ × ℕ × ℕ :=
  let bs := if le then bytes.reverse else bytes
  let b0 := bs.headD 0
  let signed := b0 >>> 7
  let t := getLoop p.byteLength ((p.numExponentBits : ℤ) - 7) (b0 &&& 127) bs.tail
  let remE := t.2.1
  let significand0 := t.1 &&& ((1 <<< (-remE).toNat) - 1)
  let exponent := t.1 >>> (-remE).toNat
  let t2 := getLoop p.byteLength ((p.numSignificandBits : ℤ) + remE) significand0 t.2.2
  (signed, exponent, t2.1)

/-- FloatPolyfill.get: parse the three fields, then the special-case
branches of the source.  A sign-bit-only pattern decodes to JS -0, which
is the rational 0 here (the source comment and spec treat them as equal
under ===). -/
def FloatPolyfill.get (p : FloatPolyfill) (bytes : List ℕ) (le : Bool) : JSNum :=
  let parts := p.getParts bytes le
  let signed := parts.1
  let exponent := parts.2.1
  let significand := parts.2.2
  if exponent = 0 then
    .fin ((if signed = 1 then (-1 : ℚ) else 1) * significand *
      (2:ℚ)^((1 - (p.exponentBias : ℤ)) - (p.numSignificandBits : ℤ)))
  else if exponent = p.exponentMax then
    if significand ≠ 0 then .nan else if signed = 1 then .ninf else .inf
  else
    .fin ((if signed = 1 then (-1 : ℚ) else 1) *
      ((significand : ℚ) + (2:ℚ)^p.numSignificandBits) *
      (2:ℚ)^((exponent : ℤ) - (p.exponentBias : ℤ) - (p.numSignificandBits : ℤ)))

/-- jettison's FloatCodec.get as a stream operation (delegating to the
buffer primitive; reading past the end is a range error). -/
def FloatCodec.get (p : FloatPolyfill) (bytes : List ℕ) (le : Bool) :
    Option (JSNum × List ℕ) :=
  if p.byteLength ≤ bytes.length then
    some (p.get (bytes.take p.byteLength) le, bytes.drop p.byteLength)
  else none

def FloatCodec.set (p : FloatPolyfill) (v : JSNum) (le : Bool) : List ℕ :=
  p.set v le


/-! Arithmetic bridges for the float byte loops. -/

theorem jsTrunc_nonneg (q : ℚ) (h : 0 ≤ q) : jsTrunc q = ⌊q⌋ := if_pos h

theorem jsAnd255_floor (q : ℚ) (h : 0 ≤ q) :
    jsAnd255 q = (⌊q⌋ % 256).toNat := by
  have h0 : 0 ≤ ⌊q⌋ := Int.floor_nonneg.mpr h
  unfold jsAnd255 jsToInt32
  rw [jsTrunc_nonneg q h]
  congr 1
  omega

/-- Floor division by 256 commutes with the rational floor. -/
theorem floor_div256 (q : ℚ) : ⌊q / 256⌋ = ⌊q⌋ / 256 := by
  rw [Int.floor_eq_iff]
  constructor
  · rw [le_div_iff (by norm_num : (0:ℚ) < 256)]
    have h1 : (⌊q⌋ / 256 : ℤ) * 256 ≤ ⌊q⌋ := by omega
    calc ((⌊q⌋ / 256 : ℤ) : ℚ) * 256 = ((⌊q⌋ / 256 * 256 : ℤ) : ℚ) := by push_cast; ring
    _ ≤ (⌊q⌋ : ℚ) := by exact_mod_cast h1
    _ ≤ q := Int.floor_le q
  · rw [div_lt_iff (by norm_num : (0:ℚ) < 256)]
    have h2 : ⌊q⌋ + 1 ≤ (⌊q⌋ / 256 + 1) * 256 := by omega
    calc q < (⌊q⌋ : ℚ) + 1 := Int.lt_floor_add_one q
    _ ≤ ((⌊q⌋ / 256 + 1 : ℤ) : ℚ) * 256 := by
        rw [show ((⌊q⌋ : ℚ) + 1) = ((⌊q⌋ + 1 : ℤ) : ℚ) from by push_cast; ring]
        rw [show (((⌊q⌋ / 256 + 1 : ℤ)) : ℚ) * 256 = (((⌊q⌋ / 256 + 1) * 256 : ℤ) : ℚ) from by
          push_cast; ring]
        exact_mod_cast h2
    _ = (((⌊q⌋ / 256 : ℤ) : ℚ) + 1) * 256 := by push_cast; ring

/-- Disjoint bitwise or is addition: the low n bits are free in a shift. -/
theorem lor_disjoint (a b n : ℕ) (h : b < 2 ^ n) : (a <<< n) ||| b = a * 2 ^ n + b := by
  apply Nat.eq_of_testBit_eq
  intro j
  rw [Nat.testBit_lor, Nat.testBit_shiftLeft, Nat.mul_comm a (2 ^ n),
    Nat.testBit_mul_pow_two_add a h j]
  by_cases hj : n ≤ j
  · simp [hj, Nat.testBit_lt_two_pow (lt_of_lt_of_le h (Nat.pow_le_pow_right (by norm_num) hj)),
      Nat.not_lt.mpr hj]
  · simp [hj, Nat.lt_of_not_le hj]

theorem and127_eq_mod (x : ℕ) : x &&& 127 = x % 128 := by
  have := Nat.and_pow_two_sub_one_eq_mod x 7
  norm_num at this
  exact this

theorem shr7_eq_div (x : ℕ) : x >>> 7 = x / 128 := by
  have := Nat.shiftRight_eq_div_pow x 7
  norm_num at this
  exact this

/-- The float32 significand loop emits two bytes and leaves seven bits. -/
theorem sigLoop32 (m : ℚ) :
    sigLoop 4 23 m = ([jsAnd255 m, jsAnd255 (m / 256)], 7, m / 256 / 256) := by
  norm_num [sigLoop]

/-- The float64 significand loop emits six bytes and leaves four bits. -/
theorem sigLoop64 (m : ℚ) :
    sigLoop 8 52 m =
      ([jsAnd255 m, jsAnd255 (m / 256), jsAnd255 (m / 256 / 256),
        jsAnd255 (m / 256 / 256 / 256), jsAnd255 (m / 256 / 256 / 256 / 256),
        jsAnd255 (m / 256 / 256 / 256 / 256 / 256)], 4,
       m / 256 / 256 / 256 / 256 / 256 / 256) := by
  norm_num [sigLoop]

/-- Both formats have fifteen exponent-phase bits: two exponent bytes. -/
theorem expLoop32 (e : ℚ) : expLoop 4 15 e = [jsAnd255 e, jsAnd255 (e / 256)] := by
  norm_num [expLoop]

theorem expLoop64 (e : ℚ) : expLoop 8 15 e = [jsAnd255 e, jsAnd255 (e / 256)] := by
  norm_num [expLoop]

/-- Little-endian emission is the reverse of the big-endian layout. -/
theorem FloatPolyfill.partsToBytes_le_reverse (p : FloatPolyfill) (s e : ℕ) (m : ℚ) :
    p.partsToBytes s e m true = (p.partsToBytes s e m false).reverse := by
  unfold FloatPolyfill.partsToBytes
  simp

theorem FloatPolyfill.set_le_reverse (p : FloatPolyfill) (v : JSNum) :
    p.set v true = (p.set v false).reverse := by
  unfold FloatPolyfill.set
  cases v <;> simp [FloatPolyfill.partsToBytes_le_reverse]
  split_ifs <;> simp [FloatPolyfill.partsToBytes_le_reverse]

theorem FloatPolyfill.get_reverse (p : FloatPolyfill) (l : List ℕ) :
    p.get l.reverse true = p.get l false := by
  unfold FloatPolyfill.get FloatPolyfill.getParts
  simp

theorem jsAnd255_natCast (x : ℕ) :
    jsAnd255 (((x : ℤ) : ℚ)) = x % 256 := by
  rw [jsAnd255_intCast]
  omega

theorem jsAnd255_natCast_div256 (x : ℕ) :
    jsAnd255 (((x : ℤ) : ℚ) / 256) = x / 256 % 256 := by
  have hcast : ((x : ℤ) : ℚ) / 256 = ((x : ℤ) : ℚ) / ((256 : ℕ) : ℚ) := by norm_num
  have hfl : ⌊((x : ℤ) : ℚ) / ((256 : ℕ) : ℚ)⌋ = (x : ℤ) / 256 :=
    Rat.floor_intCast_div_natCast x 256
  rw [hcast, jsAnd255_floor _ (by positivity), hfl]
  omega

/-- Big-endian layout of _floatPartsToByteArray for float32, in terms of
the truncated significand. -/
theorem partsToBytes32_be (s e : ℕ) (m : ℚ) (h0 : 0 ≤ m) (hM : ⌊m⌋ < 2 ^ 23)
    (hs : s ≤ 1) (he : e < 256) :
    float32Polyfill.partsToBytes s e m false =
      [s * 128 + e / 2,
       e % 2 * 128 + (⌊m⌋ / 256 / 256).toNat,
       (⌊m⌋ / 256 % 256).toNat,
       (⌊m⌋ % 256).toNat] := by
  have hM0 : 0 ≤ ⌊m⌋ := Int.floor_nonneg.mpr h0
  have hd1 : (0:ℚ) ≤ m / 256 := by positivity
  have hd2 : (0:ℚ) ≤ m / 256 / 256 := by positivity
  have hf1 : ⌊m / 256⌋ = ⌊m⌋ / 256 := floor_div256 m
  have hf2 : ⌊m / 256 / 256⌋ = ⌊m⌋ / 256 / 256 := by rw [floor_div256, hf1]
  unfold FloatPolyfill.partsToBytes
  rw [show float32Polyfill.byteLength = 4 from rfl,
      show float32Polyfill.numSignificandBits = 23 from rfl,
      show float32Polyfill.numExponentBits = 8 from rfl, sigLoop32]
  simp only
  rw [jsTrunc_nonneg _ hd2, hf2]
  rw [lor_disjoint e _ 7 (by omega)]
  rw [expLoop32]
  rw [jsAnd255_natCast, jsAnd255_natCast_div256]
  rw [jsAnd255_floor m h0, jsAnd255_floor (m / 256) hd1, hf1]
  rw [if_neg (by decide : ¬(false = true))]
  simp only [List.cons_append, List.nil_append, orLast]
  simp only [List.reverse_cons, List.reverse_nil, List.nil_append, List.cons_append,
    List.append_nil]
  have hX : e * 2 ^ 7 + (⌊m⌋ / 256 / 256).toNat < 2 ^ 15 := by omega
  rw [Nat.lor_comm, show s * 128 = s <<< 7 from by simp [Nat.shiftLeft_eq],
    lor_disjoint s _ 7 (by omega)]
  rw [Nat.shiftLeft_eq]
  refine List.cons_eq_cons.mpr ⟨by omega, ?_⟩
  refine List.cons_eq_cons.mpr ⟨by omega, ?_⟩
  rfl

/-- Big-endian layout of _floatPartsToByteArray for float64. -/
theorem partsToBytes64_be (s e : ℕ) (m : ℚ) (h0 : 0 ≤ m) (hM : ⌊m⌋ < 2 ^ 52)
    (hs : s ≤ 1) (he : e < 2048) :
    float64Polyfill.partsToBytes s e m false =
      [s * 128 + e / 16,
       e % 16 * 16 + (⌊m⌋ / 256 / 256 / 256 / 256 / 256 / 256).toNat,
       (⌊m⌋ / 256 / 256 / 256 / 256 / 256 % 256).toNat,
       (⌊m⌋ / 256 / 256 / 256 / 256 % 256).toNat,
       (⌊m⌋ / 256 / 256 / 256 % 256).toNat,
       (⌊m⌋ / 256 / 256 % 256).toNat,
       (⌊m⌋ / 256 % 256).toNat,
       (⌊m⌋ % 256).toNat] := by
  have hM0 : 0 ≤ ⌊m⌋ := Int.floor_nonneg.mpr h0
  have hd1 : (0:ℚ) ≤ m / 256 := by positivity
  have hd2 : (0:ℚ) ≤ m / 256 / 256 := by positivity
  have hd3 : (0:ℚ) ≤ m / 256 / 256 / 256 := by positivity
  have hd4 : (0:ℚ) ≤ m / 256 / 256 / 256 / 256 := by positivity
  have hd5 : (0:ℚ) ≤ m / 256 / 256 / 256 / 256 / 256 := by positivity
  have hd6 : (0:ℚ) ≤ m / 256 / 256 / 256 / 256 / 256 / 256 := by positivity
  have hf1 : ⌊m / 256⌋ = ⌊m⌋ / 256 := floor_div256 m
  have hf2 : ⌊m / 256 / 256⌋ = ⌊m⌋ / 256 / 256 := by rw [floor_div256, hf1]
  have hf3 : ⌊m / 256 / 256 / 256⌋ = ⌊m⌋ / 256 / 256 / 256 := by rw [floor_div256, hf2]
  have hf4 : ⌊m / 256 / 256 / 256 / 256⌋ = ⌊m⌋ / 256 / 256 / 256 / 256 := by
    rw [floor_div256, hf3]
  have hf5 : ⌊m / 256 / 256 / 256 / 256 / 256⌋ = ⌊m⌋ / 256 / 256 / 256 / 256 / 256 := by
    rw [floor_div256, hf4]
  have hf6 : ⌊m / 256 / 256 / 256 / 256 / 256 / 256⌋ =
      ⌊m⌋ / 256 / 256 / 256 / 256 / 256 / 256 := by
    rw [floor_div256, hf5]
  unfold FloatPolyfill.partsToBytes
  rw [show float64Polyfill.byteLength = 8 from rfl,
      show float64Polyfill.numSignificandBits = 52 from rfl,
      show float64Polyfill.numExponentBits = 11 from rfl, sigLoop64]
  simp only
  rw [jsTrunc_nonneg _ hd6, hf6]
  rw [lor_disjoint e _ 4 (by omega)]
  rw [expLoop64]
  rw [jsAnd255_natCast, jsAnd255_natCast_div256]
  rw [jsAnd255_floor m h0,
      jsAnd255_floor (m / 256) hd1,
      jsAnd255_floor (m / 256 / 256) hd2,
      jsAnd255_floor (m / 256 / 256 / 256) hd3,
      jsAnd255_floor (m / 256 / 256 / 256 / 256) hd4,
      jsAnd255_floor (m / 256 / 256 / 256 / 256 / 256) hd5,
      hf1, hf2, hf3, hf4, hf5]
  rw [if_neg (by decide : ¬(false = true))]
  simp only [List.cons_append, List.nil_append, orLast]
  simp only [List.reverse_cons, List.reverse_nil, List.nil_append, List.cons_append,
    List.append_nil]
  rw [Nat.lor_comm, show s * 128 = s <<< 7 from by simp [Nat.shiftLeft_eq],
    lor_disjoint s _ 7 (by omega)]
  rw [Nat.shiftLeft_eq]
  refine List.cons_eq_cons.mpr ⟨by omega, ?_⟩
  refine List.cons_eq_cons.mpr ⟨by omega, ?_⟩
  rfl

/-- Parsing phase of FloatPolyfill.get on four big-endian bytes. -/
theorem getParts32_be (b0 b1 b2 b3 : ℕ) :
    float32Polyfill.getParts [b0, b1, b2, b3] false =
      (b0 >>> 7, ((b0 &&& 127) * 256 + b1) >>> 7,
       ((((b0 &&& 127) * 256 + b1) &&& 127) * 256 + b2) * 256 + b3) := by
  norm_num [FloatPolyfill.getParts, getLoop,
    show float32Polyfill.numExponentBits = 8 from rfl,
    show float32Polyfill.numSignificandBits = 23 from rfl,
    show float32Polyfill.byteLength = 4 from rfl,
    show Int.toNat 7 = 7 from rfl, show (1 <<< 7 - 1 : ℕ) = 127 from rfl]

/-- Parsing phase of FloatPolyfill.get on eight big-endian bytes. -/
theorem getParts64_be (b0 b1 b2 b3 b4 b5 b6 b7 : ℕ) :
    float64Polyfill.getParts [b0, b1, b2, b3, b4, b5, b6, b7] false =
      (b0 >>> 7, ((b0 &&& 127) * 256 + b1) >>> 4,
       ((((((((b0 &&& 127) * 256 + b1) &&& 15) * 256 + b2) * 256 + b3) * 256 + b4) * 256 +
        b5) * 256 + b6) * 256 + b7) := by
  norm_num [FloatPolyfill.getParts, getLoop,
    show float64Polyfill.numExponentBits = 11 from rfl,
    show float64Polyfill.numSignificandBits = 52 from rfl,
    show float64Polyfill.byteLength = 8 from rfl,
    show Int.toNat 4 = 4 from rfl, show (1 <<< 4 - 1 : ℕ) = 15 from rfl]

theorem and15_eq_mod (x : ℕ) : x &&& 15 = x % 16 := by
  have := Nat.and_pow_two_sub_one_eq_mod x 4
  norm_num at this
  exact this

theorem shr4_eq_div (x : ℕ) : x >>> 4 = x / 16 := by
  have := Nat.shiftRight_eq_div_pow x 4
  norm_num at this
  exact this

/-- Writing float parts then parsing them recovers sign, exponent field and
truncated significand (float32, big-endian). -/
theorem parts_roundtrip32 (s e : ℕ) (m : ℚ) (h0 : 0 ≤ m) (hM : ⌊m⌋ < 2 ^ 23)
    (hs : s ≤ 1) (he : e < 256) :
    float32Polyfill.getParts (float32Polyfill.partsToBytes s e m false) false =
      (s, e, ⌊m⌋.toNat) := by
  have hM0 : 0 ≤ ⌊m⌋ := Int.floor_nonneg.mpr h0
  rw [partsToBytes32_be s e m h0 hM hs he, getParts32_be]
  simp only [and127_eq_mod, shr7_eq_div, Prod.mk.injEq]
  refine ⟨by omega, by omega, by omega⟩

set_option maxHeartbeats 1000000 in
/-- Writing float parts then parsing them recovers sign, exponent field and
truncated significand (float64, big-endian). -/
theorem parts_roundtrip64 (s e : ℕ) (m : ℚ) (h0 : 0 ≤ m) (hM : ⌊m⌋ < 2 ^ 52)
    (hs : s ≤ 1) (he : e < 2048) :
    float64Polyfill.getParts (float64Polyfill.partsToBytes s e m false) false =
      (s, e, ⌊m⌋.toNat) := by
  have hM0 : 0 ≤ ⌊m⌋ := Int.floor_nonneg.mpr h0
  rw [partsToBytes64_be s e m h0 hM hs he, getParts64_be]
  simp only [and127_eq_mod, shr7_eq_div, and15_eq_mod, shr4_eq_div, Prod.mk.injEq]
  refine ⟨by omega, by omega, by omega⟩

/-! Exact characterization of the finite encoding pipeline. -/

theorem two_zpow_pos (z : ℤ) : (0:ℚ) < (2:ℚ) ^ z := zpow_pos (by norm_num) z

theorem two_zpow_mul (a b : ℤ) : (2:ℚ) ^ a * (2:ℚ) ^ b = (2:ℚ) ^ (a + b) :=
  (zpow_add₀ (by norm_num : (2:ℚ) ≠ 0) a b).symm

theorem two_zpow_natCast (n : ℕ) : (2:ℚ) ^ (n : ℤ) = (2:ℚ) ^ n := zpow_natCast 2 n

/-- Uniqueness of the integer base-2 logarithm from its bounds. -/
theorem log2_eq_of_bounds (q : ℚ) (e : ℤ) (h0 : 0 < q)
    (h1 : (2:ℚ) ^ e ≤ q) (h2 : q < (2:ℚ) ^ (e + 1)) : Int.log 2 q = e := by
  have hc : ((2:ℕ) : ℚ) = (2:ℚ) := by norm_num
  have ha : e ≤ Int.log 2 q := by
    rw [← Int.zpow_le_iff_le_log (by norm_num) h0, hc]
    exact h1
  have hb : Int.log 2 q < e + 1 := by
    rw [← Int.lt_zpow_iff_log_lt (by norm_num) h0, hc]
    exact h2
  omega

/-- With an exact logarithm the imprecision guard in the source never
fires: the adjusted exponent is the integer logarithm itself. -/
theorem logExponent_of_pos (q : ℚ) (h0 : 0 < q) : logExponent q = Int.log 2 q := by
  unfold logExponent
  rw [if_neg]
  rw [not_lt]
  have h1 : (2:ℚ) ^ (Int.log 2 q) ≤ q := by
    have := Int.zpow_log_le_self (b := 2) (by norm_num) h0
    rwa [show ((2:ℕ) : ℚ) = (2:ℚ) from by norm_num] at this
  have h2 : (0:ℚ) < (2:ℚ) ^ (-Int.log 2 q) := two_zpow_pos _
  calc (1:ℚ) = (2:ℚ) ^ (Int.log 2 q) * (2:ℚ) ^ (-Int.log 2 q) := by
        rw [two_zpow_mul]
        simp
  _ ≤ q * (2:ℚ) ^ (-Int.log 2 q) := by
        exact mul_le_mul_of_nonneg_right h1 (le_of_lt h2)

/-- encodeFinite on a normalized representable value: no carry occurs, the
biased exponent is in the normal range, and the significand is the
mantissa minus the hidden bit plus the scaled rounding constant. -/
theorem encodeFinite_normal (p : FloatPolyfill) (hr0 : 0 ≤ p.roundTo)
    (hr1 : p.roundTo * 2 ^ p.numSignificandBits < 1)
    (sgn : Bool) (M : ℕ) (e : ℤ)
    (hM1 : 2 ^ p.numSignificandBits ≤ M) (hM2 : M < 2 ^ (p.numSignificandBits + 1))
    (he1 : 1 ≤ e + (p.exponentBias : ℤ)) (he2 : e + (p.exponentBias : ℤ) ≤ (p.exponentMax : ℤ) - 1)
    (q : ℚ) (hq : q = (cond sgn (-1) 1) * M * (2:ℚ) ^ (e - (p.numSignificandBits : ℤ))) :
    p.encodeFinite q =
      (cond sgn 1 0, (e + (p.exponentBias : ℤ)).toNat,
       ((M : ℚ) - 2 ^ p.numSignificandBits) + p.roundTo * 2 ^ p.numSignificandBits) := by
  set sig := p.numSignificandBits with hsig
  set S : ℚ := (2:ℚ) ^ sig with hS
  have hSpos : (0:ℚ) < S := by positivity
  have hSz : (2:ℚ) ^ ((sig : ℤ)) = S := two_zpow_natCast sig
  set E : ℚ := (2:ℚ) ^ e with hE
  have hEpos : (0:ℚ) < E := two_zpow_pos e
  have hES : (2:ℚ) ^ (e - (sig : ℤ)) = E / S := by
    rw [zpow_sub₀ (by norm_num : (2:ℚ) ≠ 0), hSz]
  have hMpos : (0:ℚ) < (M : ℚ) := by
    have : (0:ℕ) < M := lt_of_lt_of_le (Nat.pos_pow_of_pos _ (by norm_num)) hM1
    exact_mod_cast this
  have hMS1 : S ≤ (M : ℚ) := by
    rw [hS]
    exact_mod_cast hM1
  have hMS2 : (M : ℚ) < 2 * S := by
    rw [hS]
    have : (M : ℚ) < ((2 ^ (sig + 1) : ℕ) : ℚ) := by exact_mod_cast hM2
    calc (M : ℚ) < ((2 ^ (sig + 1) : ℕ) : ℚ) := this
    _ = 2 * 2 ^ sig := by push_cast; ring
  have habs : |q| = (M : ℚ) * E / S := by
    rw [hq, hES]
    cases sgn
    · simp only [cond]
      rw [abs_of_pos (by positivity)]
      ring
    · simp only [cond]
      have hneg : (-1 : ℚ) * (M : ℚ) * (E / S) < 0 := by
        have := mul_pos hMpos (div_pos hEpos hSpos)
        nlinarith
      rw [abs_of_neg hneg]
      ring
  have hlog : Int.log 2 |q| = e := by
    apply log2_eq_of_bounds _ e (by rw [habs]; positivity)
    · rw [habs, ← hE]
      rw [le_div_iff₀ hSpos]
      nlinarith
    · rw [habs]
      rw [div_lt_iff₀ hSpos]
      have : (2:ℚ) ^ (e + 1) = 2 * E := by
        rw [zpow_add₀ (by norm_num : (2:ℚ) ≠ 0) e 1, hE]
        ring
      rw [this]
      nlinarith
  have hlogExp : logExponent |q| = e := by
    rw [logExponent_of_pos _ (by rw [habs]; positivity), hlog]
  have hravB : 1 ≤ e + (p.exponentBias : ℤ) := he1
  have hav2 : p.roundedAbs |q| e = |q| + p.roundTo * E := by
    unfold FloatPolyfill.roundedAbs
    rw [if_pos hravB]
    rw [show p.roundTo / (2:ℚ) ^ (-e) = p.roundTo * E from by
      rw [zpow_neg, div_eq_mul_inv, inv_inv, hE]]
  have hinv : E * (2:ℚ) ^ (-e) = 1 := by
    rw [hE, two_zpow_mul]
    simp
  have hcarryval : (|q| + p.roundTo * E) * (2:ℚ) ^ (-e) = (M : ℚ) / S + p.roundTo := by
    rw [habs]
    rw [show ((M : ℚ) * E / S + p.roundTo * E) * (2:ℚ) ^ (-e) =
      ((M : ℚ) / S + p.roundTo) * (E * (2:ℚ) ^ (-e)) from by ring, hinv, mul_one]
  have hrtS : p.roundTo < 1 / S := by
    rw [lt_div_iff₀ hSpos]
    exact hr1
  have hnocarry : ¬ (2 ≤ p.roundedAbs |q| e * (2:ℚ) ^ (-e)) := by
    rw [hav2, hcarryval, not_le]
    have hMS3 : (M : ℚ) / S ≤ 2 - 1 / S := by
      rw [div_le_iff₀ hSpos]
      have : (M : ℚ) ≤ 2 * S - 1 := by
        have h1 : (M : ℚ) + 1 ≤ ((2 ^ (sig + 1) : ℕ) : ℚ) := by exact_mod_cast hM2
        have h2 : ((2 ^ (sig + 1) : ℕ) : ℚ) = 2 * S := by rw [hS]; push_cast; ring
        linarith
      calc (M : ℚ) ≤ 2 * S - 1 := this
      _ = (2 - 1 / S) * S := by field_simp
    have h1S : 0 < 1 / S := by positivity
    linarith
  have hcarr : p.carriedExponent |q| = e := by
    unfold FloatPolyfill.carriedExponent
    rw [hlogExp, if_neg hnocarry]
  have hsgn : (if q < 0 then (1:ℕ) else 0) = cond sgn 1 0 := by
    cases sgn
    · simp only [cond]
      rw [if_neg]
      rw [not_lt, hq]
      simp only [cond]
      positivity
    · simp only [cond]
      rw [if_pos]
      rw [hq]
      simp only [cond]
      have : (0:ℚ) < (M : ℚ) * (2:ℚ) ^ (e - (sig : ℤ)) := by positivity
      nlinarith
  unfold FloatPolyfill.encodeFinite
  simp only [hsgn, hlogExp, hcarr, hav2]
  rw [if_neg (by omega), if_neg (by omega), hcarryval]
  refine congrArg _ (congrArg _ ?_)
  rw [← hsig, ← hS]
  field_simp
  ring

/-- encodeFinite on a denormalized representable value: the biased exponent
falls below 1 and the significand is the denormal mantissa plus the scaled
rounding constant. -/
theorem encodeFinite_denormal (p : FloatPolyfill) (hr0 : 0 ≤ p.roundTo)
    (hr1 : p.roundTo * 2 ^ p.numSignificandBits < 1)
    (hEm : 1 ≤ p.exponentMax)
    (sgn : Bool) (D : ℕ) (hD1 : 1 ≤ D) (hD2 : D < 2 ^ p.numSignificandBits)
    (q : ℚ)
    (hq : q = (cond sgn (-1) 1) * D *
      (2:ℚ) ^ (1 - (p.exponentBias : ℤ) - (p.numSignificandBits : ℤ))) :
    p.encodeFinite q = (cond sgn 1 0, 0, (D : ℚ) + p.roundTo * 2 ^ p.numSignificandBits) := by
  set sig := p.numSignificandBits with hsig
  set S : ℚ := (2:ℚ) ^ sig with hS
  have hSpos : (0:ℚ) < S := by positivity
  have hSz : (2:ℚ) ^ ((sig : ℤ)) = S := two_zpow_natCast sig
  set bias := (p.exponentBias : ℤ) with hbias
  set W : ℚ := (2:ℚ) ^ (1 - bias - (sig : ℤ)) with hW
  have hWpos : (0:ℚ) < W := two_zpow_pos _
  have hDpos : (0:ℚ) < (D : ℚ) := by exact_mod_cast hD1
  set Ld := Int.log 2 (D : ℚ) with hLd
  have hLd0 : 0 ≤ Ld := by
    rw [hLd, Int.log_of_one_le_right _ (by exact_mod_cast hD1 : (1:ℚ) ≤ (D : ℚ))]
    exact Int.natCast_nonneg _
  have hLdlow : (2:ℚ) ^ Ld ≤ (D : ℚ) := by
    have := Int.zpow_log_le_self (b := 2) (by norm_num) hDpos
    rwa [show ((2:ℕ) : ℚ) = (2:ℚ) from by norm_num] at this
  have hLdhigh : (D : ℚ) < (2:ℚ) ^ (Ld + 1) := by
    have := Int.lt_zpow_succ_log_self (b := 2) (by norm_num) ((D : ℚ))
    rwa [show ((2:ℕ) : ℚ) = (2:ℚ) from by norm_num] at this
  have hLdsig : Ld < (sig : ℤ) := by
    rw [hLd]
    rw [← Int.lt_zpow_iff_log_lt (by norm_num) hDpos]
    rw [show ((2:ℕ) : ℚ) = (2:ℚ) from by norm_num, two_zpow_natCast]
    exact_mod_cast hD2
  set e : ℤ := Ld + (1 - bias - (sig : ℤ)) with he
  have habs : |q| = (D : ℚ) * W := by
    rw [hq]
    cases sgn
    · simp only [cond]
      rw [abs_of_pos (by positivity)]
      ring
    · simp only [cond]
      have hneg : (-1 : ℚ) * (D : ℚ) * W < 0 := by nlinarith
      rw [abs_of_neg hneg]
      ring
  have hlog : Int.log 2 |q| = e := by
    apply log2_eq_of_bounds _ e (by rw [habs]; positivity)
    · rw [habs, he, ← two_zpow_mul, ← hW]
      exact mul_le_mul_of_nonneg_right hLdlow (le_of_lt hWpos)
    · rw [habs]
      have hexp : (2:ℚ) ^ (e + 1) = (2:ℚ) ^ (Ld + 1) * W := by
        rw [two_zpow_mul, he]
        ring_nf
      rw [hexp]
      exact mul_lt_mul_of_pos_right hLdhigh hWpos
  have hlogExp : logExponent |q| = e := by
    rw [logExponent_of_pos _ (by rw [habs]; positivity), hlog]
  have hebias : e + bias = Ld + 1 - (sig : ℤ) := by rw [he]; ring
  have hav2 : p.roundedAbs |q| e = |q| + p.roundTo * (2:ℚ) ^ ((1:ℤ) - bias) := by
    unfold FloatPolyfill.roundedAbs
    rw [if_neg (by omega)]
  have hcarryval : (|q| + p.roundTo * (2:ℚ) ^ ((1:ℤ) - bias)) * (2:ℚ) ^ (-e) =
      ((D : ℚ) + p.roundTo * S) * (2:ℚ) ^ (-Ld) := by
    rw [habs]
    have e1 : W * (2:ℚ) ^ (-e) = (2:ℚ) ^ (-Ld) := by
      rw [hW, two_zpow_mul]
      refine congrArg _ ?_
      omega
    have e2 : (2:ℚ) ^ ((1:ℤ) - bias) * (2:ℚ) ^ (-e) = S * (2:ℚ) ^ (-Ld) := by
      rw [two_zpow_mul, ← hSz, two_zpow_mul]
      refine congrArg _ ?_
      omega
    calc ((D : ℚ) * W + p.roundTo * (2:ℚ) ^ ((1:ℤ) - bias)) * (2:ℚ) ^ (-e)
        = (D : ℚ) * (W * (2:ℚ) ^ (-e)) +
          p.roundTo * ((2:ℚ) ^ ((1:ℤ) - bias) * (2:ℚ) ^ (-e)) := by ring
    _ = (D : ℚ) * (2:ℚ) ^ (-Ld) + p.roundTo * (S * (2:ℚ) ^ (-Ld)) := by rw [e1, e2]
    _ = ((D : ℚ) + p.roundTo * S) * (2:ℚ) ^ (-Ld) := by ring
  have hDbound : (D : ℚ) + 1 ≤ (2:ℚ) ^ (Ld + 1) := by
    have hn : D < 2 ^ (Ld + 1).toNat := by
      have : ((D : ℚ)) < (2:ℚ) ^ ((Ld + 1).toNat : ℤ) := by
        rwa [show ((Ld + 1).toNat : ℤ) = Ld + 1 from by omega]
      rw [two_zpow_natCast] at this
      exact_mod_cast this
    have : (D : ℚ) + 1 ≤ ((2 ^ (Ld + 1).toNat : ℕ) : ℚ) := by exact_mod_cast hn
    calc (D : ℚ) + 1 ≤ ((2 ^ (Ld + 1).toNat : ℕ) : ℚ) := this
    _ = (2:ℚ) ^ ((Ld + 1).toNat : ℤ) := by rw [two_zpow_natCast]; push_cast; ring
    _ = (2:ℚ) ^ (Ld + 1) := by refine congrArg _ ?_; omega
  have hnocarry : ¬ (2 ≤ p.roundedAbs |q| e * (2:ℚ) ^ (-e)) := by
    rw [hav2, hcarryval, not_le]
    have hsum : (D : ℚ) + p.roundTo * S < (2:ℚ) ^ (Ld + 1) := by
      have : p.roundTo * S < 1 := hr1
      linarith
    have hpos : (0:ℚ) < (2:ℚ) ^ (-Ld) := two_zpow_pos _
    calc ((D : ℚ) + p.roundTo * S) * (2:ℚ) ^ (-Ld)
        < (2:ℚ) ^ (Ld + 1) * (2:ℚ) ^ (-Ld) := by
          exact mul_lt_mul_of_pos_right hsum hpos
    _ = 2 := by
          rw [two_zpow_mul]
          rw [show Ld + 1 + -Ld = 1 from by ring]
          norm_num
  have hcarr : p.carriedExponent |q| = e := by
    unfold FloatPolyfill.carriedExponent
    rw [hlogExp, if_neg hnocarry]
  have hsgn : (if q < 0 then (1:ℕ) else 0) = cond sgn 1 0 := by
    cases sgn
    · simp only [cond]
      rw [if_neg]
      rw [not_lt, hq]
      simp only [cond]
      positivity
    · simp only [cond]
      rw [if_pos]
      rw [hq]
      simp only [cond]
      have : (0:ℚ) < (D : ℚ) * (2:ℚ) ^ (1 - bias - (sig : ℤ)) := by positivity
      nlinarith
  unfold FloatPolyfill.encodeFinite
  simp only [hsgn, hlogExp, hcarr, hav2]
  rw [if_neg (by omega), if_pos (by omega)]
  refine congrArg _ (congrArg _ ?_)
  rw [habs]
  have e3 : W * (2:ℚ) ^ (bias - 1) = (2:ℚ) ^ (-(sig : ℤ)) := by
    rw [hW, two_zpow_mul]
    refine congrArg _ ?_
    ring
  have e4 : (2:ℚ) ^ ((1:ℤ) - bias) * (2:ℚ) ^ (bias - 1) = 1 := by
    rw [two_zpow_mul]
    rw [show (1:ℤ) - bias + (bias - 1) = 0 from by ring]
    norm_num
  have e5 : (2:ℚ) ^ (-(sig : ℤ)) * S = 1 := by
    rw [← hSz, two_zpow_mul]
    simp
  calc ((D : ℚ) * W + p.roundTo * (2:ℚ) ^ ((1:ℤ) - bias)) * (2:ℚ) ^ (bias - 1) *
        (2:ℚ) ^ sig
      = (D : ℚ) * ((W * (2:ℚ) ^ (bias - 1)) * S) +
        p.roundTo * (((2:ℚ) ^ ((1:ℤ) - bias) * (2:ℚ) ^ (bias - 1)) * S) := by
        rw [← hS]
        ring
  _ = (D : ℚ) * ((2:ℚ) ^ (-(sig : ℤ)) * S) + p.roundTo * (1 * S) := by rw [e3, e4]
  _ = (D : ℚ) + p.roundTo * (2:ℚ) ^ sig := by
        rw [e5, ← hS]
        ring

/-- Exactly representable finite values of a float format: zero, or a
normalized value with hidden-bit mantissa M and exponent in the normal
range, or a denormalized value. -/
def FloatPolyfill.Representable (p : FloatPolyfill) (q : ℚ) : Prop :=
  q = 0 ∨
  (∃ (sgn : Bool) (M : ℕ) (e : ℤ),
    2 ^ p.numSignificandBits ≤ M ∧ M < 2 ^ (p.numSignificandBits + 1) ∧
    1 ≤ e + (p.exponentBias : ℤ) ∧ e + (p.exponentBias : ℤ) ≤ (p.exponentMax : ℤ) - 1 ∧
    q = (cond sgn (-1) 1) * M * (2:ℚ) ^ (e - (p.numSignificandBits : ℤ))) ∨
  (∃ (sgn : Bool) (D : ℕ), 1 ≤ D ∧ D < 2 ^ p.numSignificandBits ∧
    q = (cond sgn (-1) 1) * D *
      (2:ℚ) ^ (1 - (p.exponentBias : ℤ) - (p.numSignificandBits : ℤ)))

theorem roundTo32_nonneg : 0 ≤ float32Polyfill.roundTo := by
  show (0:ℚ) ≤ (2:ℚ)^(-24 : ℤ) - (2:ℚ)^(-77 : ℤ)
  have h1 : (2:ℚ)^(-77 : ℤ) ≤ (2:ℚ)^(-24 : ℤ) :=
    zpow_le_zpow_right₀ (by norm_num) (by norm_num)
  linarith

theorem roundTo32_lt : float32Polyfill.roundTo * 2 ^ float32Polyfill.numSignificandBits < 1 := by
  show ((2:ℚ)^(-24 : ℤ) - (2:ℚ)^(-77 : ℤ)) * 2 ^ (23:ℕ) < 1
  have h2 : ((2:ℚ)^(-24 : ℤ) - (2:ℚ)^(-77 : ℤ)) * 2 ^ (23:ℕ) =
      (2:ℚ)^(-1 : ℤ) - (2:ℚ)^(-54 : ℤ) := by
    rw [← two_zpow_natCast 23, sub_mul, two_zpow_mul, two_zpow_mul]
    norm_num
  rw [h2]
  have h3 : (0:ℚ) < (2:ℚ)^(-54 : ℤ) := two_zpow_pos _
  have h4 : (2:ℚ)^(-1 : ℤ) < 1 := by norm_num
  linarith

theorem roundTo64_nonneg : 0 ≤ float64Polyfill.roundTo := le_refl 0

theorem roundTo64_lt : float64Polyfill.roundTo * 2 ^ float64Polyfill.numSignificandBits < 1 := by
  show (0:ℚ) * 2 ^ (52:ℕ) < 1
  norm_num

/-- Floor of an integer plus a small nonnegative remainder. -/
theorem floor_intCast_add_small (z : ℤ) (r : ℚ) (h0 : 0 ≤ r) (h1 : r < 1) :
    ⌊(z : ℚ) + r⌋ = z := by
  rw [Int.floor_eq_iff]
  constructor
  · linarith
  · push_cast
    linarith

/-- FloatPolyfill.get through a parsed zero exponent (zero or denormal),
float32 constants. -/
theorem get32_of_parts_denormal (bytes : List ℕ) (s M : ℕ)
    (hp : float32Polyfill.getParts bytes false = (s, 0, M)) :
    float32Polyfill.get bytes false =
      .fin ((if s = 1 then (-1:ℚ) else 1) * M * (2:ℚ) ^ (-149 : ℤ)) := by
  unfold FloatPolyfill.get
  rw [hp]
  simp only
  rw [if_pos trivial]
  refine congrArg _ ?_
  rw [show float32Polyfill.exponentBias = 127 from rfl,
      show float32Polyfill.numSignificandBits = 23 from rfl]
  norm_num

/-- FloatPolyfill.get through a parsed normal exponent, float32
constants. -/
theorem get32_of_parts_normal (bytes : List ℕ) (s e M : ℕ)
    (hp : float32Polyfill.getParts bytes false = (s, e, M))
    (h1 : e ≠ 0) (h2 : e ≠ 255) :
    float32Polyfill.get bytes false =
      .fin ((if s = 1 then (-1:ℚ) else 1) * ((M : ℚ) + 2 ^ 23) *
        (2:ℚ) ^ ((e : ℤ) - 150)) := by
  unfold FloatPolyfill.get
  rw [hp]
  simp only
  rw [if_neg h1, if_neg (by rw [show float32Polyfill.exponentMax = 255 from rfl]; exact h2)]
  refine congrArg _ ?_
  rw [show float32Polyfill.exponentBias = 127 from rfl,
      show float32Polyfill.numSignificandBits = 23 from rfl]
  rw [show ((e : ℤ) - (127 : ℕ) - (23 : ℕ)) = (e : ℤ) - 150 from by push_cast; ring]

/-- Endianness wrapper: a stream roundtrip follows from the big-endian
buffer-level roundtrip and the byte count. -/
theorem FloatCodec.roundtrip_of_be (p : FloatPolyfill) (v w : JSNum)
    (hlen : (p.set v false).length = p.byteLength)
    (hbe : p.get (p.set v false) false = w) :
    ∀ (le : Bool) (rest : List ℕ),
      FloatCodec.get p (FloatCodec.set p v le ++ rest) le = some (w, rest) := by
  intro le rest
  cases le
  case false =>
    unfold FloatCodec.get FloatCodec.set
    rw [if_pos (by rw [List.length_append, hlen]; omega)]
    rw [show p.byteLength = (p.set v false).length from hlen.symm]
    rw [List.take_left, List.drop_left, hbe]
  case true =>
    unfold FloatCodec.get FloatCodec.set
    rw [FloatPolyfill.set_le_reverse]
    have hlrev : (p.set v false).reverse.length = p.byteLength := by
      rw [List.length_reverse, hlen]
    rw [if_pos (by rw [List.length_append, hlrev]; omega)]
    rw [show p.byteLength = (p.set v false).reverse.length from hlrev.symm]
    rw [List.take_left, List.drop_left]
    rw [FloatPolyfill.get_reverse, hbe]

/-- Sign coercion: the encoder sign bit against the representation sign. -/
theorem cond_sign_eq (sgn : Bool) :
    (if (cond sgn (1:ℕ) 0) = 1 then (-1:ℚ) else 1) = cond sgn (-1) 1 := by
  cases sgn <;> norm_num

/-- Round trip for exactly representable float32 values through the
jettison float codec, for both endiannesses. -/
theorem float32_roundtrip (q : ℚ) (h : float32Polyfill.Representable q)
    (le : Bool) (rest : List ℕ) :
    FloatCodec.get float32Polyfill (FloatCodec.set float32Polyfill (.fin q) le ++ rest) le =
      some (.fin q, rest) := by
  rcases h with hz | ⟨sgn, M, e, hM1, hM2, he1, he2, heq⟩ | ⟨sgn, D, hD1, hD2, heq⟩
  · subst hz
    have hset : float32Polyfill.set (.fin 0) false = [0, 0, 0, 0] := by
      simp only [FloatPolyfill.set]
      rw [if_pos trivial]
      rw [partsToBytes32_be 0 0 0 (le_refl 0) (by norm_num) (by norm_num) (by norm_num)]
      norm_num
    apply FloatCodec.roundtrip_of_be
    · rw [hset]
      rfl
    · rw [hset]
      rw [get32_of_parts_denormal [0, 0, 0, 0] 0 0 (by rw [getParts32_be]; rfl)]
      norm_num
  · have hM1c : 2 ^ float32Polyfill.numSignificandBits ≤ M := hM1
    simp only [show float32Polyfill.numSignificandBits = 23 from rfl,
      show float32Polyfill.exponentBias = 127 from rfl,
      show float32Polyfill.exponentMax = 255 from rfl] at hM1 hM2 he1 he2 heq
    have hMpos : (0:ℚ) < (M : ℚ) := by
      have : (0:ℕ) < M := lt_of_lt_of_le (by norm_num) hM1
      exact_mod_cast this
    have hq0 : q ≠ 0 := by
      rw [heq]
      refine mul_ne_zero (mul_ne_zero ?_ (ne_of_gt hMpos)) (ne_of_gt (two_zpow_pos _))
      cases sgn <;> norm_num
    set r : ℚ := float32Polyfill.roundTo * 2 ^ (23:ℕ) with hr
    have hr0 : 0 ≤ r := mul_nonneg roundTo32_nonneg (by positivity)
    have hr1 : r < 1 := roundTo32_lt
    set msig : ℚ := ((M : ℚ) - 2 ^ (23:ℕ)) + r with hmsig
    have hmsig_cast : msig = (((M : ℤ) - 2 ^ 23 : ℤ) : ℚ) + r := by
      rw [hmsig]
      push_cast
      ring
    have hfloor : ⌊msig⌋ = (M : ℤ) - 2 ^ 23 :=
      hmsig_cast ▸ floor_intCast_add_small _ r hr0 hr1
    have hmsig0 : 0 ≤ msig := by
      rw [hmsig_cast]
      have : (0:ℚ) ≤ (((M : ℤ) - 2 ^ 23 : ℤ) : ℚ) := by
        have : (0:ℤ) ≤ (M : ℤ) - 2 ^ 23 := by
          have := hM1
          omega
        exact_mod_cast this
      linarith
    have hset : float32Polyfill.set (.fin q) false =
        float32Polyfill.partsToBytes (cond sgn 1 0) (e + 127).toNat msig false := by
      simp only [FloatPolyfill.set]
      rw [if_neg hq0]
      rw [encodeFinite_normal float32Polyfill roundTo32_nonneg roundTo32_lt sgn M e
        hM1 hM2 he1 he2 q heq]
      rfl
    have hec : (e + 127).toNat < 256 := by omega
    have hfrt := parts_roundtrip32 (cond sgn 1 0) (e + 127).toNat msig hmsig0
      (by rw [hfloor]; omega) (by cases sgn <;> norm_num) hec
    apply FloatCodec.roundtrip_of_be
    · rw [hset, partsToBytes32_be _ _ _ hmsig0 (by rw [hfloor]; omega)
        (by cases sgn <;> norm_num) hec]
      rfl
    · rw [hset]
      rw [get32_of_parts_normal _ _ _ _ hfrt (by omega) (by omega)]
      refine congrArg _ ?_
      rw [cond_sign_eq, heq]
      have hcast : ((⌊msig⌋.toNat : ℚ)) + 2 ^ 23 = (M : ℚ) := by
        have hge : (2:ℤ) ^ 23 ≤ (M : ℤ) := by exact_mod_cast hM1
        have : (⌊msig⌋.toNat : ℤ) = (M : ℤ) - 2 ^ 23 := by
          rw [hfloor]
          omega
        have h2 : (⌊msig⌋.toNat : ℚ) = ((M : ℤ) : ℚ) - 2 ^ 23 := by
          exact_mod_cast congrArg (fun z : ℤ => (z : ℚ)) this
        rw [h2]
        push_cast
        ring
      rw [hcast]
      refine congrArg _ ?_
      refine congrArg _ ?_
      omega
  · simp only [show float32Polyfill.numSignificandBits = 23 from rfl,
      show float32Polyfill.exponentBias = 127 from rfl,
      show float32Polyfill.exponentMax = 255 from rfl] at hD2 heq
    have hDpos : (0:ℚ) < (D : ℚ) := by exact_mod_cast hD1
    have hq0 : q ≠ 0 := by
      rw [heq]
      refine mul_ne_zero (mul_ne_zero ?_ (ne_of_gt hDpos)) (ne_of_gt (two_zpow_pos _))
      cases sgn <;> norm_num
    set r : ℚ := float32Polyfill.roundTo * 2 ^ (23:ℕ) with hr
    have hr0 : 0 ≤ r := mul_nonneg roundTo32_nonneg (by positivity)
    have hr1 : r < 1 := roundTo32_lt
    set msig : ℚ := (D : ℚ) + r with hmsig
    have hmsig_cast : msig = (((D : ℕ) : ℤ) : ℚ) + r := by
      rw [hmsig]
      push_cast
      ring
    have hfloor : ⌊msig⌋ = (D : ℤ) :=
      hmsig_cast ▸ floor_intCast_add_small _ r hr0 hr1
    have hmsig0 : 0 ≤ msig := by
      rw [hmsig]
      linarith
    have hset : float32Polyfill.set (.fin q) false =
        float32Polyfill.partsToBytes (cond sgn 1 0) 0 msig false := by
      simp only [FloatPolyfill.set]
      rw [if_neg hq0]
      rw [encodeFinite_denormal float32Polyfill roundTo32_nonneg roundTo32_lt
        (by norm_num [float32Polyfill, FloatPolyfill.exponentMax, FloatPolyfill.numExponentBits])
        sgn D hD1 hD2 q heq]
      rfl
    have hfrt := parts_roundtrip32 (cond sgn 1 0) 0 msig hmsig0
      (by rw [hfloor]; exact_mod_cast hD2) (by cases sgn <;> norm_num) (by norm_num)
    apply FloatCodec.roundtrip_of_be
    · rw [hset, partsToBytes32_be _ _ _ hmsig0 (by rw [hfloor]; exact_mod_cast hD2)
        (by cases sgn <;> norm_num) (by norm_num)]
      rfl
    · rw [hset]
      rw [get32_of_parts_denormal _ _ _ hfrt]
      refine congrArg _ ?_
      rw [cond_sign_eq, heq]
      have hcast : ((⌊msig⌋.toNat : ℚ)) = (D : ℚ) := by
        rw [hfloor]
        norm_num
      rw [hcast]
      refine congrArg _ ?_
      refine congrArg _ ?_
      norm_num [float32Polyfill, FloatPolyfill.exponentBias, FloatPolyfill.exponentMax,
        FloatPolyfill.numExponentBits]

/-- FloatPolyfill.get through a parsed zero exponent, float64 constants. -/
theorem get64_of_parts_denormal (bytes : List ℕ) (s M : ℕ)
    (hp : float64Polyfill.getParts bytes false = (s, 0, M)) :
    float64Polyfill.get bytes false =
      .fin ((if s = 1 then (-1:ℚ) else 1) * M * (2:ℚ) ^ (-1074 : ℤ)) := by
  unfold FloatPolyfill.get
  rw [hp]
  simp only
  rw [if_pos trivial]
  refine congrArg _ ?_
  rw [show float64Polyfill.exponentBias = 1023 from rfl,
      show float64Polyfill.numSignificandBits = 52 from rfl]
  norm_num

/-- FloatPolyfill.get through a parsed normal exponent, float64
constants. -/
theorem get64_of_parts_normal (bytes : List ℕ) (s e M : ℕ)
    (hp : float64Polyfill.getParts bytes false = (s, e, M))
    (h1 : e ≠ 0) (h2 : e ≠ 2047) :
    float64Polyfill.get bytes false =
      .fin ((if s = 1 then (-1:ℚ) else 1) * ((M : ℚ) + 2 ^ 52) *
        (2:ℚ) ^ ((e : ℤ) - 1075)) := by
  unfold FloatPolyfill.get
  rw [hp]
  simp only
  rw [if_neg h1, if_neg (by rw [show float64Polyfill.exponentMax = 2047 from rfl]; exact h2)]
  refine congrArg _ ?_
  rw [show float64Polyfill.exponentBias = 1023 from rfl,
      show float64Polyfill.numSignificandBits = 52 from rfl]
  rw [show ((e : ℤ) - (1023 : ℕ) - (52 : ℕ)) = (e : ℤ) - 1075 from by push_cast; ring]

/-- Round trip for exactly representable float64 values through the
jettison float codec, for both endiannesses. -/
theorem float64_roundtrip (q : ℚ) (h : float64Polyfill.Representable q)
    (le : Bool) (rest : List ℕ) :
    FloatCodec.get float64Polyfill (FloatCodec.set float64Polyfill (.fin q) le ++ rest) le =
      some (.fin q, rest) := by
  rcases h with hz | ⟨sgn, M, e, hM1, hM2, he1, he2, heq⟩ | ⟨sgn, D, hD1, hD2, heq⟩
  · subst hz
    have hset : float64Polyfill.set (.fin 0) false = [0, 0, 0, 0, 0, 0, 0, 0] := by
      simp only [FloatPolyfill.set]
      rw [if_pos trivial]
      rw [partsToBytes64_be 0 0 0 (le_refl 0) (by norm_num) (by norm_num) (by norm_num)]
      norm_num
    apply FloatCodec.roundtrip_of_be
    · rw [hset]
      rfl
    · rw [hset]
      rw [get64_of_parts_denormal [0, 0, 0, 0, 0, 0, 0, 0] 0 0 (by rw [getParts64_be]; rfl)]
      norm_num
  · have hM1c : 2 ^ float64Polyfill.numSignificandBits ≤ M := hM1
    simp only [show float64Polyfill.numSignificandBits = 52 from rfl,
      show float64Polyfill.exponentBias = 1023 from rfl,
      show float64Polyfill.exponentMax = 2047 from rfl] at hM1 hM2 he1 he2 heq
    have hMpos : (0:ℚ) < (M : ℚ) := by
      have : (0:ℕ) < M := lt_of_lt_of_le (by norm_num) hM1
      exact_mod_cast this
    have hq0 : q ≠ 0 := by
      rw [heq]
      refine mul_ne_zero (mul_ne_zero ?_ (ne_of_gt hMpos)) (ne_of_gt (two_zpow_pos _))
      cases sgn <;> norm_num
    set r : ℚ := float64Polyfill.roundTo * 2 ^ (52:ℕ) with hr
    have hr0 : 0 ≤ r := mul_nonneg roundTo64_nonneg (by positivity)
    have hr1 : r < 1 := roundTo64_lt
    set msig : ℚ := ((M : ℚ) - 2 ^ (52:ℕ)) + r with hmsig
    have hmsig_cast : msig = (((M : ℤ) - 2 ^ 52 : ℤ) : ℚ) + r := by
      rw [hmsig]
      push_cast
      ring
    have hfloor : ⌊msig⌋ = (M : ℤ) - 2 ^ 52 :=
      hmsig_cast ▸ floor_intCast_add_small _ r hr0 hr1
    have hmsig0 : 0 ≤ msig := by
      rw [hmsig_cast]
      have : (0:ℚ) ≤ (((M : ℤ) - 2 ^ 52 : ℤ) : ℚ) := by
        have : (0:ℤ) ≤ (M : ℤ) - 2 ^ 52 := by
          have := hM1
          omega
        exact_mod_cast this
      linarith
    have hset : float64Polyfill.set (.fin q) false =
        float64Polyfill.partsToBytes (cond sgn 1 0) (e + 1023).toNat msig false := by
      simp only [FloatPolyfill.set]
      rw [if_neg hq0]
      rw [encodeFinite_normal float64Polyfill roundTo64_nonneg roundTo64_lt sgn M e
        hM1 hM2 he1 he2 q heq]
      rfl
    have hec : (e + 1023).toNat < 2048 := by omega
    have hfrt := parts_roundtrip64 (cond sgn 1 0) (e + 1023).toNat msig hmsig0
      (by rw [hfloor]; omega) (by cases sgn <;> norm_num) hec
    apply FloatCodec.roundtrip_of_be
    · rw [hset, partsToBytes64_be _ _ _ hmsig0 (by rw [hfloor]; omega)
        (by cases sgn <;> norm_num) hec]
      rfl
    · rw [hset]
      rw [get64_of_parts_normal _ _ _ _ hfrt (by omega) (by omega)]
      refine congrArg _ ?_
      rw [cond_sign_eq, heq]
      have hcast : ((⌊msig⌋.toNat : ℚ)) + 2 ^ 52 = (M : ℚ) := by
        have hge : (2:ℤ) ^ 52 ≤ (M : ℤ) := by exact_mod_cast hM1
        have h1 : (⌊msig⌋.toNat : ℤ) = (M : ℤ) - 2 ^ 52 := by
          rw [hfloor]
          omega
        have h2 : (⌊msig⌋.toNat : ℚ) = ((M : ℤ) : ℚ) - 2 ^ 52 := by
          exact_mod_cast congrArg (fun z : ℤ => (z : ℚ)) h1
        rw [h2]
        push_cast
        ring
      rw [hcast]
      refine congrArg _ ?_
      refine congrArg _ ?_
      omega
  · simp only [show float64Polyfill.numSignificandBits = 52 from rfl,
      show float64Polyfill.exponentBias = 1023 from rfl,
      show float64Polyfill.exponentMax = 2047 from rfl] at hD2 heq
    have hDpos : (0:ℚ) < (D : ℚ) := by exact_mod_cast hD1
    have hq0 : q ≠ 0 := by
      rw [heq]
      refine mul_ne_zero (mul_ne_zero ?_ (ne_of_gt hDpos)) (ne_of_gt (two_zpow_pos _))
      cases sgn <;> norm_num
    set r : ℚ := float64Polyfill.roundTo * 2 ^ (52:ℕ) with hr
    have hr0 : 0 ≤ r := mul_nonneg roundTo64_nonneg (by positivity)
    have hr1 : r < 1 := roundTo64_lt
    set msig : ℚ := (D : ℚ) + r with hmsig
    have hmsig_cast : msig = (((D : ℕ) : ℤ) : ℚ) + r := by
      rw [hmsig]
      push_cast
      ring
    have hfloor : ⌊msig⌋ = (D : ℤ) :=
      hmsig_cast ▸ floor_intCast_add_small _ r hr0 hr1
    have hmsig0 : 0 ≤ msig := by
      rw [hmsig]
      linarith
    have hset : float64Polyfill.set (.fin q) false =
        float64Polyfill.partsToBytes (cond sgn 1 0) 0 msig false := by
      simp only [FloatPolyfill.set]
      rw [if_neg hq0]
      rw [encodeFinite_denormal float64Polyfill roundTo64_nonneg roundTo64_lt
        (by norm_num [float64Polyfill, FloatPolyfill.exponentMax, FloatPolyfill.numExponentBits])
        sgn D hD1 hD2 q heq]
      rfl
    have hfrt := parts_roundtrip64 (cond sgn 1 0) 0 msig hmsig0
      (by rw [hfloor]; exact_mod_cast hD2) (by cases sgn <;> norm_num) (by norm_num)
    apply FloatCodec.roundtrip_of_be
    · rw [hset, partsToBytes64_be _ _ _ hmsig0 (by rw [hfloor]; exact_mod_cast hD2)
        (by cases sgn <;> norm_num) (by norm_num)]
      rfl
    · rw [hset]
      rw [get64_of_parts_denormal _ _ _ hfrt]
      refine congrArg _ ?_
      rw [cond_sign_eq, heq]
      have hcast : ((⌊msig⌋.toNat : ℚ)) = (D : ℚ) := by
        rw [hfloor]
        norm_num
      rw [hcast]
      refine congrArg _ ?_
      refine congrArg _ ?_
      norm_num

/-! Concrete byte patterns for the special float values. -/

theorem set64_nan_be : float64Polyfill.set .nan false = [127, 248, 0, 0, 0, 0, 0, 0] := by
  show float64Polyfill.partsToBytes 0 float64Polyfill.exponentMax
    ((2:ℚ) ^ (float64Polyfill.numSignificandBits - 1)) false = _
  rw [show float64Polyfill.exponentMax = 2047 from rfl,
      show float64Polyfill.numSignificandBits - 1 = 51 from rfl]
  rw [show ((2:ℚ) ^ (51:ℕ)) = (((2 ^ 51 : ℤ) : ℚ)) from by push_cast; ring]
  rw [partsToBytes64_be 0 2047 _ (by positivity) (by rw [Int.floor_intCast]; norm_num)
    (by norm_num) (by norm_num)]
  rw [Int.floor_intCast]
  norm_num [show Int.toNat 8 = 8 from rfl]

theorem set32_nan_be : float32Polyfill.set .nan false = [127, 192, 0, 0] := by
  show float32Polyfill.partsToBytes 0 float32Polyfill.exponentMax
    ((2:ℚ) ^ (float32Polyfill.numSignificandBits - 1)) false = _
  rw [show float32Polyfill.exponentMax = 255 from rfl,
      show float32Polyfill.numSignificandBits - 1 = 22 from rfl]
  rw [show ((2:ℚ) ^ (22:ℕ)) = (((2 ^ 22 : ℤ) : ℚ)) from by push_cast; ring]
  rw [partsToBytes32_be 0 255 _ (by positivity) (by rw [Int.floor_intCast]; norm_num)
    (by norm_num) (by norm_num)]
  rw [Int.floor_intCast]
  norm_num [show Int.toNat 64 = 64 from rfl]

theorem set64_inf_be : float64Polyfill.set .inf false = [127, 240, 0, 0, 0, 0, 0, 0] := by
  show float64Polyfill.partsToBytes 0 float64Polyfill.exponentMax 0 false = _
  rw [show float64Polyfill.exponentMax = 2047 from rfl]
  rw [partsToBytes64_be 0 2047 0 (le_refl 0) (by norm_num) (by norm_num) (by norm_num)]
  norm_num

theorem set64_ninf_be : float64Polyfill.set .ninf false = [255, 240, 0, 0, 0, 0, 0, 0] := by
  show float64Polyfill.partsToBytes 1 float64Polyfill.exponentMax 0 false = _
  rw [show float64Polyfill.exponentMax = 2047 from rfl]
  rw [partsToBytes64_be 1 2047 0 (le_refl 0) (by norm_num) (by norm_num) (by norm_num)]
  norm_num

theorem set32_inf_be : float32Polyfill.set .inf false = [127, 128, 0, 0] := by
  show float32Polyfill.partsToBytes 0 float32Polyfill.exponentMax 0 false = _
  rw [show float32Polyfill.exponentMax = 255 from rfl]
  rw [partsToBytes32_be 0 255 0 (le_refl 0) (by norm_num) (by norm_num) (by norm_num)]
  norm_num

theorem set32_ninf_be : float32Polyfill.set .ninf false = [255, 128, 0, 0] := by
  show float32Polyfill.partsToBytes 1 float32Polyfill.exponentMax 0 false = _
  rw [show float32Polyfill.exponentMax = 255 from rfl]
  rw [partsToBytes32_be 1 255 0 (le_refl 0) (by norm_num) (by norm_num) (by norm_num)]
  norm_num

theorem set64_zero_be : float64Polyfill.set (.fin 0) false = [0, 0, 0, 0, 0, 0, 0, 0] := by
  simp only [FloatPolyfill.set]
  rw [if_pos trivial]
  rw [partsToBytes64_be 0 0 0 (le_refl 0) (by norm_num) (by norm_num) (by norm_num)]
  norm_num

theorem set64_negzero_be :
    float64Polyfill.set .negzero false = [128, 0, 0, 0, 0, 0, 0, 0] := by
  show float64Polyfill.partsToBytes 1 0 0 false = _
  rw [partsToBytes64_be 1 0 0 (le_refl 0) (by norm_num) (by norm_num) (by norm_num)]
  norm_num

theorem set32_zero_be : float32Polyfill.set (.fin 0) false = [0, 0, 0, 0] := by
  simp only [FloatPolyfill.set]
  rw [if_pos trivial]
  rw [partsToBytes32_be 0 0 0 (le_refl 0) (by norm_num) (by norm_num) (by norm_num)]
  norm_num

theorem set32_negzero_be : float32Polyfill.set .negzero false = [128, 0, 0, 0] := by
  show float32Polyfill.partsToBytes 1 0 0 false = _
  rw [partsToBytes32_be 1 0 0 (le_refl 0) (by norm_num) (by norm_num) (by norm_num)]
  norm_num

/-- Decoding any exponent-max pattern with nonzero significand gives NaN,
for either float format, regardless of the sign bit or payload bits. -/
theorem get_nan_of_parts (p : FloatPolyfill)
    (hp : p ∈ [float32Polyfill, float64Polyfill]) (bytes : List ℕ) (le : Bool)
    (s m : ℕ) (hparts : p.getParts bytes le = (s, p.exponentMax, m)) (hm : m ≠ 0) :
    p.get bytes le = .nan := by
  have hEm : p.exponentMax ≠ 0 := by
    simp only [List.mem_cons, List.mem_singleton] at hp
    rcases hp with rfl | rfl | hp
    · decide
    · decide
    · simp at hp
  unfold FloatPolyfill.get
  rw [hparts]
  simp [hEm, hm]

/-- When the carried biased exponent reaches the exponent ceiling, the
finite branch of FloatPolyfill.set emits exactly the Infinity pattern with
the input's sign. -/
theorem set_overflow (p : FloatPolyfill) (q : ℚ) (hq : q ≠ 0)
    (hover : (p.exponentMax : ℤ) ≤ p.carriedExponent |q| + (p.exponentBias : ℤ))
    (le : Bool) :
    p.set (.fin q) le = p.set (if q < 0 then .ninf else .inf) le := by
  have henc : p.encodeFinite q = ((if q < 0 then 1 else 0), p.exponentMax, 0) := by
    show (if (p.exponentMax : ℤ) ≤ p.carriedExponent |q| + (p.exponentBias : ℤ) then
        ((if q < 0 then (1:ℕ) else 0), p.exponentMax, (0:ℚ))
      else if p.carriedExponent |q| + (p.exponentBias : ℤ) < 1 then
        ((if q < 0 then (1:ℕ) else 0), 0,
          p.roundedAbs |q| (logExponent |q|) * (2:ℚ) ^ ((p.exponentBias : ℤ) - 1) *
            (2:ℚ) ^ p.numSignificandBits)
      else
        ((if q < 0 then (1:ℕ) else 0), (p.carriedExponent |q| + (p.exponentBias : ℤ)).toNat,
          (p.roundedAbs |q| (logExponent |q|) * (2:ℚ) ^ (-(p.carriedExponent |q|)) - 1) *
            (2:ℚ) ^ p.numSignificandBits)) =
      ((if q < 0 then 1 else 0), p.exponentMax, 0)
    rw [if_pos hover]
  by_cases hneg : q < 0
  · rw [if_pos hneg]
    simp only [FloatPolyfill.set]
    rw [if_neg hq, henc]
    rw [if_pos hneg]
  · rw [if_neg hneg]
    simp only [FloatPolyfill.set]
    rw [if_neg hq, henc]
    rw [if_neg hneg]

/-- The carried biased exponent of 1e39 in float32 reaches the ceiling. -/
theorem carried32_tenpow39 :
    (float32Polyfill.exponentMax : ℤ) ≤
      float32Polyfill.carriedExponent |(10:ℚ) ^ 39| + (float32Polyfill.exponentBias : ℤ) := by
  have habs : |(10:ℚ) ^ 39| = (10:ℚ) ^ 39 := abs_of_pos (by positivity)
  have hlog : Int.log 2 ((10:ℚ) ^ 39) = 129 := by
    apply log2_eq_of_bounds _ 129 (by positivity)
    · rw [show (129:ℤ) = ((129:ℕ) : ℤ) from rfl, two_zpow_natCast]
      norm_num
    · rw [show (129:ℤ) + 1 = ((130:ℕ) : ℤ) from rfl, two_zpow_natCast]
      norm_num
  have hlogExp : logExponent ((10:ℚ) ^ 39) = 129 := by
    rw [logExponent_of_pos _ (by positivity), hlog]
  have hround : float32Polyfill.roundTo / (2:ℚ) ^ (-129 : ℤ) =
      (2:ℚ) ^ (105:ℕ) - (2:ℚ) ^ (52:ℕ) := by
    show ((2:ℚ) ^ (-24 : ℤ) - (2:ℚ) ^ (-77 : ℤ)) / (2:ℚ) ^ (-129 : ℤ) = _
    rw [zpow_neg _ (129:ℤ), div_eq_mul_inv, inv_inv, sub_mul, two_zpow_mul, two_zpow_mul]
    rw [show (-24 : ℤ) + 129 = ((105:ℕ) : ℤ) from rfl,
        show (-77 : ℤ) + 129 = ((52:ℕ) : ℤ) from rfl,
        two_zpow_natCast, two_zpow_natCast]
  have hav2 : float32Polyfill.roundedAbs ((10:ℚ) ^ 39) 129 =
      (10:ℚ) ^ 39 + ((2:ℚ) ^ (105:ℕ) - (2:ℚ) ^ (52:ℕ)) := by
    unfold FloatPolyfill.roundedAbs
    rw [if_pos (by
      rw [show float32Polyfill.exponentBias = 127 from rfl]
      norm_num)]
    rw [hround]
  have hnc : ¬ (2 ≤ float32Polyfill.roundedAbs ((10:ℚ) ^ 39) 129 * (2:ℚ) ^ (-129 : ℤ)) := by
    rw [hav2, not_le, zpow_neg, ← div_eq_mul_inv]
    rw [div_lt_iff₀ (two_zpow_pos 129)]
    rw [show (129:ℤ) = ((129:ℕ) : ℤ) from rfl, two_zpow_natCast]
    norm_num
  have hc : float32Polyfill.carriedExponent |(10:ℚ) ^ 39| = 129 := by
    unfold FloatPolyfill.carriedExponent
    rw [habs, hlogExp, if_neg hnc]
  rw [hc]
  rw [show float32Polyfill.exponentMax = 255 from rfl,
      show float32Polyfill.exponentBias = 127 from rfl]
  norm_num

/-- Claim C3: an input whose biased exponent after the rounding addition
and carry reaches or exceeds the exponent ceiling is encoded as the
Infinity pattern with its sign, with no error; in particular 1e39 as
float32 encodes byte-for-byte like Infinity. -/
theorem claim_C3_overflow_saturates_to_infinity :
    (∀ (p : FloatPolyfill) (q : ℚ) (le : Bool), q ≠ 0 →
      (p.exponentMax : ℤ) ≤ p.carriedExponent |q| + (p.exponentBias : ℤ) →
      p.set (.fin q) le = p.set (if q < 0 then .ninf else .inf) le) ∧
    float32Polyfill.set (.fin ((10:ℚ) ^ 39)) false = float32Polyfill.set .inf false := by
  constructor
  · intro p q le hq hover
    exact set_overflow p q hq hover le
  · rw [set_overflow float32Polyfill ((10:ℚ) ^ 39) (by positivity) carried32_tenpow39 false]
    rw [if_neg (by norm_num : ¬ ((10:ℚ) ^ 39 < 0))]

/-- Witness for C3: the overflow theorem applied at 1e39 for float32. -/
theorem claim_C3_overflow_saturates_to_infinity_witness :
    float32Polyfill.set (.fin ((10:ℚ) ^ 39)) false =
      float32Polyfill.set (if ((10:ℚ) ^ 39) < 0 then .ninf else .inf) false :=
  claim_C3_overflow_saturates_to_infinity.1 float32Polyfill ((10:ℚ) ^ 39) false
    (by positivity) carried32_tenpow39

/-- Claim C2: NaN encodes as exponent-all-ones with quiet-bit significand
(f64 7FF8000000000000, f32 7FC00000), positive and negative Infinity as exponent-all-ones with
zero significand (f64 7FF0... / FFF0..., f32 7F800000 / FF800000), and zero
as all-zero bytes with only the sign bit set for -0 (f64 8000000000000000);
decoding maps all-ones-exponent nonzero-significand to NaN, the Infinity
patterns to the signed infinities, and the zero patterns to 0; little-endian
writes and reads the reversed byte order. -/
theorem claim_C2_float_special_values :
    (float64Polyfill.set .nan false = [127, 248, 0, 0, 0, 0, 0, 0] ∧
     float32Polyfill.set .nan false = [127, 192, 0, 0]) ∧
    (float64Polyfill.set .inf false = [127, 240, 0, 0, 0, 0, 0, 0] ∧
     float64Polyfill.set .ninf false = [255, 240, 0, 0, 0, 0, 0, 0] ∧
     float32Polyfill.set .inf false = [127, 128, 0, 0] ∧
     float32Polyfill.set .ninf false = [255, 128, 0, 0]) ∧
    (float64Polyfill.set (.fin 0) false = [0, 0, 0, 0, 0, 0, 0, 0] ∧
     float64Polyfill.set .negzero false = [128, 0, 0, 0, 0, 0, 0, 0] ∧
     float32Polyfill.set (.fin 0) false = [0, 0, 0, 0] ∧
     float32Polyfill.set .negzero false = [128, 0, 0, 0]) ∧
    (float64Polyfill.get [127, 248, 0, 0, 0, 0, 0, 0] false = .nan ∧
     float64Polyfill.get [127, 240, 0, 0, 0, 0, 0, 0] false = .inf ∧
     float64Polyfill.get [255, 240, 0, 0, 0, 0, 0, 0] false = .ninf ∧
     float64Polyfill.get [0, 0, 0, 0, 0, 0, 0, 0] false = .fin 0 ∧
     float64Polyfill.get [128, 0, 0, 0, 0, 0, 0, 0] false = .fin 0) ∧
    (∀ p ∈ [float32Polyfill, float64Polyfill], ∀ (bytes : List ℕ) (le : Bool) (s m : ℕ),
      p.getParts bytes le = (s, p.exponentMax, m) → m ≠ 0 → p.get bytes le = .nan) ∧
    (∀ (p : FloatPolyfill) (v : JSNum), p.set v true = (p.set v false).reverse) ∧
    (∀ (p : FloatPolyfill) (l : List ℕ), p.get l.reverse true = p.get l false) := by
  refine ⟨⟨set64_nan_be, set32_nan_be⟩,
    ⟨set64_inf_be, set64_ninf_be, set32_inf_be, set32_ninf_be⟩,
    ⟨set64_zero_be, set64_negzero_be, set32_zero_be, set32_negzero_be⟩,
    ⟨?_, ?_, ?_, ?_, ?_⟩,
    get_nan_of_parts, FloatPolyfill.set_le_reverse, FloatPolyfill.get_reverse⟩
  · have h := get_nan_of_parts float64Polyfill (by
      exact List.mem_cons_of_mem _ (List.mem_cons_self _ _))
      [127, 248, 0, 0, 0, 0, 0, 0] false 0 (2 ^ 51) (by decide) (by decide)
    exact h
  · have hp : float64Polyfill.getParts [127, 240, 0, 0, 0, 0, 0, 0] false =
        (0, 2047, 0) := by decide
    unfold FloatPolyfill.get
    rw [hp]
    norm_num [show float64Polyfill.exponentMax = 2047 from rfl]
  · have hp : float64Polyfill.getParts [255, 240, 0, 0, 0, 0, 0, 0] false =
        (1, 2047, 0) := by decide
    unfold FloatPolyfill.get
    rw [hp]
    norm_num [show float64Polyfill.exponentMax = 2047 from rfl]
  · have hp : float64Polyfill.getParts [0, 0, 0, 0, 0, 0, 0, 0] false =
        (0, 0, 0) := by decide
    have h := get64_of_parts_denormal [0, 0, 0, 0, 0, 0, 0, 0] 0 0 hp
    rw [h]
    norm_num
  · have hp : float64Polyfill.getParts [128, 0, 0, 0, 0, 0, 0, 0] false =
        (1, 0, 0) := by decide
    have h := get64_of_parts_denormal [128, 0, 0, 0, 0, 0, 0, 0] 1 0 hp
    rw [h]
    norm_num

/-- Witness for C2: the all-ones-exponent decode rule applied to a concrete
quiet-NaN byte pattern. -/
theorem claim_C2_float_special_values_witness :
    float64Polyfill.get [255, 248, 0, 0, 0, 0, 0, 0] false = JSNum.nan :=
  claim_C2_float_special_values.2.2.2.2.1 float64Polyfill
    (List.mem_cons_of_mem _ (List.mem_cons_self _ _))
    [255, 248, 0, 0, 0, 0, 0, 0] false 1 (2 ^ 51) (by decide) (by decide)



/-!
### JavaScript values crossing the codec boundary

Encoded objects carry booleans, numbers, strings (as UTF-16 code unit
sequences, the values of charCodeAt) and arrays.  `undef` stands for a
missing property (JavaScript undefined).
-/

inductive JVal where
  | undef
  | jbool (b : Bool)
  | jnum (n : JSNum)
  | jstr (units : List ℕ)
  | jarr (elems : List JVal)

/-- JavaScript truthiness for the values above (falsy: undefined, false,
0, -0, NaN, the empty string). -/
def truthy : JVal → Bool
  | .undef => false
  | .jbool b => b
  | .jnum .nan => false
  | .jnum (.fin q) => decide (q ≠ 0)
  | .jnum .negzero => false
  | .jnum .inf => true
  | .jnum .ninf => true
  | .jstr u => decide (u ≠ [])
  | .jarr _ => true

/-- `(values && values.length) || 0`: the length of an array or string
value, 0 for anything without a length (undefined included). -/
def jsLength : JVal → ℕ
  | .jarr l => l.length
  | .jstr u => u.length
  | _ => 0

/-- A plain object, as an assignment-ordered property list.  A missing key
reads as undefined. -/
abbrev JObj := List (String × JVal)

def objGet (o : JObj) (k : String) : JVal :=
  match o.find? (fun kv => kv.1 == k) with
  | some kv => kv.2
  | none => (.undef)

/-!
### The codec table (_codecs of src/jettison.js)
-/

/-- The keys of the _codecs table (plus the on-the-fly array type handled
by Field). -/
inductive CodecType where
  | boolean | int8 | int16 | int32 | uint8 | uint16 | uint32
  | float32 | float64 | booleanArray | string
  deriving DecidableEq, Repr

/-- The integer codec a type name resolves to, for the six integer
types. -/
def CodecType.intCodec? : CodecType → Option IntegerPolyfill
  | .int8 => some cInt8
  | .int16 => some cInt16
  | .int32 => some cInt32
  | .uint8 => some cUint8
  | .uint16 => some cUint16
  | .uint32 => some cUint32
  | _ => none

/-- The codec's byteLength property: present (fixed width) for boolean,
integer and float codecs, absent for the dynamic ones (BooleanArrayCodec,
StringCodec have no such property, ArrayCodec is handled at Field level). -/
def CodecType.fixedLength? : CodecType → Option ℕ
  | .boolean => some 1
  | .int8 => some 1
  | .int16 => some 2
  | .int32 => some 4
  | .uint8 => some 1
  | .uint16 => some 2
  | .uint32 => some 4
  | .float32 => some 4
  | .float64 => some 8
  | .booleanArray => none
  | .string => none

/-!
### UTF-8 transcoding (the external `utf8` package used by StringCodec)

The package's code is not part of this repository; these definitions are
modelled from the spec's description of the string codec (UTF-16 code
units are combined into code points, encoded as standard UTF-8, and the
decoder validates continuation bytes, rejects surrogate code points and
over-long forms, and re-expands astral code points into surrogate pairs).
-/

/-- UCS-2 decoding: a high surrogate followed by a low surrogate combines
into one astral code point; any other unit passes through (a lone
surrogate stays, to be rejected by the code point encoder). -/
def ucs2Decode : List ℕ → List ℕ
  | [] => []
  | [u] => [u]
  | u :: v :: rest =>
    if (0xD800 ≤ u ∧ u ≤ 0xDBFF) ∧ (0xDC00 ≤ v ∧ v ≤ 0xDFFF) then
      ((u - 0xD800) * 1024 + (v - 0xDC00) + 0x10000) :: ucs2Decode rest
    else u :: ucs2Decode (v :: rest)

/-- UCS-2 encoding of one code point: astral code points become a
surrogate pair. -/
def ucs2EncodeCP (cp : ℕ) : List ℕ :=
  if cp < 0x10000 then [cp]
  else [0xD800 + (cp - 0x10000) / 1024, 0xDC00 + (cp - 0x10000) % 1024]

/-- UTF-8 encoding of one code point; surrogate code points are not scalar
values and make the encoder throw (none). -/
def encodeCodePoint (cp : ℕ) : Option (List ℕ) :=
  if cp < 0x80 then some [cp]
  else if cp < 0x800 then some [0xC0 ||| (cp >>> 6), 0x80 ||| (cp &&& 0x3F)]
  else if cp < 0x10000 then
    if 0xD800 ≤ cp ∧ cp ≤ 0xDFFF then none
    else some [0xE0 ||| (cp >>> 12), 0x80 ||| ((cp >>> 6) &&& 0x3F), 0x80 ||| (cp &&& 0x3F)]
  else if cp ≤ 0x1FFFFF then
    some [0xF0 ||| (cp >>> 18), 0x80 ||| ((cp >>> 12) &&& 0x3F),
      0x80 ||| ((cp >>> 6) &&& 0x3F), 0x80 ||| (cp &&& 0x3F)]
  else none

def encodeCPs : List ℕ → Option (List ℕ)
  | [] => some []
  | cp :: rest =>
    match encodeCodePoint cp, encodeCPs rest with
    | some b, some bs => some (b ++ bs)
    | _, _ => none

/-- utf8.encode on a UTF-16 code unit sequence. -/
def utf8Encode (units : List ℕ) : Option (List ℕ) :=
  encodeCPs (ucs2Decode units)

/-- A continuation byte contributes its low six bits; anything else is a
decoding error. -/
def contByte (b : ℕ) : Option ℕ :=
  if b &&& 0xC0 = 0x80 then some (b &&& 0x3F) else none

/-- UTF-8 decoding of one code point, validating continuation bytes,
over-long forms, surrogates and the 0x10FFFF ceiling. -/
def decodeCodePoint : List ℕ → Option (ℕ × List ℕ)
  | [] => none
  | b1 :: rest =>
    if b1 &&& 0x80 = 0 then some (b1, rest)
    else if b1 &&& 0xE0 = 0xC0 then
      match rest with
      | b2 :: r =>
        match contByte b2 with
        | some c2 =>
          let cp := ((b1 &&& 0x1F) <<< 6) ||| c2
          if 0x80 ≤ cp then some (cp, r) else none
        | none => none
      | [] => none
    else if b1 &&& 0xF0 = 0xE0 then
      match rest with
      | b2 :: b3 :: r =>
        match contByte b2, contByte b3 with
        | some c2, some c3 =>
          let cp := ((b1 &&& 0x0F) <<< 12) ||| (c2 <<< 6) ||| c3
          if 0x800 ≤ cp ∧ ¬(0xD800 ≤ cp ∧ cp ≤ 0xDFFF) then some (cp, r) else none
        | _, _ => none
      | _ => none
    else if b1 &&& 0xF8 = 0xF0 then
      match rest with
      | b2 :: b3 :: b4 :: r =>
        match contByte b2, contByte b3, contByte b4 with
        | some c2, some c3, some c4 =>
          let cp := ((b1 &&& 0x07) <<< 18) ||| (c2 <<< 12) ||| (c3 <<< 6) ||| c4
          if 0x10000 ≤ cp ∧ cp ≤ 0x10FFFF then some (cp, r) else none
        | _, _, _ => none
      | _ => none
    else none

/-- The decode loop; fuel bounds the iteration count (each code point
consumes at least one byte). -/
def decodeCPs : ℕ → List ℕ → Option (List ℕ)
  | _, [] => some []
  | 0, _ :: _ => none
  | f + 1, b :: bs =>
    match decodeCodePoint (b :: bs) with
    | none => none
    | some (cp, rest) =>
      match decodeCPs f rest with
      | none => none
      | some cps => some (cp :: cps)

/-- utf8.decode back to a UTF-16 code unit sequence. -/
def utf8Decode (bytes : List ℕ) : Option (List ℕ) :=
  (decodeCPs bytes.length bytes).map (fun cps => (cps.map ucs2EncodeCP).flatten)

/-- Well-formed UTF-16: every high surrogate is followed by a low
surrogate and no low surrogate appears on its own (the strings utf8.encode
accepts), with every unit below 0x10000. -/
def validUnits : List ℕ → Bool
  | [] => true
  | [u] => decide (u < 0xD800 ∨ (0xE000 ≤ u ∧ u < 0x10000))
  | u :: v :: rest =>
    if u < 0xD800 ∨ (0xE000 ≤ u ∧ u < 0x10000) then validUnits (v :: rest)
    else decide ((0xD800 ≤ u ∧ u ≤ 0xDBFF) ∧ (0xDC00 ≤ v ∧ v ≤ 0xDFFF)) && validUnits rest

/-!
### StringCodec (src/jettison.js)

A uint32 length prefix counting UTF-8 bytes, then those bytes, written one
by one through the uint8 codec.  An absent value crashes getByteLength
(undefined.length), while set sends a zero length for it.
-/

/-- StringCodec.getByteLength: `if (value) value = utf8.encode(value);
return 4 + value.length`.  Reading .length of undefined is a TypeError
(none); a failed utf8.encode (lone surrogate) also throws. -/
def StringCodec.getByteLength (v : JVal) : Option ℕ :=
  match v with
  | .jstr [] => some 4
  | .jstr (u :: us) => (utf8Encode (u :: us)).map (fun bs => 4 + bs.length)
  | _ => none

/-- StringCodec.set: a truthy string is UTF-8 encoded, its byte count is
written through the uint32 codec and each byte through the uint8 codec;
undefined and the empty string send just a zero length. -/
def StringCodec.set (v : JVal) (le : Bool) : Option (List ℕ) :=
  match v with
  | .jstr (u :: us) =>
    (utf8Encode (u :: us)).map (fun bs =>
      IntegerCodec.set cUint32 (bs.length : ℚ) le ++
        (bs.map (fun b : ℕ => IntegerCodec.set cUint8 (b : ℚ) le)).flatten)
  | .jstr [] => some (IntegerCodec.set cUint32 0 le)
  | .undef => some (IntegerCodec.set cUint32 0 le)
  | _ => none

/-- StringCodec.get: read the uint32 length, then that many bytes through
the uint8 codec, then reverse the UTF-8 transcoding.  Reading past the end
of the buffer is a range error. -/
def StringCodec.get (bytes : List ℕ) (le : Bool) : Option (JVal × List ℕ) :=
  match IntegerCodec.get cUint32 bytes le with
  | none => none
  | some (len, rest) =>
    if 0 < len then
      if len.toNat ≤ rest.length then
        match utf8Decode (rest.take len.toNat) with
        | none => none
        | some units => some (.jstr units, rest.drop len.toNat)
      else none
    else some (.jstr [], rest)

/-!
### The primitive codec dispatch

primSet / primGet / primGetByteLength give the behaviour of
_codecs[type].set / .get / .getByteLength on a decoded value.  A value of
a shape the claims never drive through a codec (for example a number
through the string codec, where JavaScript would coerce) is out of the
model and maps to none.
-/

def primSet (t : CodecType) (v : JVal) (le : Bool) : Option (List ℕ) :=
  match t, v with
  | .boolean, v => some (BooleanCodec.set (truthy v) le)
  | .int8, .jnum (.fin q) => some (IntegerCodec.set cInt8 q le)
  | .int16, .jnum (.fin q) => some (IntegerCodec.set cInt16 q le)
  | .int32, .jnum (.fin q) => some (IntegerCodec.set cInt32 q le)
  | .uint8, .jnum (.fin q) => some (IntegerCodec.set cUint8 q le)
  | .uint16, .jnum (.fin q) => some (IntegerCodec.set cUint16 q le)
  | .uint32, .jnum (.fin q) => some (IntegerCodec.set cUint32 q le)
  | .float32, .jnum n => some (FloatCodec.set float32Polyfill n le)
  | .float64, .jnum n => some (FloatCodec.set float64Polyfill n le)
  | .booleanArray, .jarr l => some (BooleanArrayCodec.set (l.map truthy))
  | .booleanArray, .undef => some (BooleanArrayCodec.set [])
  | .string, v => StringCodec.set v le
  | _, _ => none

def primGet (t : CodecType) (bytes : List ℕ) (le : Bool) : Option (JVal × List ℕ) :=
  match t with
  | .boolean => (BooleanCodec.get bytes le).map (fun br => (.jbool br.1, br.2))
  | .int8 => (IntegerCodec.get cInt8 bytes le).map (fun zr => (.jnum (.fin zr.1), zr.2))
  | .int16 => (IntegerCodec.get cInt16 bytes le).map (fun zr => (.jnum (.fin zr.1), zr.2))
  | .int32 => (IntegerCodec.get cInt32 bytes le).map (fun zr => (.jnum (.fin zr.1), zr.2))
  | .uint8 => (IntegerCodec.get cUint8 bytes le).map (fun zr => (.jnum (.fin zr.1), zr.2))
  | .uint16 => (IntegerCodec.get cUint16 bytes le).map (fun zr => (.jnum (.fin zr.1), zr.2))
  | .uint32 => (IntegerCodec.get cUint32 bytes le).map (fun zr => (.jnum (.fin zr.1), zr.2))
  | .float32 => (FloatCodec.get float32Polyfill bytes le).map (fun nr => (.jnum nr.1, nr.2))
  | .float64 => (FloatCodec.get float64Polyfill bytes le).map (fun nr => (.jnum nr.1, nr.2))
  | .booleanArray => (BooleanArrayCodec.get bytes).map (fun lr => (.jarr (lr.1.map .jbool), lr.2))
  | .string => StringCodec.get bytes le

/-- The dynamic codecs' getByteLength ((values && values.length) || 0 for
the boolean array); the fixed codecs report their constant width. -/
def primGetByteLength (t : CodecType) (v : JVal) : Option ℕ :=
  match t with
  | .booleanArray =>
    match v with
    | .jarr l => some (BooleanArrayCodec.getByteLength l.length)
    | .undef => some (BooleanArrayCodec.getByteLength 0)
    | _ => none
  | .string => StringCodec.getByteLength v
  | t => t.fixedLength?

/-!
### ArrayCodec (src/jettison.js)

A uint32 element count, then each element through the value codec.
-/

/-- The per-element sum of the dynamic branch of ArrayCodec.getByteLength. -/
def sumByteLengths (e : CodecType) : List JVal → Option ℕ
  | [] => some 0
  | x :: rest =>
    match primGetByteLength e x, sumByteLengths e rest with
    | some m, some n => some (m + n)
    | _, _ => none

/-- ArrayCodec.getByteLength: 0 for an absent or empty value (the
`!values || !values.length` guard), otherwise the length prefix plus a
fixed-width product or a dynamic per-element sum. -/
def ArrayCodec.getByteLength (e : CodecType) (v : JVal) : Option ℕ :=
  if jsLength v = 0 then some 0
  else
    match e.fixedLength? with
    | some w => some (4 + jsLength v * w)
    | none =>
      match v with
      | .jarr l => (sumByteLengths e l).map (4 + ·)
      | _ => none

/-- The element-writing loop of ArrayCodec.set. -/
def setElems (e : CodecType) (le : Bool) : List JVal → Option (List ℕ)
  | [] => some []
  | x :: rest =>
    match primSet e x le, setElems e le rest with
    | some b, some bs => some (b ++ bs)
    | _, _ => none

/-- ArrayCodec.set: `(values && values.length) || 0` through the uint32
codec, then the elements. -/
def ArrayCodec.set (e : CodecType) (v : JVal) (le : Bool) : Option (List ℕ) :=
  match v with
  | .jarr l => (setElems e le l).map
      (fun body => IntegerCodec.set cUint32 (l.length : ℚ) le ++ body)
  | .undef => some (IntegerCodec.set cUint32 0 le)
  | _ => none

/-- The element-reading loop of ArrayCodec.get. -/
def getElems (e : CodecType) (le : Bool) : ℕ → List ℕ → Option (List JVal × List ℕ)
  | 0, bs => some ([], bs)
  | n + 1, bs =>
    match primGet e bs le with
    | none => none
    | some (v, r) =>
      match getElems e le n r with
      | none => none
      | some (vs, r2) => some (v :: vs, r2)

/-- ArrayCodec.get: read the element count, then that many elements (a
non-positive count reads no elements and yields the empty array). -/
def ArrayCodec.get (e : CodecType) (bytes : List ℕ) (le : Bool) :
    Option (JVal × List ℕ) :=
  match IntegerCodec.get cUint32 bytes le with
  | none => none
  | some (len, rest) =>
    match getElems e le len.toNat rest with
    | none => none
    | some (vs, r) => some (.jarr vs, r)

/-!
### Field (src/jettison.js)
-/

/-- A field's declared type: a plain codec name, or an array of a value
type (ArrayCodec instances are created on the fly). -/
inductive FieldType where
  | prim (t : CodecType)
  | array (elem : CodecType)
  deriving DecidableEq, Repr

structure Field where
  key : String
  type : FieldType
  deriving DecidableEq, Repr

/-- The Field constructor's validation: a key is required, and an array's
value type may be neither array (enforced here by the shape of FieldType)
nor string. -/
def Field.valid (f : Field) : Bool :=
  decide (f.key ≠ "") &&
    (match f.type with
     | .prim _ => true
     | .array e => decide (e ≠ .string))

/-- codec.byteLength for the field's codec: ArrayCodec objects have no
byteLength property, so every array field is dynamic. -/
def FieldType.fixedLength? : FieldType → Option ℕ
  | .prim t => t.fixedLength?
  | .array _ => none

def fieldSet (f : Field) (v : JVal) (le : Bool) : Option (List ℕ) :=
  match f.type with
  | .prim t => primSet t v le
  | .array e => ArrayCodec.set e v le

def fieldGet (f : Field) (bytes : List ℕ) (le : Bool) : Option (JVal × List ℕ) :=
  match f.type with
  | .prim t => primGet t bytes le
  | .array e => ArrayCodec.get e bytes le

def fieldGetByteLength (f : Field) (v : JVal) : Option ℕ :=
  match f.type with
  | .prim t => primGetByteLength t v
  | .array e => ArrayCodec.getByteLength e v

/-!
### Definition (src/jettison.js)
-/

structure Definition where
  fields : List Field
  id : ℕ
  key : String
  littleEndian : Bool
  /-- The lazily populated byte length cache (this.byteLength, unset until
  a getByteLength call finds every field fixed-width). -/
  byteLength : Option ℕ
  deriving DecidableEq, Repr

/-- The field loop of Definition.getByteLength: the accumulated length and
the fixedByteLength flag. -/
def defFieldsLength (obj : JObj) : List Field → Option (ℕ × Bool)
  | [] => some (0, true)
  | f :: rest =>
    match defFieldsLength obj rest with
    | none => none
    | some (n, fixed) =>
      match f.type.fixedLength? with
      | some w => some (w + n, fixed)
      | none =>
        match fieldGetByteLength f (objGet obj f.key) with
        | none => none
        | some m => some (m + n, false)

/-- Definition.getByteLength, with its cache effect: returns the computed
length and the definition as it stands after the call (the cache is
populated exactly when every field was fixed-width). -/
def Definition.getByteLength (d : Definition) (obj : JObj) :
    Option (ℕ × Definition) :=
  match d.byteLength with
  | some n => some (n, d)
  | none =>
    match defFieldsLength obj d.fields with
    | none => none
    | some (n, fixed) =>
      some (n, if fixed then { d with byteLength := some n } else d)

/-- The field loop of Definition.set. -/
def defSet (le : Bool) (obj : JObj) : List Field → Option (List ℕ)
  | [] => some []
  | f :: rest =>
    match fieldSet f (objGet obj f.key) le, defSet le obj rest with
    | some b, some bs => some (b ++ bs)
    | _, _ => none

/-- The field loop of Definition.get: values[key] = codec.get(...) in
declaration order. -/
def defGet (le : Bool) : List Field → List ℕ → Option (JObj × List ℕ)
  | [], bs => some ([], bs)
  | f :: rest, bs =>
    match fieldGet f bs le with
    | none => none
    | some (v, r) =>
      match defGet le rest r with
      | none => none
      | some (vs, r2) => some ((f.key, v) :: vs, r2)

/-- Definition.stringify: allocate getByteLength bytes, write the fields,
return the buffer as a whole (unwritten bytes stay zero).  A write past
the end of the allocation is a range error. -/
def Definition.stringify (d : Definition) (obj : JObj) : Option (List ℕ) :=
  match d.getByteLength obj with
  | none => none
  | some nd =>
    match defSet d.littleEndian obj d.fields with
    | none => none
    | some bytes =>
      if bytes.length ≤ nd.1 then some (bytes ++ List.replicate (nd.1 - bytes.length) 0)
      else none

/-- Definition.parse: read the fields; trailing bytes are ignored. -/
def Definition.parse (d : Definition) (bytes : List ℕ) : Option JObj :=
  (defGet d.littleEndian d.fields bytes).map Prod.fst

/-!
### Schema (src/jettison.js)
-/

structure Schema where
  definitions : List (String × Definition)
  definitionsById : List (ℕ × Definition)
  idType : IntegerPolyfill
  nextDefinitionId : ℕ
  deriving DecidableEq, Repr

/-- The Schema constructor: `idType || 'uint8'`, tables empty, ids from
1.  Registration prepends, so a later define of the same key wins a
lookup, matching property assignment. -/
def Schema.mkNew (idType? : Option IntegerPolyfill) : Schema :=
  ⟨[], [], idType?.getD cUint8, 1⟩

/-- createSchema: new Schema() with no options. -/
def createSchema : Schema := Schema.mkNew none

/-- Schema.define: the id is taken and incremented, and the new Definition
(no littleEndian option, so big-endian; no cached byte length) is
registered under both key and id. -/
def Schema.define (s : Schema) (key : String) (fields : List Field) :
    Schema × Definition :=
  let d : Definition := ⟨fields, s.nextDefinitionId, key, false, none⟩
  ({ definitions := (key, d) :: s.definitions,
     definitionsById := (s.nextDefinitionId, d) :: s.definitionsById,
     idType := s.idType,
     nextDefinitionId := s.nextDefinitionId + 1 }, d)

def Schema.lookupKey (s : Schema) (k : String) : Option Definition :=
  (s.definitions.find? (fun kv => kv.1 == k)).map Prod.snd

def Schema.lookupId (s : Schema) (i : ℕ) : Option Definition :=
  (s.definitionsById.find? (fun kv => kv.1 == i)).map Prod.snd

/-- Schema.stringify: look the Definition up by key (an unknown key is an
error), allocate idCodec.byteLength + getByteLength bytes, write the id
(no endianness argument: big-endian) and the fields, and return the whole
buffer; writing past the allocation is a range error. -/
def Schema.stringify (s : Schema) (k : String) (obj : JObj) :
    Option (List ℕ) :=
  match s.lookupKey k with
  | none => none
  | some d =>
    match d.getByteLength obj with
    | none => none
    | some nd =>
      match defSet d.littleEndian obj d.fields with
      | none => none
      | some body =>
        let pre := IntegerCodec.set s.idType (d.id : ℚ) false
        if pre.length + body.length ≤ s.idType.byteLength + nd.1 then
          some (pre ++ body ++
            List.replicate (s.idType.byteLength + nd.1 - (pre.length + body.length)) 0)
        else none

/-- Schema.parse: decode the id (big-endian, no endianness argument),
look the Definition up by id (an unknown id is an error), and read the
fields; the decoded result pairs the definition's key with the values. -/
def Schema.parse (s : Schema) (bytes : List ℕ) : Option (String × JObj) :=
  match IntegerCodec.get s.idType bytes false with
  | none => none
  | some (id, rest) =>
    match s.lookupId id.toNat with
    | none => none
    | some d =>
      match defGet d.littleEndian d.fields rest with
      | none => none
      | some (obj, _) => some (d.key, obj)

/-- A schema built by a sequence of define calls on a fresh createSchema. -/
def buildSchema (regs : List (String × List Field)) : Schema :=
  regs.foldl (fun s kf => (s.define kf.1 kf.2).1) createSchema

example : objGet [("a", .jbool true)] "a" = .jbool true := rfl
example : utf8Encode [104, 111, 100, 248, 114] = some [104, 111, 100, 195, 184, 114] := by decide
example : utf8Decode [104, 111, 100, 195, 184, 114] = some [104, 111, 100, 248, 114] := by decide
example : (buildSchema [("spawn", []), ("position", [])]).lookupKey "spawn" =
    some ⟨[], 1, "spawn", false, none⟩ := by decide
example : validUnits [0xD83D, 0xDE00] = true := by decide
example : utf8Encode [0xD83D, 0xDE00] = some [240, 159, 152, 128] := by decide
example : utf8Decode [240, 159, 152, 128] = some [0xD83D, 0xDE00] := by decide
example : utf8Encode [0xD83D] = none := by decide

/-! ### Concrete byte emissions of the unsigned codecs -/

theorem jsShr8_int_small (z : ℤ) (h1 : -(2 ^ 31) ≤ z) (h2 : z < 2 ^ 31) :
    jsShr8 ((z : ℚ)) = z / 256 := by
  rw [jsShr8_intCast]
  omega

theorem jsShr8_int_hi (z : ℤ) (h1 : 2 ^ 31 ≤ z) (h2 : z < 2 ^ 32) :
    jsShr8 ((z : ℚ)) = z / 256 - 2 ^ 24 := by
  rw [jsShr8_intCast]
  omega

theorem uint8_set_nat (n : ℕ) (hn : n ≤ 255) (le : Bool) :
    IntegerCodec.set cUint8 (n : ℚ) le = [n] := by
  have hcast : ((n : ℕ) : ℚ) = (((n : ℤ)) : ℚ) := by push_cast; ring
  have hmin : (cUint8).minValue = 0 := by decide
  have hmax : (cUint8).maxValue = 2 ^ 8 - 1 := by decide
  unfold IntegerCodec.set IntegerPolyfill.set
  rw [hcast, hmin, hmax,
    jsClamp_of_mem _ _ (n : ℤ) (Int.natCast_nonneg n) (by omega),
    jsClamp_of_mem _ _ (n : ℤ) (Int.natCast_nonneg n) (by omega)]
  cases le
  case false =>
    show (intEmit 1 (((n : ℤ)) : ℚ)).reverse = [n]
    simp only [intEmit, jsAnd255_intCast, List.reverse_cons, List.reverse_nil,
      List.nil_append, List.cons.injEq, and_true]
    omega
  case true =>
    show intEmit 1 (((n : ℤ)) : ℚ) = [n]
    simp only [intEmit, jsAnd255_intCast, List.cons.injEq, and_true]
    omega

theorem uint8_set_clamp_hi (n : ℕ) (hn : 256 ≤ n) (le : Bool) :
    IntegerCodec.set cUint8 (n : ℚ) le = [255] := by
  have hcast : ((n : ℕ) : ℚ) = (((n : ℤ)) : ℚ) := by push_cast; ring
  have hmin : (cUint8).minValue = 0 := by decide
  have hmax : (cUint8).maxValue = 2 ^ 8 - 1 := by decide
  unfold IntegerCodec.set IntegerPolyfill.set
  have hgt : (((n : ℤ)) : ℚ) > ((2 ^ 8 - 1 : ℤ) : ℚ) := by
    have h : (2 ^ 8 - 1 : ℤ) < (n : ℤ) := by omega
    exact Int.cast_lt.mpr h
  rw [hcast, hmin, hmax,
    jsClamp_of_gt 0 (2 ^ 8 - 1) (((n : ℤ)) : ℚ) (by norm_num) hgt,
    jsClamp_of_mem _ _ (2 ^ 8 - 1) (by norm_num) (le_refl _)]
  cases le
  case false =>
    show (intEmit 1 (((2 ^ 8 - 1 : ℤ)) : ℚ)).reverse = [255]
    simp only [intEmit, jsAnd255_intCast, List.reverse_cons, List.reverse_nil,
      List.nil_append, List.cons.injEq, and_true]
    decide
  case true =>
    show intEmit 1 (((2 ^ 8 - 1 : ℤ)) : ℚ) = [255]
    simp only [intEmit, jsAnd255_intCast, List.cons.injEq, and_true]
    decide

theorem uint32_emit_nat (n : ℕ) (hn : n < 2 ^ 32) :
    intEmit 4 (((n : ℤ)) : ℚ) =
      [n % 256, n / 256 % 256, n / 256 / 256 % 256, n / 256 / 256 / 256 % 256] := by
  by_cases hsm : n < 2 ^ 31
  · have s1 : jsShr8 (((n : ℤ)) : ℚ) = (n : ℤ) / 256 :=
      jsShr8_int_small _ (by omega) (by omega)
    have s2 : jsShr8 (((((n : ℤ) / 256 : ℤ)) : ℚ)) = (n : ℤ) / 256 / 256 :=
      jsShr8_int_small _ (by omega) (by omega)
    have s3 : jsShr8 (((((n : ℤ) / 256 / 256 : ℤ)) : ℚ)) = (n : ℤ) / 256 / 256 / 256 :=
      jsShr8_int_small _ (by omega) (by omega)
    simp only [intEmit, s1, s2, s3, jsAnd255_intCast, List.cons.injEq, and_true]
    refine ⟨by omega, by omega, by omega, by omega⟩
  · have s1 : jsShr8 (((n : ℤ)) : ℚ) = (n : ℤ) / 256 - 2 ^ 24 :=
      jsShr8_int_hi _ (by omega) (by omega)
    have s2 : jsShr8 (((((n : ℤ) / 256 - 2 ^ 24 : ℤ)) : ℚ)) = (n : ℤ) / 256 / 256 - 2 ^ 16 := by
      rw [jsShr8_int_small _ (by omega) (by omega)]
      omega
    have s3 : jsShr8 (((((n : ℤ) / 256 / 256 - 2 ^ 16 : ℤ)) : ℚ)) =
        (n : ℤ) / 256 / 256 / 256 - 2 ^ 8 := by
      rw [jsShr8_int_small _ (by omega) (by omega)]
      omega
    simp only [intEmit, s1, s2, s3, jsAnd255_intCast, List.cons.injEq, and_true]
    refine ⟨by omega, by omega, by omega, by omega⟩

theorem uint32_set_nat (n : ℕ) (hn : n < 2 ^ 32) (le : Bool) :
    IntegerCodec.set cUint32 (n : ℚ) le =
      if le then [n % 256, n / 256 % 256, n / 256 / 256 % 256, n / 256 / 256 / 256 % 256]
      else [n / 256 / 256 / 256 % 256, n / 256 / 256 % 256, n / 256 % 256, n % 256] := by
  have hcast : ((n : ℕ) : ℚ) = (((n : ℤ)) : ℚ) := by push_cast; ring
  have hmin : (cUint32).minValue = 0 := by decide
  have hmax : (cUint32).maxValue = 2 ^ 32 - 1 := by decide
  unfold IntegerCodec.set IntegerPolyfill.set
  rw [hcast, hmin, hmax,
    jsClamp_of_mem _ _ (n : ℤ) (Int.natCast_nonneg n) (by omega),
    jsClamp_of_mem _ _ (n : ℤ) (Int.natCast_nonneg n) (by omega)]
  cases le
  case false =>
    show (intEmit 4 (((n : ℤ)) : ℚ)).reverse = _
    rw [uint32_emit_nat n hn]
    rfl
  case true =>
    show intEmit 4 (((n : ℤ)) : ℚ) = _
    rw [uint32_emit_nat n hn]
    rfl

theorem uint32_set_zero (le : Bool) :
    IntegerCodec.set cUint32 ((List.length ([] : List JVal)) : ℚ) le = [0, 0, 0, 0] := by
  have h := uint32_set_nat 0 (by norm_num) le
  simp only [Nat.cast_zero] at h
  simp only [List.length_nil, Nat.cast_zero, h]
  cases le <;> norm_num

/-! ### Claim C4: ArrayCodec.getByteLength on empty and absent arrays -/

theorem uint32_set_zero' (le : Bool) :
    IntegerCodec.set cUint32 (0 : ℚ) le = [0, 0, 0, 0] := by
  have h := uint32_set_nat 0 (by norm_num) le
  simp only [Nat.cast_zero] at h
  rw [h]
  cases le <;> norm_num

/-- Claim C4: the length formula holds for nonempty arrays but the
`!values || !values.length` guard returns 0 (not 4) for absent and empty
arrays, while set unconditionally writes the 4-byte length prefix; a
Definition carrying an empty array therefore under-allocates and its
stringify overflows the buffer (a range error). -/
theorem claim_C4_array_bytelength_zero_bug :
    ArrayCodec.getByteLength .uint8 (.jarr [.jnum (.fin 7)]) = some 5 ∧
    ArrayCodec.getByteLength .uint8 (.jarr []) = some 0 ∧
    ArrayCodec.getByteLength .uint8 .undef = some 0 ∧
    ArrayCodec.set .uint8 (.jarr []) false = some [0, 0, 0, 0] ∧
    Definition.stringify ⟨[⟨"xs", .array .uint8⟩], 1, "m", false, none⟩
      [("xs", .jarr [])] = none := by
  have harr : ArrayCodec.set .uint8 (.jarr []) false = some [0, 0, 0, 0] := by
    simp only [ArrayCodec.set, setElems, Option.map_some', List.length_nil,
      Nat.cast_zero, uint32_set_zero', List.append_nil]
  refine ⟨rfl, rfl, rfl, harr, ?_⟩
  have hobj : objGet [("xs", JVal.jarr [])] "xs" = JVal.jarr [] := rfl
  have hset : defSet false [("xs", JVal.jarr [])] [⟨"xs", .array .uint8⟩] =
      some [0, 0, 0, 0] := by
    simp only [defSet, fieldSet, hobj, harr, List.append_nil]
  have hbl : Definition.getByteLength ⟨[⟨"xs", .array .uint8⟩], 1, "m", false, none⟩
      [("xs", JVal.jarr [])] =
      some (0, ⟨[⟨"xs", .array .uint8⟩], 1, "m", false, none⟩) := rfl
  simp only [Definition.stringify, hbl, hset, List.length_cons, List.length_nil]
  norm_num

/-! ### Claim C7: StringCodec on absent and empty values -/

/-- Claim C7: set writes the documented zero length for both absent and
empty strings, and getByteLength reports 4 for the empty string; but
getByteLength reads .length of undefined for an absent value (a
TypeError), so the enclosing Definition.stringify fails even though
Definition.set alone would write the documented bytes. -/
theorem claim_C7_string_absent_bug :
    StringCodec.set .undef false = some [0, 0, 0, 0] ∧
    StringCodec.set (.jstr []) false = some [0, 0, 0, 0] ∧
    StringCodec.getByteLength (.jstr []) = some 4 ∧
    StringCodec.getByteLength .undef = none ∧
    defSet false [] [⟨"s", .prim .string⟩] = some [0, 0, 0, 0] ∧
    Definition.stringify ⟨[⟨"s", .prim .string⟩], 1, "m", false, none⟩ [] = none := by
  have hundef : StringCodec.set .undef false = some [0, 0, 0, 0] := by
    simp only [StringCodec.set, uint32_set_zero']
  have hempty : StringCodec.set (.jstr []) false = some [0, 0, 0, 0] := by
    simp only [StringCodec.set, uint32_set_zero']
  refine ⟨hundef, hempty, rfl, rfl, ?_, rfl⟩
  have hobj : objGet [] "s" = JVal.undef := rfl
  simp only [defSet, fieldSet, primSet, hobj, hundef, List.append_nil]

/-! ### Claim C8: the Definition byte length cache -/

/-- Every field's codec carries a byteLength property (booleans, integers,
floats). -/
def fieldsFixed (fields : List Field) : Bool :=
  fields.all (fun f => f.type.fixedLength?.isSome)

/-- The sum of the fixed widths. -/
def fixedSum (fields : List Field) : ℕ :=
  (fields.map (fun f => f.type.fixedLength?.getD 0)).sum

theorem defFieldsLength_fixed (fields : List Field) (hf : fieldsFixed fields = true)
    (obj : JObj) : defFieldsLength obj fields = some (fixedSum fields, true) := by
  induction fields with
  | nil => rfl
  | cons f rest ih =>
    simp only [fieldsFixed, List.all_cons, Bool.and_eq_true] at hf
    have ihr := ih hf.2
    obtain ⟨w, hw⟩ := Option.isSome_iff_exists.mp hf.1
    simp only [defFieldsLength, ihr, hw, fixedSum, List.map_cons, List.sum_cons,
      Option.getD_some]

theorem defFieldsLength_dynamic (fields : List Field) (hf : fieldsFixed fields = false) :
    ∀ (obj : JObj) (n : ℕ) (fx : Bool),
      defFieldsLength obj fields = some (n, fx) → fx = false := by
  induction fields with
  | nil => simp [fieldsFixed] at hf
  | cons f rest ih =>
    intro obj n fx h
    simp only [fieldsFixed, List.all_cons, Bool.and_eq_true] at hf
    cases hrest : defFieldsLength obj rest with
    | none => simp [defFieldsLength, hrest] at h
    | some p =>
      obtain ⟨m, fx2⟩ := p
      cases hffix : f.type.fixedLength? with
      | some w =>
        simp only [defFieldsLength, hrest, hffix, Option.some.injEq, Prod.mk.injEq] at h
        have hrf : fieldsFixed rest = false := by
          simp only [fieldsFixed]
          simpa only [hffix, Option.isSome_some, Bool.true_and, fieldsFixed] using hf
        have hfx2 := ih hrf obj m fx2 hrest
        rw [← h.2, hfx2]
      | none =>
        cases hfg : fieldGetByteLength f (objGet obj f.key) with
        | none => simp [defFieldsLength, hrest, hffix, hfg] at h
        | some m2 =>
          simp only [defFieldsLength, hrest, hffix, hfg, Option.some.injEq,
            Prod.mk.injEq] at h
          exact h.2.symm

/-- Claim C8: a populated cache is returned for every later call whatever
the value; with no cache yet, an all-fixed-width field list computes a
value-independent sum and stores it; any dynamic field (array, string,
booleanArray has no byteLength property) leaves the cache unset on every
call. -/
theorem claim_C8_bytelength_cache :
    (∀ (d : Definition) (obj : JObj) (n : ℕ), d.byteLength = some n →
      d.getByteLength obj = some (n, d)) ∧
    (∀ (d : Definition), d.byteLength = none → fieldsFixed d.fields = true →
      ∀ obj : JObj, d.getByteLength obj =
        some (fixedSum d.fields, { d with byteLength := some (fixedSum d.fields) })) ∧
    (∀ (d : Definition), d.byteLength = none → fieldsFixed d.fields = false →
      ∀ (obj : JObj) (n : ℕ) (d2 : Definition),
        d.getByteLength obj = some (n, d2) → d2 = d) := by
  refine ⟨?_, ?_, ?_⟩
  · intro d obj n h
    simp only [Definition.getByteLength, h]
  · intro d h hf obj
    simp only [Definition.getByteLength, h, defFieldsLength_fixed d.fields hf obj,
      if_pos rfl]
    rfl
  · intro d h hf obj n d2 hget
    simp only [Definition.getByteLength, h] at hget
    cases hrest : defFieldsLength obj d.fields with
    | none => rw [hrest] at hget; cases hget
    | some p =>
      obtain ⟨m, fx⟩ := p
      rw [hrest] at hget
      have hfx : fx = false := defFieldsLength_dynamic d.fields hf obj m fx hrest
      subst hfx
      simp only [Option.some.injEq, Prod.mk.injEq, if_neg (Bool.false_ne_true)] at hget
      exact hget.2.symm

/-- Witness for C8: a one-uint8-field definition computes and caches 1 on
the first call, and the cached 1 is returned for a different value. -/
theorem claim_C8_bytelength_cache_witness :
    Definition.getByteLength ⟨[⟨"x", .prim .uint8⟩], 1, "k", false, none⟩ [] =
      some (1, ⟨[⟨"x", .prim .uint8⟩], 1, "k", false, some 1⟩) ∧
    Definition.getByteLength ⟨[⟨"x", .prim .uint8⟩], 1, "k", false, some 1⟩
      [("x", .jbool true)] =
      some (1, ⟨[⟨"x", .prim .uint8⟩], 1, "k", false, some 1⟩) :=
  ⟨claim_C8_bytelength_cache.2.1 ⟨[⟨"x", .prim .uint8⟩], 1, "k", false, none⟩ rfl rfl [],
   claim_C8_bytelength_cache.1 ⟨[⟨"x", .prim .uint8⟩], 1, "k", false, some 1⟩
     [("x", .jbool true)] 1 rfl⟩

/-! ### Claim C9: when Schema.stringify and Schema.parse error -/

/-- Counterexample to "stringify errors iff the key is unregistered": a
registered definition with a string field fails to stringify an object
with the field absent (StringCodec.getByteLength reads .length of
undefined). -/
theorem claim_C9_counterexample :
    (buildSchema [("m", [⟨"s", .prim .string⟩])]).lookupKey "m" =
      some ⟨[⟨"s", .prim .string⟩], 1, "m", false, none⟩ ∧
    (buildSchema [("m", [⟨"s", .prim .string⟩])]).stringify "m" [] = none := by
  constructor
  · rfl
  · rfl

/-- Claim C9, amended: an unregistered key always fails stringify, and an
unregistered decoded id (or an id that cannot be read) always fails parse;
the registration tables are untouched by any call (the model's schema
operations return no schema).  The converse is false: see the
counterexample. -/
theorem claim_C9_error_conditions :
    (∀ (s : Schema) (k : String) (obj : JObj),
      s.lookupKey k = none → s.stringify k obj = none) ∧
    (∀ (s : Schema) (bytes : List ℕ),
      IntegerCodec.get s.idType bytes false = none → s.parse bytes = none) ∧
    (∀ (s : Schema) (bytes : List ℕ) (id : ℤ) (rest : List ℕ),
      IntegerCodec.get s.idType bytes false = some (id, rest) →
      s.lookupId id.toNat = none → s.parse bytes = none) := by
  refine ⟨?_, ?_, ?_⟩
  · intro s k obj h
    simp only [Schema.stringify, h]
  · intro s bytes h
    simp only [Schema.parse, h]
  · intro s bytes id rest h1 h2
    simp only [Schema.parse, h1, h2]

/-- Witness for C9: a fresh schema rejects an unregistered key. -/
theorem claim_C9_error_conditions_witness :
    createSchema.stringify "nope" [] = none :=
  claim_C9_error_conditions.1 createSchema "nope" [] rfl

/-! ### Claim C10: the default wire format of createSchema -/

theorem foldl_define_idType (regs : List (String × List Field)) :
    ∀ s : Schema, (regs.foldl (fun s kf => (s.define kf.1 kf.2).1) s).idType = s.idType := by
  induction regs with
  | nil => intro s; rfl
  | cons kf rest ih =>
    intro s
    rw [List.foldl_cons, ih]
    rfl

theorem foldl_define_byId (regs : List (String × List Field)) :
    ∀ s : Schema, (∀ p ∈ s.definitionsById, p.2.littleEndian = false) →
      ∀ p ∈ (regs.foldl (fun s kf => (s.define kf.1 kf.2).1) s).definitionsById,
        p.2.littleEndian = false := by
  induction regs with
  | nil => intro s h; exact h
  | cons kf rest ih =>
    intro s h
    rw [List.foldl_cons]
    apply ih
    intro p hp
    simp only [Schema.define, List.mem_cons] at hp
    rcases hp with rfl | hp
    · rfl
    · exact h p hp

theorem foldl_define_byKey (regs : List (String × List Field)) :
    ∀ s : Schema, (∀ p ∈ s.definitions, p.2.littleEndian = false) →
      ∀ p ∈ (regs.foldl (fun s kf => (s.define kf.1 kf.2).1) s).definitions,
        p.2.littleEndian = false := by
  induction regs with
  | nil => intro s h; exact h
  | cons kf rest ih =>
    intro s h
    rw [List.foldl_cons]
    apply ih
    intro p hp
    simp only [Schema.define, List.mem_cons] at hp
    rcases hp with rfl | hp
    · rfl
    · exact h p hp

theorem buildSchema_idType (regs : List (String × List Field)) :
    (buildSchema regs).idType = cUint8 :=
  foldl_define_idType regs createSchema

theorem buildSchema_byId (regs : List (String × List Field)) :
    ∀ p ∈ (buildSchema regs).definitionsById, p.2.littleEndian = false :=
  foldl_define_byId regs createSchema (by intro p hp; cases hp)

theorem buildSchema_byKey (regs : List (String × List Field)) :
    ∀ p ∈ (buildSchema regs).definitions, p.2.littleEndian = false :=
  foldl_define_byKey regs createSchema (by intro p hp; cases hp)

theorem lookupKey_littleEndian (s : Schema)
    (hs : ∀ p ∈ s.definitions, p.2.littleEndian = false)
    (k : String) (d : Definition) (h : s.lookupKey k = some d) :
    d.littleEndian = false := by
  unfold Schema.lookupKey at h
  obtain ⟨kv, hfind, hsnd⟩ := Option.map_eq_some'.mp h
  have hmem := List.mem_of_find?_eq_some hfind
  have := hs kv hmem
  rw [hsnd] at this
  exact this

theorem lookupId_littleEndian (s : Schema)
    (hs : ∀ p ∈ s.definitionsById, p.2.littleEndian = false)
    (i : ℕ) (d : Definition) (h : s.lookupId i = some d) :
    d.littleEndian = false := by
  unfold Schema.lookupId at h
  obtain ⟨kv, hfind, hsnd⟩ := Option.map_eq_some'.mp h
  have hmem := List.mem_of_find?_eq_some hfind
  have := hs kv hmem
  rw [hsnd] at this
  exact this

/-- Claim C10: a schema from createSchema uses the uint8 id codec, all its
definitions are big-endian, and its wire format is exactly one uint8 id
byte followed by the definition's fields encoded big-endian — for every
sequence of define calls, on both the write and the read side. -/
theorem claim_C10_default_wire_format :
    createSchema.idType = cUint8 ∧
    (∀ regs : List (String × List Field), (buildSchema regs).idType = cUint8) ∧
    (∀ regs : List (String × List Field), ∀ p ∈ (buildSchema regs).definitionsById,
      p.2.littleEndian = false) ∧
    (∀ (regs : List (String × List Field)) (k : String) (obj : JObj),
      (buildSchema regs).stringify k obj =
        match (buildSchema regs).lookupKey k with
        | none => none
        | some d =>
          match d.getByteLength obj with
          | none => none
          | some nd =>
            match defSet false obj d.fields with
            | none => none
            | some body =>
              if 1 + body.length ≤ 1 + nd.1 then
                some (IntegerCodec.set cUint8 (d.id : ℚ) false ++ body ++
                  List.replicate (1 + nd.1 - (1 + body.length)) 0)
              else none) ∧
    (∀ (regs : List (String × List Field)) (bytes : List ℕ),
      (buildSchema regs).parse bytes =
        match IntegerCodec.get cUint8 bytes false with
        | none => none
        | some (id, rest) =>
          match (buildSchema regs).lookupId id.toNat with
          | none => none
          | some d =>
            match defGet false d.fields rest with
            | none => none
            | some (obj, _) => some (d.key, obj)) := by
  refine ⟨rfl, buildSchema_idType, buildSchema_byId, ?_, ?_⟩
  · intro regs k obj
    simp only [Schema.stringify, buildSchema_idType]
    cases hk : (buildSchema regs).lookupKey k with
    | none => rfl
    | some d =>
      have hbe : d.littleEndian = false :=
        lookupKey_littleEndian _ (buildSchema_byKey regs) k d hk
      dsimp only
      rw [hbe]
      cases d.getByteLength obj with
      | none => rfl
      | some nd =>
        cases defSet false obj d.fields with
        | none => rfl
        | some body =>
          simp only [IntegerCodec.set_length, show cUint8.byteLength = 1 from rfl]
  · intro regs bytes
    simp only [Schema.parse, buildSchema_idType]
    cases IntegerCodec.get cUint8 bytes false with
    | none => rfl
    | some p =>
      obtain ⟨id, rest⟩ := p
      dsimp only
      cases hid : (buildSchema regs).lookupId id.toNat with
      | none => rfl
      | some d =>
        have hbe : d.littleEndian = false :=
          lookupId_littleEndian _ (buildSchema_byId regs) id.toNat d hid
        dsimp only
        rw [hbe]

/-- Witness for C10: the invariants applied at a one-definition schema. -/
theorem claim_C10_default_wire_format_witness :
    ((1 : ℕ), (⟨[], 1, "a", false, none⟩ : Definition)).2.littleEndian = false :=
  claim_C10_default_wire_format.2.2.1 [("a", [])]
    (1, ⟨[], 1, "a", false, none⟩) (by decide)

/-! ### Varint round trip (BooleanArrayCodec length prefix) -/

theorem varintLoop_zero (f : ℕ) : varintLoop f 0 = [] := by
  cases f <;> rfl

theorem and63_eq_mod (x : ℕ) : x &&& 63 = x % 64 :=
  Nat.and_pow_two_sub_one_eq_mod x 6

theorem and31_eq_mod (x : ℕ) : x &&& 31 = x % 32 :=
  Nat.and_pow_two_sub_one_eq_mod x 5

theorem and7_eq_mod (x : ℕ) : x &&& 7 = x % 8 :=
  Nat.and_pow_two_sub_one_eq_mod x 3

theorem and1_eq_mod (x : ℕ) : x &&& 1 = x % 2 :=
  Nat.and_pow_two_sub_one_eq_mod x 1

theorem and128_of_lt : ∀ x < 128, x &&& 128 = 0 := by decide

theorem or128_and127 : ∀ x < 128, (x ||| 128) &&& 127 = x := by decide

theorem or128_and128 : ∀ x < 128, (x ||| 128) &&& 128 = 128 := by decide

theorem lor_shift_add (a b n : ℕ) (h : b < 2 ^ n) : b ||| (a <<< n) = a * 2 ^ n + b := by
  rw [Nat.lor_comm]
  exact lor_disjoint a b n h

theorem varintRead_loop (f : ℕ) : ∀ (L : ℕ), L ≠ 0 → L < f →
    ∀ (i acc : ℕ) (rest : List ℕ), acc < 2 ^ (i * 7) →
      varintRead (varintLoop f L ++ rest) i acc = some (acc + L * 2 ^ (i * 7), rest) := by
  induction f with
  | zero => intro L h0 hf; omega
  | succ f ih =>
    intro L h0 hf i acc rest hacc
    rw [varintLoop, if_neg h0]
    dsimp only
    have hmod : L &&& 127 = L % 128 := and127_eq_mod L
    have hdiv : L >>> 7 = L / 128 := shr7_eq_div L
    by_cases h7 : L >>> 7 = 0
    · have hL : L < 128 := by omega
      rw [if_neg (by simp [h7]), h7, varintLoop_zero, List.cons_append,
        List.nil_append, varintRead]
      have hb127 : L &&& 127 &&& 127 = L := by
        rw [hmod, and127_eq_mod]
        omega
      have hb128 : L &&& 127 &&& 128 = 0 := by
        rw [hmod]
        exact and128_of_lt _ (by omega)
      rw [hb127, hb128]
      simp only [ne_eq, not_true_eq_false, if_false, Option.some.injEq,
        Prod.mk.injEq, and_true, reduceCtorEq, if_neg]
      rw [lor_shift_add L acc (i * 7) hacc]
      omega
    · rw [if_pos (by simpa using h7), List.cons_append, varintRead]
      have hb127 : (L &&& 127 ||| 128) &&& 127 = L % 128 := by
        rw [hmod]
        exact or128_and127 _ (by omega)
      have hb128 : (L &&& 127 ||| 128) &&& 128 = 128 := by
        rw [hmod]
        exact or128_and128 _ (by omega)
      rw [hb127, hb128]
      have hP : (0:ℕ) < 2 ^ (i * 7) := Nat.pos_pow_of_pos _ (by norm_num)
      have hacc2 : acc ||| (L % 128) <<< (i * 7) = (L % 128) * 2 ^ (i * 7) + acc :=
        lor_shift_add (L % 128) acc (i * 7) hacc
      simp only [ne_eq, OfNat.ofNat_ne_zero, not_false_eq_true, if_true, if_pos]
      rw [hacc2, hdiv]
      have hstep : (L % 128) * 2 ^ (i * 7) + acc < 2 ^ ((i + 1) * 7) := by
        have h1 : (L % 128) * 2 ^ (i * 7) ≤ 127 * 2 ^ (i * 7) :=
          Nat.mul_le_mul_right _ (by omega)
        have h2 : 2 ^ ((i + 1) * 7) = 128 * 2 ^ (i * 7) := by
          rw [show (i + 1) * 7 = i * 7 + 7 from by ring, pow_add]
          ring
        omega
      rw [ih (L / 128) (by omega) (by omega) (i + 1) _ rest hstep]
      have h2 : 2 ^ ((i + 1) * 7) = 2 ^ (i * 7) * 128 := by
        rw [show (i + 1) * 7 = i * 7 + 7 from by ring, pow_add]
        norm_num
      have hL : L % 128 + 128 * (L / 128) = L := Nat.mod_add_div L 128
      rw [h2]
      simp only [Option.some.injEq, Prod.mk.injEq, and_true]
      have hLP : L * 2 ^ (i * 7) =
          L % 128 * 2 ^ (i * 7) + L / 128 * (2 ^ (i * 7) * 128) := by
        conv_lhs => rw [← hL]
        ring
      linarith [hLP]

theorem setLength_read (L : ℕ) (rest : List ℕ) :
    varintRead (BooleanArrayCodec.setLength L ++ rest) 0 0 = some (L, rest) := by
  unfold BooleanArrayCodec.setLength
  by_cases h0 : L = 0
  · subst h0
    rfl
  · rw [if_neg h0]
    have h := varintRead_loop (L + 1) L h0 (by omega) 0 0 rest (by norm_num)
    simpa using h

/-! ### Bit packing round trip (BooleanArrayCodec flags) -/

theorem bitsOfByte_zero (b : ℕ) : bitsOfByte b 0 = [] := rfl

theorem bitsOfByte_one (v : Bool) : bitsOfByte (cond v 1 0) 1 = [v] := by
  cases v <;> rfl

theorem bit_low (c byte bit i : ℕ) (hb : byte < 2 ^ bit) (hi : i < bit) :
    (c * 2 ^ bit + byte) >>> i &&& 1 = byte >>> i &&& 1 := by
  rw [Nat.shiftRight_eq_div_pow, Nat.shiftRight_eq_div_pow, and1_eq_mod, and1_eq_mod]
  obtain ⟨j, hj⟩ : ∃ j, bit = i + (j + 1) := ⟨bit - i - 1, by omega⟩
  subst hj
  rw [pow_add]
  rw [show c * (2 ^ i * 2 ^ (j + 1)) + byte = byte + c * 2 ^ j * 2 * 2 ^ i from by ring]
  rw [Nat.add_mul_div_right byte _ (Nat.pos_pow_of_pos i (by norm_num))]
  omega

theorem bit_high (c byte bit : ℕ) (hb : byte < 2 ^ bit) :
    (c * 2 ^ bit + byte) >>> bit &&& 1 = c % 2 := by
  rw [Nat.shiftRight_eq_div_pow, and1_eq_mod]
  rw [show c * 2 ^ bit + byte = byte + 2 ^ bit * c from by ring]
  rw [Nat.add_mul_div_left _ _ (Nat.pos_pow_of_pos bit (by norm_num))]
  rw [Nat.div_eq_of_lt hb]
  omega

theorem unpackBits_zero (bs : List ℕ) : unpackBits bs 0 = some ([], bs) := by
  cases bs <;> rfl

theorem bitsOfByte_snoc (byte : ℕ) (v : Bool) (bit : ℕ) (hb : byte < 2 ^ bit) :
    bitsOfByte (byte ||| cond v 1 0 <<< bit) (bit + 1) = bitsOfByte byte bit ++ [v] := by
  have hor : byte ||| cond v 1 0 <<< bit = cond v 1 0 * 2 ^ bit + byte :=
    lor_shift_add (cond v 1 0) byte bit hb
  unfold bitsOfByte
  rw [List.range_succ, List.map_append, List.map_singleton, hor]
  congr 1
  · apply List.map_congr_left
    intro i hi
    rw [bit_low (cond v 1 0) byte bit i hb (List.mem_range.mp hi)]
  · rw [bit_high (cond v 1 0) byte bit hb]
    cases v <;> rfl

theorem unpack_pack (l : List Bool) : ∀ (byte bit : ℕ), bit ≤ 8 → byte < 2 ^ bit →
    ∀ rest, unpackBits (packBits l byte bit ++ rest) (bit + l.length) =
      some (bitsOfByte byte bit ++ l, rest) := by
  induction l with
  | nil =>
    intro byte bit h8 hb rest
    by_cases hbit : 0 < bit
    · obtain ⟨bit2, rfl⟩ : ∃ b2, bit = b2 + 1 := ⟨bit - 1, by omega⟩
      rw [packBits, if_pos hbit, List.cons_append, List.nil_append,
        List.length_nil, Nat.add_zero, unpackBits, if_pos h8, List.append_nil]
      exact Nat.succ_ne_zero bit2
    · have hbit0 : bit = 0 := by omega
      subst hbit0
      have hb0 : byte = 0 := by omega
      subst hb0
      rw [packBits, if_neg hbit, List.nil_append, List.length_nil, Nat.add_zero,
        unpackBits_zero]
      rfl
  | cons v tl ih =>
    intro byte bit h8 hb rest
    by_cases h8e : bit = 8
    · subst h8e
      rw [packBits, if_pos rfl, List.cons_append]
      rw [show 8 + (v :: tl).length = (1 + tl.length) + 8 from by
        simp [List.length_cons]; ring]
      obtain ⟨c2, hc2⟩ : ∃ c2, (1 + tl.length) + 8 = c2 + 1 := ⟨tl.length + 8, by omega⟩
      rw [hc2, unpackBits, if_neg (by omega)]
      rw [show c2 + 1 - 8 = 1 + tl.length from by omega]
      have hih := ih (cond v 1 0) 1 (by omega) (by cases v <;> norm_num) rest
      rw [hih, bitsOfByte_one]
      · rfl
      · exact Nat.succ_ne_zero c2
    · have hlt : bit < 8 := by omega
      rw [packBits, if_neg h8e]
      have hb2 : byte ||| cond v 1 0 <<< bit < 2 ^ (bit + 1) := by
        rw [lor_shift_add (cond v 1 0) byte bit hb, pow_succ]
        have : cond v 1 0 ≤ 1 := by cases v <;> norm_num
        nlinarith [hb]
      have hih := ih (byte ||| cond v 1 0 <<< bit) (bit + 1) (by omega) hb2 rest
      rw [show bit + (v :: tl).length = (bit + 1) + tl.length from by
        simp [List.length_cons]; ring]
      rw [hih, bitsOfByte_snoc byte v bit hb, List.append_assoc]
      rfl

/-- The boolean array codec round trip. -/
theorem booleanArray_roundtrip (l : List Bool) (rest : List ℕ) :
    BooleanArrayCodec.get (BooleanArrayCodec.set l ++ rest) = some (l, rest) := by
  unfold BooleanArrayCodec.set BooleanArrayCodec.get
  rw [List.append_assoc, setLength_read]
  have h := unpack_pack l 0 0 (by norm_num) (by norm_num) rest
  simpa using h

/-! ### Byte lengths of the boolean array codec -/

theorem packBits_length (l : List Bool) : ∀ byte bit : ℕ, bit ≤ 8 →
    (packBits l byte bit).length = (bit + l.length + 7) / 8 := by
  induction l with
  | nil =>
    intro byte bit h8
    by_cases hbit : 0 < bit
    · rw [packBits, if_pos hbit]
      simp only [List.length_singleton, List.length_nil]
      omega
    · rw [packBits, if_neg hbit]
      simp only [List.length_nil]
      omega
  | cons v tl ih =>
    intro byte bit h8
    by_cases h8e : bit = 8
    · subst h8e
      rw [packBits, if_pos rfl]
      simp only [List.length_cons, ih _ 1 (by omega)]
      omega
    · rw [packBits, if_neg h8e, ih _ (bit + 1) (by omega)]
      simp only [List.length_cons]
      omega

theorem varintLoop_length (f : ℕ) : ∀ L, L ≠ 0 → L < f →
    0 < (varintLoop f L).length ∧
    128 ^ ((varintLoop f L).length - 1) ≤ L ∧ L < 128 ^ (varintLoop f L).length := by
  induction f with
  | zero => intro L h0 hf; omega
  | succ f ih =>
    intro L h0 hf
    rw [varintLoop, if_neg h0]
    dsimp only
    have hdiv : L >>> 7 = L / 128 := shr7_eq_div L
    by_cases h7 : L >>> 7 = 0
    · rw [if_neg (by simp [h7]), h7, varintLoop_zero]
      simp only [List.length_singleton]
      norm_num
      omega
    · rw [if_pos (by simpa using h7)]
      simp only [List.length_cons]
      rw [hdiv] at h7
      rw [hdiv]
      obtain ⟨hpos, hlow, hhigh⟩ := ih (L / 128) h7 (by omega)
      refine ⟨by omega, ?_, ?_⟩
      · rw [show (varintLoop f (L / 128)).length + 1 - 1 =
          (varintLoop f (L / 128)).length from by omega]
        have h3 : 128 ^ (varintLoop f (L / 128)).length =
            128 ^ ((varintLoop f (L / 128)).length - 1) * 128 := by
          conv_lhs => rw [show (varintLoop f (L / 128)).length =
            ((varintLoop f (L / 128)).length - 1) + 1 from by omega]
          rw [pow_succ]
        have h1 : 128 ^ ((varintLoop f (L / 128)).length - 1) * 128 ≤ L / 128 * 128 :=
          Nat.mul_le_mul_right _ hlow
        omega
      · have h4 : 128 ^ ((varintLoop f (L / 128)).length + 1) =
            128 ^ (varintLoop f (L / 128)).length * 128 := pow_succ 128 _
        omega

theorem booleanArray_set_length (l : List Bool) :
    (BooleanArrayCodec.set l).length = BooleanArrayCodec.getByteLength l.length := by
  unfold BooleanArrayCodec.set BooleanArrayCodec.getByteLength BooleanArrayCodec.setLength
  dsimp only
  rw [List.length_append, packBits_length l 0 0 (by norm_num)]
  by_cases h0 : l.length = 0
  · rw [if_pos h0, if_pos h0, h0]
    rfl
  · rw [if_neg h0, if_neg h0]
    obtain ⟨hpos, hlow, hhigh⟩ := varintLoop_length (l.length + 1) l.length h0 (by omega)
    set k := (varintLoop (l.length + 1) l.length).length with hk
    have hp1 : (128 : ℕ) ^ (k - 1) = 2 ^ (7 * (k - 1)) := by
      rw [pow_mul]
      norm_num
    have hp2 : (128 : ℕ) ^ k = 2 ^ (7 * k) := by
      rw [pow_mul]
      norm_num
    have hlog1 : 7 * (k - 1) ≤ Nat.log 2 l.length := by
      rw [hp1] at hlow
      exact (Nat.pow_le_iff_le_log (by norm_num) h0).mp hlow
    have hlog2 : Nat.log 2 l.length < 7 * k := by
      rw [hp2] at hhigh
      exact Nat.log_lt_of_lt_pow h0 hhigh
    have hmax : max ((Nat.log 2 l.length + 1 + 6) / 7) 1 =
        (Nat.log 2 l.length + 1 + 6) / 7 :=
      Nat.max_eq_left (by omega)
    rw [hmax]
    omega

/-! ### UTF-8 code point round trip -/

theorem cont_masks : ∀ y < 64, (128 ||| y) &&& 192 = 128 ∧ (128 ||| y) &&& 63 = y ∧
    128 ||| y < 256 := by decide

theorem lead2_masks : ∀ x < 32, (192 ||| x) &&& 128 = 128 ∧ (192 ||| x) &&& 224 = 192 ∧
    (192 ||| x) &&& 31 = x ∧ 192 ||| x < 256 := by decide

theorem lead3_masks : ∀ x < 16, (224 ||| x) &&& 128 = 128 ∧ (224 ||| x) &&& 224 = 224 ∧
    (224 ||| x) &&& 240 = 224 ∧ (224 ||| x) &&& 15 = x ∧ 224 ||| x < 256 := by decide

theorem lead4_masks : ∀ x < 8, (240 ||| x) &&& 128 = 128 ∧ (240 ||| x) &&& 224 = 224 ∧
    (240 ||| x) &&& 240 = 240 ∧ (240 ||| x) &&& 248 = 240 ∧ (240 ||| x) &&& 7 = x ∧
    240 ||| x < 256 := by decide

theorem shr6_eq_div (x : ℕ) : x >>> 6 = x / 64 := by
  rw [Nat.shiftRight_eq_div_pow]

theorem shr12_eq_div (x : ℕ) : x >>> 12 = x / 4096 := by
  rw [Nat.shiftRight_eq_div_pow]

theorem shr18_eq_div (x : ℕ) : x >>> 18 = x / 262144 := by
  rw [Nat.shiftRight_eq_div_pow]

theorem contByte_of_low (y : ℕ) (hy : y < 64) : contByte (128 ||| y) = some y := by
  unfold contByte
  rw [(cont_masks y hy).1, if_pos rfl, (cont_masks y hy).2.1]

theorem lor2_decomp (x y1 : ℕ) (hy1 : y1 < 64) :
    (x <<< 6) ||| y1 = x * 64 + y1 := by
  have h := lor_disjoint x y1 6 (by omega)
  rw [Nat.shiftLeft_eq] at h
  rw [Nat.shiftLeft_eq]
  norm_num at h ⊢
  exact h

theorem lor3_decomp (x y1 y2 : ℕ) (hy1 : y1 < 64) (hy2 : y2 < 64) :
    (x <<< 12) ||| (y1 <<< 6) ||| y2 = (x * 64 + y1) * 64 + y2 := by
  have h1 := lor_disjoint x (y1 <<< 6) 12
    (by simp only [Nat.shiftLeft_eq]; norm_num; omega)
  have h2 := lor_disjoint (x * 64 + y1) y2 6 (by omega)
  simp only [Nat.shiftLeft_eq] at h1 h2 ⊢
  norm_num at h1 h2 ⊢
  rw [h1, show x * 4096 + y1 * 64 = (x * 64 + y1) * 64 from by ring, h2]

theorem lor4_decomp (x y1 y2 y3 : ℕ) (hy1 : y1 < 64) (hy2 : y2 < 64) (hy3 : y3 < 64) :
    (x <<< 18) ||| (y1 <<< 12) ||| (y2 <<< 6) ||| y3 =
      ((x * 64 + y1) * 64 + y2) * 64 + y3 := by
  have h1 := lor_disjoint x (y1 <<< 12) 18
    (by simp only [Nat.shiftLeft_eq]; norm_num; omega)
  have h2 := lor_disjoint (x * 64 + y1) (y2 <<< 6) 12
    (by simp only [Nat.shiftLeft_eq]; norm_num; omega)
  have h3 := lor_disjoint ((x * 64 + y1) * 64 + y2) y3 6 (by omega)
  simp only [Nat.shiftLeft_eq] at h1 h2 h3 ⊢
  norm_num at h1 h2 h3 ⊢
  rw [h1, show x * 262144 + y1 * 4096 = (x * 64 + y1) * 4096 from by ring, h2,
    show (x * 64 + y1) * 4096 + y2 * 64 = ((x * 64 + y1) * 64 + y2) * 64 from by ring,
    h3]

/-- Decoding inverts the encoding of one scalar code point, with any byte
tail. -/
theorem decode_encode_cp (cp : ℕ) (hmax : cp ≤ 0x10FFFF) (b : List ℕ)
    (h : encodeCodePoint cp = some b) (rest : List ℕ) :
    decodeCodePoint (b ++ rest) = some (cp, rest) := by
  unfold encodeCodePoint at h
  by_cases h1 : cp < 128
  · rw [if_pos h1] at h
    obtain rfl : [cp] = b := Option.some.inj h
    show decodeCodePoint (cp :: rest) = _
    unfold decodeCodePoint
    dsimp only
    rw [if_pos (and128_of_lt cp h1)]
  · rw [if_neg h1] at h
    by_cases h2 : cp < 2048
    · rw [if_pos h2] at h
      obtain rfl := Option.some.inj h
      have hx : cp >>> 6 < 32 := by rw [shr6_eq_div]; omega
      have hy : cp &&& 63 < 64 := by rw [and63_eq_mod]; omega
      show decodeCodePoint
        ((192 ||| (cp >>> 6)) :: (128 ||| (cp &&& 63)) :: rest) = _
      unfold decodeCodePoint
      dsimp only
      rw [if_neg (by rw [(lead2_masks _ hx).1]; norm_num),
        if_pos (lead2_masks _ hx).2.1, contByte_of_low _ hy]
      dsimp only
      have hcp : ((192 ||| (cp >>> 6)) &&& 31) <<< 6 ||| (cp &&& 63) = cp := by
        rw [(lead2_masks _ hx).2.2.1, and63_eq_mod, shr6_eq_div,
          lor2_decomp _ _ (by omega)]
        omega
      rw [hcp, if_pos (by omega)]
    · rw [if_neg h2] at h
      by_cases h3 : cp < 65536
      · rw [if_pos h3] at h
        by_cases hs : 0xD800 ≤ cp ∧ cp ≤ 0xDFFF
        · rw [if_pos hs] at h
          cases h
        · rw [if_neg hs] at h
          obtain rfl := Option.some.inj h
          have hx : cp >>> 12 < 16 := by rw [shr12_eq_div]; omega
          have hy1 : (cp >>> 6) &&& 63 < 64 := by rw [and63_eq_mod]; omega
          have hy2 : cp &&& 63 < 64 := by rw [and63_eq_mod]; omega
          show decodeCodePoint ((224 ||| (cp >>> 12)) ::
            (128 ||| ((cp >>> 6) &&& 63)) :: (128 ||| (cp &&& 63)) :: rest) = _
          unfold decodeCodePoint
          dsimp only
          rw [if_neg (by rw [(lead3_masks _ hx).1]; norm_num),
            if_neg (by rw [(lead3_masks _ hx).2.1]; norm_num),
            if_pos (lead3_masks _ hx).2.2.1,
            contByte_of_low _ hy1, contByte_of_low _ hy2]
          dsimp only
          have hcp : ((224 ||| (cp >>> 12)) &&& 15) <<< 12 |||
              ((cp >>> 6) &&& 63) <<< 6 ||| (cp &&& 63) = cp := by
            rw [(lead3_masks _ hx).2.2.2.1,
              lor3_decomp _ _ _ (by rw [and63_eq_mod]; omega) (by rw [and63_eq_mod]; omega),
              and63_eq_mod, and63_eq_mod, shr6_eq_div, shr12_eq_div]
            omega
          rw [hcp, if_pos (by omega)]
      · rw [if_neg h3, if_pos (by omega)] at h
        obtain rfl := Option.some.inj h
        have hx : cp >>> 18 < 8 := by rw [shr18_eq_div]; omega
        have hy1 : (cp >>> 12) &&& 63 < 64 := by rw [and63_eq_mod]; omega
        have hy2 : (cp >>> 6) &&& 63 < 64 := by rw [and63_eq_mod]; omega
        have hy3 : cp &&& 63 < 64 := by rw [and63_eq_mod]; omega
        show decodeCodePoint ((240 ||| (cp >>> 18)) ::
          (128 ||| ((cp >>> 12) &&& 63)) :: (128 ||| ((cp >>> 6) &&& 63)) ::
          (128 ||| (cp &&& 63)) :: rest) = _
        unfold decodeCodePoint
        dsimp only
        rw [if_neg (by rw [(lead4_masks _ hx).1]; norm_num),
          if_neg (by rw [(lead4_masks _ hx).2.1]; norm_num),
          if_neg (by rw [(lead4_masks _ hx).2.2.1]; norm_num),
          if_pos (lead4_masks _ hx).2.2.2.1,
          contByte_of_low _ hy1, contByte_of_low _ hy2, contByte_of_low _ hy3]
        dsimp only
        have hcp : ((240 ||| (cp >>> 18)) &&& 7) <<< 18 |||
            ((cp >>> 12) &&& 63) <<< 12 ||| ((cp >>> 6) &&& 63) <<< 6 |||
            (cp &&& 63) = cp := by
          rw [(lead4_masks _ hx).2.2.2.2.1,
            lor4_decomp _ _ _ _ (by rw [and63_eq_mod]; omega)
              (by rw [and63_eq_mod]; omega) (by rw [and63_eq_mod]; omega),
            and63_eq_mod, and63_eq_mod, and63_eq_mod, shr6_eq_div, shr12_eq_div,
            shr18_eq_div]
          omega
        rw [hcp, if_pos (by omega)]

/-- Every encoded code point takes at least one byte. -/
theorem encodeCodePoint_ne_nil (cp : ℕ) (b : List ℕ) (h : encodeCodePoint cp = some b) :
    b ≠ [] := by
  unfold encodeCodePoint at h
  split_ifs at h <;> cases h <;> simp

/-- Every encoded code point takes at most four bytes. -/
theorem encodeCodePoint_length_le (cp : ℕ) (b : List ℕ)
    (h : encodeCodePoint cp = some b) : b.length ≤ 4 := by
  unfold encodeCodePoint at h
  split_ifs at h <;> cases h <;> simp

/-- Every encoded byte is below 256. -/
theorem encodeCodePoint_bytes_lt (cp : ℕ) (b : List ℕ)
    (h : encodeCodePoint cp = some b) : ∀ x ∈ b, x < 256 := by
  unfold encodeCodePoint at h
  by_cases h1 : cp < 128
  · rw [if_pos h1] at h
    obtain rfl := Option.some.inj h
    simp only [List.mem_singleton]
    omega
  · rw [if_neg h1] at h
    by_cases h2 : cp < 2048
    · rw [if_pos h2] at h
      obtain rfl := Option.some.inj h
      intro x hx
      have ha : cp >>> 6 < 32 := by rw [shr6_eq_div]; omega
      have hb : cp &&& 63 < 64 := by rw [and63_eq_mod]; omega
      rcases List.mem_cons.mp hx with rfl | hx
      · exact (lead2_masks _ ha).2.2.2
      · rcases List.mem_singleton.mp hx with rfl
        exact (cont_masks _ hb).2.2
    · rw [if_neg h2] at h
      by_cases h3 : cp < 65536
      · rw [if_pos h3] at h
        by_cases hs : 0xD800 ≤ cp ∧ cp ≤ 0xDFFF
        · rw [if_pos hs] at h
          cases h
        · rw [if_neg hs] at h
          obtain rfl := Option.some.inj h
          intro x hx
          have ha : cp >>> 12 < 16 := by rw [shr12_eq_div]; omega
          have hb1 : (cp >>> 6) &&& 63 < 64 := by rw [and63_eq_mod]; omega
          have hb2 : cp &&& 63 < 64 := by rw [and63_eq_mod]; omega
          rcases List.mem_cons.mp hx with rfl | hx
          · exact (lead3_masks _ ha).2.2.2.2
          rcases List.mem_cons.mp hx with rfl | hx
          · exact (cont_masks _ hb1).2.2
          rcases List.mem_singleton.mp hx with rfl
          exact (cont_masks _ hb2).2.2
      · by_cases h4 : cp ≤ 0x1FFFFF
        · rw [if_neg h3, if_pos h4] at h
          obtain rfl := Option.some.inj h
          intro x hx
          have ha : cp >>> 18 < 8 := by rw [shr18_eq_div]; omega
          have hb1 : (cp >>> 12) &&& 63 < 64 := by rw [and63_eq_mod]; omega
          have hb2 : (cp >>> 6) &&& 63 < 64 := by rw [and63_eq_mod]; omega
          have hb3 : cp &&& 63 < 64 := by rw [and63_eq_mod]; omega
          rcases List.mem_cons.mp hx with rfl | hx
          · exact (lead4_masks _ ha).2.2.2.2.2
          rcases List.mem_cons.mp hx with rfl | hx
          · exact (cont_masks _ hb1).2.2
          rcases List.mem_cons.mp hx with rfl | hx
          · exact (cont_masks _ hb2).2.2
          rcases List.mem_singleton.mp hx with rfl
          exact (cont_masks _ hb3).2.2
        · rw [if_neg h3, if_neg h4] at h
          cases h

/-- A scalar value in range always encodes. -/
theorem encodeCodePoint_scalar (cp : ℕ) (h1 : cp < 0xD800 ∨ 0xE000 ≤ cp)
    (h2 : cp ≤ 0x10FFFF) : ∃ b, encodeCodePoint cp = some b := by
  unfold encodeCodePoint
  split_ifs <;> first | exact ⟨_, rfl⟩ | omega

theorem decodeCPs_nil (f : ℕ) : decodeCPs f [] = some [] := by
  cases f <;> rfl

theorem encodeCPs_length_le (cps : List ℕ) : ∀ bs : List ℕ, encodeCPs cps = some bs →
    cps.length ≤ bs.length := by
  induction cps with
  | nil =>
    intro bs h
    obtain rfl := Option.some.inj h
    simp
  | cons cp tl ih =>
    intro bs h
    unfold encodeCPs at h
    cases hb : encodeCodePoint cp with
    | none => rw [hb] at h; cases h
    | some b =>
      cases htl : encodeCPs tl with
      | none => rw [hb, htl] at h; cases h
      | some bs2 =>
        rw [hb, htl] at h
        obtain rfl := Option.some.inj h
        have h1 : 1 ≤ b.length := by
          have := encodeCodePoint_ne_nil cp b hb
          cases b with
          | nil => exact absurd rfl this
          | cons x xs => simp
        have h2 := ih bs2 htl
        simp only [List.length_cons, List.length_append]
        omega

theorem decodeCPs_encodeCPs (cps : List ℕ) (hscalar : ∀ cp ∈ cps, cp ≤ 0x10FFFF) :
    ∀ bs : List ℕ, encodeCPs cps = some bs →
    ∀ f, cps.length ≤ f → decodeCPs f bs = some cps := by
  induction cps with
  | nil =>
    intro bs h f _
    obtain rfl := Option.some.inj h
    exact decodeCPs_nil f
  | cons cp tl ih =>
    intro bs h f hf
    unfold encodeCPs at h
    cases hb : encodeCodePoint cp with
    | none => rw [hb] at h; cases h
    | some b =>
      cases htl : encodeCPs tl with
      | none => rw [hb, htl] at h; cases h
      | some bs2 =>
        rw [hb, htl] at h
        obtain rfl := Option.some.inj h
        obtain ⟨f2, rfl⟩ : ∃ f2, f = f2 + 1 :=
          ⟨f - 1, by simp only [List.length_cons] at hf; omega⟩
        obtain ⟨b0, btl, rfl⟩ : ∃ b0 btl, b = b0 :: btl := by
          cases b with
          | nil => exact absurd rfl (encodeCodePoint_ne_nil cp [] hb)
          | cons b0 btl => exact ⟨b0, btl, rfl⟩
        rw [List.cons_append, decodeCPs]
        have hd := decode_encode_cp cp (hscalar cp (by simp)) (b0 :: btl) hb bs2
        rw [List.cons_append] at hd
        rw [hd]
        dsimp only
        rw [ih (fun c hc => hscalar c (List.mem_cons_of_mem _ hc)) bs2 htl f2
          (by simp only [List.length_cons] at hf; omega)]

/-- UCS-2 decoding of a well-formed unit sequence: re-encoding the code
points gives the units back, each code point is a scalar value, and there
are no more code points than units. -/
theorem ucs2_decode_spec (units : List ℕ) (h : validUnits units = true) :
    ((ucs2Decode units).map ucs2EncodeCP).flatten = units ∧
    (∀ cp ∈ ucs2Decode units, (cp < 0xD800 ∨ 0xE000 ≤ cp) ∧ cp ≤ 0x10FFFF) ∧
    (ucs2Decode units).length ≤ units.length := by
  induction units using ucs2Decode.induct with
  | case1 =>
    simp [ucs2Decode]
  | case2 u =>
    simp only [validUnits, decide_eq_true_eq] at h
    unfold ucs2Decode
    refine ⟨?_, ?_, by simp⟩
    · simp only [List.map_singleton, List.flatten]
      unfold ucs2EncodeCP
      rw [if_pos (by omega)]
      simp
    · intro cp hcp
      simp only [List.mem_singleton] at hcp
      subst hcp
      omega
  | case3 u v rest hcond ih =>
    have hu : 0xD800 ≤ u ∧ u ≤ 0xDBFF := hcond.1
    have hv : 0xDC00 ≤ v ∧ v ≤ 0xDFFF := hcond.2
    have hrest : validUnits rest = true := by
      unfold validUnits at h
      rw [if_neg (by omega)] at h
      simp only [Bool.and_eq_true, decide_eq_true_eq] at h
      exact h.2
    obtain ⟨ih1, ih2, ih3⟩ := ih hrest
    unfold ucs2Decode
    rw [if_pos hcond]
    refine ⟨?_, ?_, by simp only [List.length_cons]; omega⟩
    · simp only [List.map_cons, List.flatten_cons, ih1]
      unfold ucs2EncodeCP
      rw [if_neg (by omega)]
      have h1 : (u - 0xD800) * 1024 + (v - 0xDC00) + 0x10000 - 0x10000 =
          (u - 0xD800) * 1024 + (v - 0xDC00) := by omega
      rw [h1]
      have h2 : ((u - 0xD800) * 1024 + (v - 0xDC00)) / 1024 = u - 0xD800 := by
        omega
      have h3 : ((u - 0xD800) * 1024 + (v - 0xDC00)) % 1024 = v - 0xDC00 := by
        omega
      rw [h2, h3]
      simp only [List.cons_append, List.nil_append, List.cons.injEq]
      refine ⟨by omega, by omega, trivial⟩
    · intro cp hcp
      rcases List.mem_cons.mp hcp with rfl | hcp
      · constructor
        · right; omega
        · omega
      · exact ih2 cp hcp
  | case4 u v rest hcond ih =>
    by_cases hbmp : u < 0xD800 ∨ (0xE000 ≤ u ∧ u < 0x10000)
    · have hrest : validUnits (v :: rest) = true := by
        unfold validUnits at h
        rw [if_pos hbmp] at h
        exact h
      obtain ⟨ih1, ih2, ih3⟩ := ih hrest
      simp only [List.length_cons] at ih3
      unfold ucs2Decode
      rw [if_neg hcond]
      refine ⟨?_, ?_, by simp only [List.length_cons]; omega⟩
      · simp only [List.map_cons, List.flatten_cons, ih1]
        unfold ucs2EncodeCP
        rw [if_pos (by omega)]
        simp
      · intro cp hcp
        rcases List.mem_cons.mp hcp with rfl | hcp
        · omega
        · exact ih2 cp hcp
    · exfalso
      unfold validUnits at h
      rw [if_neg hbmp] at h
      simp only [Bool.and_eq_true, decide_eq_true_eq] at h
      exact hcond ⟨h.1.1, h.1.2⟩

theorem encodeCPs_scalar (cps : List ℕ)
    (h : ∀ cp ∈ cps, (cp < 0xD800 ∨ 0xE000 ≤ cp) ∧ cp ≤ 0x10FFFF) :
    ∃ bs, encodeCPs cps = some bs ∧ (∀ b ∈ bs, b < 256) ∧
      bs.length ≤ 4 * cps.length := by
  induction cps with
  | nil => exact ⟨[], rfl, by simp, by simp⟩
  | cons cp tl ih =>
    obtain ⟨b, hb⟩ := encodeCodePoint_scalar cp (h cp (by simp)).1 (h cp (by simp)).2
    obtain ⟨bs2, hbs2, hlt, hlen⟩ := ih (fun c hc => h c (List.mem_cons_of_mem _ hc))
    refine ⟨b ++ bs2, ?_, ?_, ?_⟩
    · unfold encodeCPs
      rw [hb, hbs2]
    · intro x hx
      rcases List.mem_append.mp hx with hx | hx
      · exact encodeCodePoint_bytes_lt cp b hb x hx
      · exact hlt x hx
    · have h4 := encodeCodePoint_length_le cp b hb
      simp only [List.length_append, List.length_cons]
      omega

/-- The utf8 transcoding round trip for well-formed UTF-16 input. -/
theorem utf8_roundtrip (units : List ℕ) (h : validUnits units = true) :
    ∃ bs, utf8Encode units = some bs ∧ utf8Decode bs = some units ∧
      (∀ b ∈ bs, b < 256) ∧ bs.length ≤ 4 * units.length := by
  obtain ⟨hflat, hscalar, hcount⟩ := ucs2_decode_spec units h
  obtain ⟨bs, hbs, hlt, hlen⟩ := encodeCPs_scalar (ucs2Decode units) hscalar
  refine ⟨bs, hbs, ?_, hlt, by omega⟩
  unfold utf8Decode
  have hfuel : (ucs2Decode units).length ≤ bs.length :=
    encodeCPs_length_le (ucs2Decode units) bs hbs
  rw [decodeCPs_encodeCPs (ucs2Decode units) (fun c hc => (hscalar c hc).2) bs hbs
    bs.length hfuel]
  simp only [Option.map_some', hflat]

/-! ### StringCodec round trip -/

theorem uint8_writes_flatten (bs : List ℕ) (hlt : ∀ b ∈ bs, b < 256) (le : Bool) :
    (bs.map (fun b : ℕ => IntegerCodec.set cUint8 (b : ℚ) le)).flatten = bs := by
  induction bs with
  | nil => rfl
  | cons b tl ih =>
    simp only [List.map_cons, List.flatten_cons]
    rw [uint8_set_nat b (by have := hlt b (by simp); omega) le,
      ih (fun x hx => hlt x (List.mem_cons_of_mem _ hx))]
    rfl

theorem ucs2Decode_ne_nil (u : ℕ) (us : List ℕ) : ucs2Decode (u :: us) ≠ [] := by
  cases us with
  | nil => simp [show ucs2Decode [u] = [u] from rfl]
  | cons v rest =>
    unfold ucs2Decode
    split_ifs <;> simp

theorem stringCodec_roundtrip (units : List ℕ) (h : validUnits units = true)
    (hlen : units.length < 2 ^ 30) (le : Bool) :
    ∃ out, StringCodec.set (.jstr units) le = some out ∧
      StringCodec.getByteLength (.jstr units) = some out.length ∧
      ∀ rest, StringCodec.get (out ++ rest) le = some (.jstr units, rest) := by
  cases units with
  | nil =>
    refine ⟨IntegerCodec.set cUint32 0 le, rfl, ?_, ?_⟩
    · rw [IntegerCodec.set_length]
      rfl
    · intro rest
      unfold StringCodec.get
      have hget := cUint32_roundtrip 0 (by norm_num) (by norm_num) le rest
      rw [show (((0:ℤ)) : ℚ) = (0 : ℚ) from Int.cast_zero] at hget
      rw [hget]
      rfl
  | cons u us =>
    obtain ⟨bs, henc, hdec, hlt, hble⟩ := utf8_roundtrip (u :: us) h
    have hbs1 : 1 ≤ bs.length := by
      have h1 := encodeCPs_length_le (ucs2Decode (u :: us)) bs henc
      have h2 := ucs2Decode_ne_nil u us
      cases hcd : ucs2Decode (u :: us) with
      | nil => exact absurd hcd h2
      | cons c cs =>
        rw [hcd] at h1
        simp only [List.length_cons] at h1
        omega
    have hbs32 : bs.length < 2 ^ 32 := by
      simp only [List.length_cons] at hble hlen ⊢
      omega
    refine ⟨IntegerCodec.set cUint32 (bs.length : ℚ) le ++
      (bs.map (fun b : ℕ => IntegerCodec.set cUint8 (b : ℚ) le)).flatten, ?_, ?_, ?_⟩
    · unfold StringCodec.set
      dsimp only
      rw [henc]
      rfl
    · show (utf8Encode (u :: us)).map _ = _
      rw [henc]
      simp only [Option.map_some', Option.some.injEq, List.length_append,
        IntegerCodec.set_length, uint8_writes_flatten bs hlt le]
      rfl
    · intro rest
      unfold StringCodec.get
      rw [uint8_writes_flatten bs hlt le, List.append_assoc]
      have hc : ((bs.length : ℕ) : ℚ) = (((bs.length : ℕ) : ℤ) : ℚ) := by
        push_cast
        ring
      rw [hc]
      have hget := cUint32_roundtrip (bs.length) (by omega)
        (by omega) le (bs ++ rest)
      rw [hget]
      dsimp only
      rw [if_pos (by exact_mod_cast hbs1)]
      rw [show ((bs.length : ℕ) : ℤ).toNat = bs.length from Int.toNat_natCast _]
      rw [if_pos (by simp only [List.length_append]; omega)]
      rw [List.take_left, List.drop_left, hdec]

/-! ### Fixed byte lengths of the float encoder -/

theorem orLast_length (sn : ℕ) (l : List ℕ) : (orLast sn l).length = l.length := by
  induction l with
  | nil => rfl
  | cons b tl ih =>
    cases tl with
    | nil => rfl
    | cons c t2 =>
      show (b :: orLast sn (c :: t2)).length = _
      simp only [List.length_cons] at ih ⊢
      omega

theorem partsToBytes32_length (sn e : ℕ) (m : ℚ) (le : Bool) :
    (float32Polyfill.partsToBytes sn e m le).length = 4 := by
  unfold FloatPolyfill.partsToBytes
  simp only [show float32Polyfill.byteLength = 4 from rfl,
    show float32Polyfill.numSignificandBits = 23 from rfl,
    show float32Polyfill.numExponentBits = 8 from rfl, sigLoop32, expLoop32]
  cases le <;>
    simp [orLast_length, expLoop32]

theorem partsToBytes64_length (sn e : ℕ) (m : ℚ) (le : Bool) :
    (float64Polyfill.partsToBytes sn e m le).length = 8 := by
  unfold FloatPolyfill.partsToBytes
  simp only [show float64Polyfill.byteLength = 8 from rfl,
    show float64Polyfill.numSignificandBits = 52 from rfl,
    show float64Polyfill.numExponentBits = 11 from rfl, sigLoop64, expLoop64]
  cases le <;>
    simp [orLast_length, expLoop64]

theorem float32_set_length (v : JSNum) (le : Bool) :
    (float32Polyfill.set v le).length = 4 := by
  cases v with
  | nan => exact partsToBytes32_length _ _ _ _
  | inf => exact partsToBytes32_length _ _ _ _
  | ninf => exact partsToBytes32_length _ _ _ _
  | negzero => exact partsToBytes32_length _ _ _ _
  | fin q =>
    simp only [FloatPolyfill.set]
    split_ifs
    · exact partsToBytes32_length _ _ _ _
    · exact partsToBytes32_length _ _ _ _

theorem float64_set_length (v : JSNum) (le : Bool) :
    (float64Polyfill.set v le).length = 8 := by
  cases v with
  | nan => exact partsToBytes64_length _ _ _ _
  | inf => exact partsToBytes64_length _ _ _ _
  | ninf => exact partsToBytes64_length _ _ _ _
  | negzero => exact partsToBytes64_length _ _ _ _
  | fin q =>
    simp only [FloatPolyfill.set]
    split_ifs
    · exact partsToBytes64_length _ _ _ _
    · exact partsToBytes64_length _ _ _ _

/-! ### Representable values per codec and the primitive round trip -/

/-- The values a codec encodes exactly: in-range integers, exactly
representable floats, well-formed strings, boolean arrays (within the
lengths where the JavaScript 32-bit length arithmetic is exact). -/
def PrimRepresentable : CodecType → JVal → Prop
  | .boolean, v => ∃ b, v = .jbool b
  | .int8, v => ∃ z : ℤ, -(2 ^ 7) ≤ z ∧ z ≤ 2 ^ 7 - 1 ∧ v = .jnum (.fin (z : ℚ))
  | .int16, v => ∃ z : ℤ, -(2 ^ 15) ≤ z ∧ z ≤ 2 ^ 15 - 1 ∧ v = .jnum (.fin (z : ℚ))
  | .int32, v => ∃ z : ℤ, -(2 ^ 31) ≤ z ∧ z ≤ 2 ^ 31 - 1 ∧ v = .jnum (.fin (z : ℚ))
  | .uint8, v => ∃ z : ℤ, 0 ≤ z ∧ z ≤ 2 ^ 8 - 1 ∧ v = .jnum (.fin (z : ℚ))
  | .uint16, v => ∃ z : ℤ, 0 ≤ z ∧ z ≤ 2 ^ 16 - 1 ∧ v = .jnum (.fin (z : ℚ))
  | .uint32, v => ∃ z : ℤ, 0 ≤ z ∧ z ≤ 2 ^ 32 - 1 ∧ v = .jnum (.fin (z : ℚ))
  | .float32, v => ∃ q, float32Polyfill.Representable q ∧ v = .jnum (.fin q)
  | .float64, v => ∃ q, float64Polyfill.Representable q ∧ v = .jnum (.fin q)
  | .booleanArray, v => ∃ l : List Bool, l.length < 2 ^ 31 ∧ v = .jarr (l.map .jbool)
  | .string, v => ∃ units, validUnits units = true ∧ units.length < 2 ^ 30 ∧
      v = .jstr units

theorem prim_roundtrip (t : CodecType) (v : JVal) (h : PrimRepresentable t v) (le : Bool) :
    ∃ bytes, primSet t v le = some bytes ∧
      primGetByteLength t v = some bytes.length ∧
      ∀ rest, primGet t (bytes ++ rest) le = some (v, rest) := by
  cases t with
  | boolean =>
    obtain ⟨b, rfl⟩ := h
    refine ⟨BooleanCodec.set b le, ?_, ?_, ?_⟩
    · show some (BooleanCodec.set (truthy (.jbool b)) le) = _
      rfl
    · show some 1 = some (BooleanCodec.set b le).length
      rw [show BooleanCodec.set b le =
        IntegerCodec.set cUint8 ((cond b 1 0 : ℤ) : ℚ) le from rfl,
        IntegerCodec.set_length]
      rfl
    · intro rest
      show (BooleanCodec.get _ le).map _ = _
      rw [BooleanCodec.roundtrip]
      rfl
  | int8 =>
    obtain ⟨z, h1, h2, rfl⟩ := h
    refine ⟨IntegerCodec.set cInt8 (z : ℚ) le, rfl, ?_, ?_⟩
    · show some 1 = _
      rw [IntegerCodec.set_length]
      rfl
    · intro rest
      show (IntegerCodec.get cInt8 _ le).map _ = _
      rw [cInt8_roundtrip z h1 h2 le rest]
      rfl
  | int16 =>
    obtain ⟨z, h1, h2, rfl⟩ := h
    refine ⟨IntegerCodec.set cInt16 (z : ℚ) le, rfl, ?_, ?_⟩
    · show some 2 = _
      rw [IntegerCodec.set_length]
      rfl
    · intro rest
      show (IntegerCodec.get cInt16 _ le).map _ = _
      rw [cInt16_roundtrip z h1 h2 le rest]
      rfl
  | int32 =>
    obtain ⟨z, h1, h2, rfl⟩ := h
    refine ⟨IntegerCodec.set cInt32 (z : ℚ) le, rfl, ?_, ?_⟩
    · show some 4 = _
      rw [IntegerCodec.set_length]
      rfl
    · intro rest
      show (IntegerCodec.get cInt32 _ le).map _ = _
      rw [cInt32_roundtrip z h1 h2 le rest]
      rfl
  | uint8 =>
    obtain ⟨z, h1, h2, rfl⟩ := h
    refine ⟨IntegerCodec.set cUint8 (z : ℚ) le, rfl, ?_, ?_⟩
    · show some 1 = _
      rw [IntegerCodec.set_length]
      rfl
    · intro rest
      show (IntegerCodec.get cUint8 _ le).map _ = _
      rw [cUint8_roundtrip z h1 h2 le rest]
      rfl
  | uint16 =>
    obtain ⟨z, h1, h2, rfl⟩ := h
    refine ⟨IntegerCodec.set cUint16 (z : ℚ) le, rfl, ?_, ?_⟩
    · show some 2 = _
      rw [IntegerCodec.set_length]
      rfl
    · intro rest
      show (IntegerCodec.get cUint16 _ le).map _ = _
      rw [cUint16_roundtrip z h1 h2 le rest]
      rfl
  | uint32 =>
    obtain ⟨z, h1, h2, rfl⟩ := h
    refine ⟨IntegerCodec.set cUint32 (z : ℚ) le, rfl, ?_, ?_⟩
    · show some 4 = _
      rw [IntegerCodec.set_length]
      rfl
    · intro rest
      show (IntegerCodec.get cUint32 _ le).map _ = _
      rw [cUint32_roundtrip z h1 h2 le rest]
      rfl
  | float32 =>
    obtain ⟨q, hq, rfl⟩ := h
    refine ⟨FloatCodec.set float32Polyfill (.fin q) le, rfl, ?_, ?_⟩
    · show some 4 = _
      rw [show FloatCodec.set float32Polyfill (.fin q) le =
        float32Polyfill.set (.fin q) le from rfl, float32_set_length]
    · intro rest
      show (FloatCodec.get float32Polyfill _ le).map _ = _
      rw [float32_roundtrip q hq le rest]
      rfl
  | float64 =>
    obtain ⟨q, hq, rfl⟩ := h
    refine ⟨FloatCodec.set float64Polyfill (.fin q) le, rfl, ?_, ?_⟩
    · show some 8 = _
      rw [show FloatCodec.set float64Polyfill (.fin q) le =
        float64Polyfill.set (.fin q) le from rfl, float64_set_length]
    · intro rest
      show (FloatCodec.get float64Polyfill _ le).map _ = _
      rw [float64_roundtrip q hq le rest]
      rfl
  | booleanArray =>
    obtain ⟨l, hlen, rfl⟩ := h
    have hmap : (l.map JVal.jbool).map truthy = l := by
      rw [List.map_map]
      have : truthy ∘ JVal.jbool = id := by
        funext b
        rfl
      rw [this, List.map_id]
    refine ⟨BooleanArrayCodec.set l, ?_, ?_, ?_⟩
    · show some (BooleanArrayCodec.set ((l.map JVal.jbool).map truthy)) = _
      rw [hmap]
    · show some (BooleanArrayCodec.getByteLength (l.map JVal.jbool).length) = _
      rw [List.length_map, booleanArray_set_length]
    · intro rest
      show (BooleanArrayCodec.get _).map _ = _
      rw [booleanArray_roundtrip l rest]
      rfl
  | string =>
    obtain ⟨units, hv, hlen, rfl⟩ := h
    obtain ⟨out, hset, hbl, hget⟩ := stringCodec_roundtrip units hv hlen le
    refine ⟨out, hset, hbl, fun rest => hget rest⟩

/-- For a fixed-width codec, getByteLength is the constant width whatever
the value. -/
theorem primGetByteLength_fixed (e : CodecType) (w : ℕ) (hfix : e.fixedLength? = some w)
    (v : JVal) : primGetByteLength e v = some w := by
  cases e <;> simp_all [primGetByteLength, CodecType.fixedLength?]

/-! ### ArrayCodec round trip -/

theorem setElems_roundtrip (e : CodecType) (le : Bool) (l : List JVal)
    (h : ∀ x ∈ l, PrimRepresentable e x) :
    ∃ body, setElems e le l = some body ∧
      sumByteLengths e l = some body.length ∧
      ∀ rest, getElems e le l.length (body ++ rest) = some (l, rest) := by
  induction l with
  | nil => exact ⟨[], rfl, rfl, fun rest => rfl⟩
  | cons x tl ih =>
    obtain ⟨bx, hbx, hlx, hgx⟩ := prim_roundtrip e x (h x (by simp)) le
    obtain ⟨btl, hbtl, hltl, hgtl⟩ := ih (fun y hy => h y (List.mem_cons_of_mem _ hy))
    refine ⟨bx ++ btl, ?_, ?_, ?_⟩
    · unfold setElems
      rw [hbx, hbtl]
    · unfold sumByteLengths
      rw [hlx, hltl]
      simp [List.length_append]
    · intro rest
      show getElems e le (tl.length + 1) (bx ++ btl ++ rest) = _
      rw [getElems, List.append_assoc, hgx (btl ++ rest)]
      dsimp only
      rw [hgtl rest]

theorem sumByteLengths_fixed (e : CodecType) (w : ℕ) (hfix : e.fixedLength? = some w)
    (l : List JVal) : sumByteLengths e l = some (l.length * w) := by
  induction l with
  | nil => simp [sumByteLengths]
  | cons x tl ih =>
    unfold sumByteLengths
    rw [primGetByteLength_fixed e w hfix x, ih]
    simp only [Option.some.injEq, List.length_cons]
    ring

theorem arrayCodec_roundtrip (e : CodecType) (le : Bool) (l : List JVal)
    (hne : l ≠ []) (hlen : l.length < 2 ^ 32)
    (h : ∀ x ∈ l, PrimRepresentable e x) :
    ∃ bytes, ArrayCodec.set e (.jarr l) le = some bytes ∧
      ArrayCodec.getByteLength e (.jarr l) = some bytes.length ∧
      ∀ rest, ArrayCodec.get e (bytes ++ rest) le = some (.jarr l, rest) := by
  obtain ⟨body, hset, hsum, hget⟩ := setElems_roundtrip e le l h
  refine ⟨IntegerCodec.set cUint32 (l.length : ℚ) le ++ body, ?_, ?_, ?_⟩
  · unfold ArrayCodec.set
    dsimp only
    rw [hset]
    rfl
  · unfold ArrayCodec.getByteLength
    rw [if_neg (by
      show ¬jsLength (.jarr l) = 0
      cases l with
      | nil => exact absurd rfl hne
      | cons a as => simp [jsLength])]
    cases hfix : e.fixedLength? with
    | none =>
      dsimp only
      rw [hsum]
      simp only [Option.map_some', Option.some.injEq, List.length_append,
        IntegerCodec.set_length]
      rfl
    | some w =>
      have hbody : body.length = l.length * w := by
        have := sumByteLengths_fixed e w hfix l
        rw [hsum] at this
        exact Option.some.inj this
      dsimp only
      simp only [Option.some.injEq, List.length_append, IntegerCodec.set_length,
        hbody, jsLength]
      rfl
  · intro rest
    unfold ArrayCodec.get
    rw [List.append_assoc]
    have hc : ((l.length : ℕ) : ℚ) = (((l.length : ℕ) : ℤ) : ℚ) := by
      push_cast
      ring
    rw [hc]
    have hget32 := cUint32_roundtrip (l.length) (by omega) (by omega) le (body ++ rest)
    rw [hget32]
    dsimp only
    rw [show ((l.length : ℕ) : ℤ).toNat = l.length from Int.toNat_natCast _]
    rw [hget rest]

/-! ### Field and Definition round trips -/

/-- What a field encodes exactly (an array field needs a nonempty array:
see claim C4 for the empty-array defect). -/
def FieldRepresentable (f : Field) (v : JVal) : Prop :=
  match f.type with
  | .prim t => PrimRepresentable t v
  | .array e => ∃ l, l ≠ [] ∧ l.length < 2 ^ 32 ∧ (∀ x ∈ l, PrimRepresentable e x) ∧
      v = .jarr l

theorem field_roundtrip (f : Field) (v : JVal) (h : FieldRepresentable f v) (le : Bool) :
    ∃ bytes, fieldSet f v le = some bytes ∧
      fieldGetByteLength f v = some bytes.length ∧
      ∀ rest, fieldGet f (bytes ++ rest) le = some (v, rest) := by
  cases hft : f.type with
  | prim t =>
    simp only [FieldRepresentable, hft] at h
    obtain ⟨bytes, h1, h2, h3⟩ := prim_roundtrip t v h le
    refine ⟨bytes, ?_, ?_, ?_⟩
    · simp only [fieldSet, hft]
      exact h1
    · simp only [fieldGetByteLength, hft]
      exact h2
    · intro rest
      simp only [fieldGet, hft]
      exact h3 rest
  | array e =>
    simp only [FieldRepresentable, hft] at h
    obtain ⟨l, hne, hlen, hall, rfl⟩ := h
    obtain ⟨bytes, h1, h2, h3⟩ := arrayCodec_roundtrip e le l hne hlen hall
    refine ⟨bytes, ?_, ?_, ?_⟩
    · simp only [fieldSet, hft]
      exact h1
    · simp only [fieldGetByteLength, hft]
      exact h2
    · intro rest
      simp only [fieldGet, hft]
      exact h3 rest

/-- Every field's value in the object is representable for that field. -/
def objRepresentable (fields : List Field) (obj : JObj) : Prop :=
  ∀ f ∈ fields, FieldRepresentable f (objGet obj f.key)

theorem def_roundtrip (le : Bool) (fields : List Field) (obj : JObj)
    (h : objRepresentable fields obj) :
    ∃ bytes, defSet le obj fields = some bytes ∧
      defFieldsLength obj fields = some (bytes.length, fieldsFixed fields) ∧
      ∀ rest, defGet le fields (bytes ++ rest) =
        some (fields.map (fun f => (f.key, objGet obj f.key)), rest) := by
  induction fields with
  | nil => exact ⟨[], rfl, rfl, fun rest => rfl⟩
  | cons f rest ih =>
    obtain ⟨bf, hbf, hlf, hgf⟩ := field_roundtrip f (objGet obj f.key) (h f (by simp)) le
    obtain ⟨btl, hbtl, hltl, hgtl⟩ := ih (fun g hg => h g (List.mem_cons_of_mem _ hg))
    refine ⟨bf ++ btl, ?_, ?_, ?_⟩
    · unfold defSet
      rw [hbf, hbtl]
    · unfold defFieldsLength
      rw [hltl]
      cases hfix : f.type.fixedLength? with
      | some w =>
        dsimp only
        have hw : bf.length = w := by
          cases hft : f.type with
          | prim t =>
            rw [hft] at hfix
            simp only [FieldType.fixedLength?] at hfix
            have hp := primGetByteLength_fixed t w hfix (objGet obj f.key)
            simp only [fieldGetByteLength, hft, hp, Option.some.injEq] at hlf
            exact hlf.symm
          | array e =>
            rw [hft] at hfix
            simp only [FieldType.fixedLength?] at hfix
            exact Option.noConfusion hfix
        have hff : fieldsFixed (f :: rest) = fieldsFixed rest := by
          simp [fieldsFixed, hfix]
        rw [hff]
        simp only [Option.some.injEq, Prod.mk.injEq, List.length_append, hw]
      | none =>
        dsimp only
        rw [hlf]
        dsimp only
        have hff : fieldsFixed (f :: rest) = false := by
          simp [fieldsFixed, hfix]
        rw [hff]
        simp only [Option.some.injEq, Prod.mk.injEq, List.length_append]
    · intro rest2
      unfold defGet
      rw [List.append_assoc, hgf (btl ++ rest2)]
      dsimp only
      rw [hgtl rest2]
      rfl

theorem uint8_get_cons (b : ℕ) (l : List ℕ) :
    IntegerCodec.get cUint8 (b :: l) false = some ((b : ℤ), l) := by
  unfold IntegerCodec.get
  rw [show cUint8.byteLength = 1 from rfl, if_pos (len1 _ _), take1, drop1]
  simp [IntegerPolyfill.get, intAccum, cUint8, IntegerPolyfill.bitLength]

/-! ### Schema round trip -/

theorem schema_roundtrip (s : Schema) (k : String) (d : Definition)
    (hk : s.lookupKey k = some d) (hid : s.lookupId d.id = some d)
    (hid255 : d.id ≤ 255) (hidtype : s.idType = cUint8)
    (hbe : d.littleEndian = false) (hcache : d.byteLength = none)
    (obj : JObj) (hrep : objRepresentable d.fields obj) :
    ∃ out, s.stringify k obj = some out ∧
      s.parse out = some (d.key, d.fields.map (fun f => (f.key, objGet obj f.key))) := by
  obtain ⟨body, hset, hflen, hget⟩ := def_roundtrip false d.fields obj hrep
  have hbl : d.getByteLength obj = some (body.length,
      if fieldsFixed d.fields then { d with byteLength := some body.length } else d) := by
    unfold Definition.getByteLength
    rw [hcache, hflen]
  refine ⟨IntegerCodec.set cUint8 (d.id : ℚ) false ++ body, ?_, ?_⟩
  · unfold Schema.stringify
    rw [hk]
    dsimp only
    rw [hbl]
    dsimp only
    rw [hbe, hset]
    dsimp only
    rw [hidtype, IntegerCodec.set_length, if_pos (le_refl _), Nat.sub_self,
      List.replicate_zero, List.append_nil]
  · unfold Schema.parse
    rw [hidtype]
    have hpre : IntegerCodec.set cUint8 ((d.id : ℕ) : ℚ) false = [d.id] :=
      uint8_set_nat d.id hid255 false
    rw [hpre, List.singleton_append, uint8_get_cons d.id body]
    dsimp only
    rw [show ((d.id : ℕ) : ℤ).toNat = d.id from Int.toNat_natCast _, hid]
    dsimp only
    rw [hbe]
    have hg := hget []
    rw [List.append_nil] at hg
    rw [hg]

/-! ### Lookups in a schema built by a sequence of defines -/

theorem foldl_define_lookupKey_frozen (rest : List (String × List Field)) (k : String) :
    ∀ s : Schema, (∀ r ∈ rest, r.1 ≠ k) →
      (rest.foldl (fun s kf => (s.define kf.1 kf.2).1) s).lookupKey k =
        s.lookupKey k := by
  induction rest with
  | nil => intro s _; rfl
  | cons r tl ih =>
    intro s hne
    rw [List.foldl_cons, ih _ (fun q hq => hne q (List.mem_cons_of_mem _ hq))]
    unfold Schema.lookupKey
    simp only [Schema.define]
    rw [List.find?_cons_of_neg _ (by
      simp only [beq_iff_eq]
      exact hne r (by simp))]

theorem foldl_define_lookupId_frozen (rest : List (String × List Field)) (i : ℕ) :
    ∀ s : Schema, i < s.nextDefinitionId →
      (rest.foldl (fun s kf => (s.define kf.1 kf.2).1) s).lookupId i =
        s.lookupId i := by
  induction rest with
  | nil => intro s _; rfl
  | cons r tl ih =>
    intro s hlt
    rw [List.foldl_cons, ih _ (by simp only [Schema.define]; omega)]
    unfold Schema.lookupId
    simp only [Schema.define]
    rw [List.find?_cons_of_neg _ (by
      simp only [beq_iff_eq]
      omega)]

theorem foldl_define_lookup (regs : List (String × List Field)) :
    ∀ s : Schema, (regs.map Prod.fst).Nodup →
    ∀ k fs, (k, fs) ∈ regs →
    (∀ p ∈ s.definitions, p.1 ≠ k) →
    ∃ d : Definition,
      (regs.foldl (fun s kf => (s.define kf.1 kf.2).1) s).lookupKey k = some d ∧
      (regs.foldl (fun s kf => (s.define kf.1 kf.2).1) s).lookupId d.id = some d ∧
      d.fields = fs ∧ d.key = k ∧ d.littleEndian = false ∧ d.byteLength = none ∧
      s.nextDefinitionId ≤ d.id ∧ d.id < s.nextDefinitionId + regs.length := by
  induction regs with
  | nil =>
    intro s _ k fs hmem _
    cases hmem
  | cons r rest ih =>
    intro s hnd k fs hmem hfresh
    rw [List.foldl_cons]
    simp only [List.map_cons, List.nodup_cons] at hnd
    rcases List.mem_cons.mp hmem with rfl | hmem2
    · refine ⟨⟨fs, s.nextDefinitionId, k, false, none⟩, ?_, ?_, rfl, rfl, rfl, rfl,
        le_refl _, by simp⟩
      · rw [foldl_define_lookupKey_frozen rest k _ (by
          intro q hq
          intro hqk
          apply hnd.1
          show k ∈ List.map Prod.fst rest
          rw [← hqk]
          exact List.mem_map_of_mem Prod.fst hq)]
        unfold Schema.lookupKey
        simp only [Schema.define]
        rw [List.find?_cons_of_pos _ (by simp)]
        rfl
      · rw [foldl_define_lookupId_frozen rest s.nextDefinitionId _ (by
          simp only [Schema.define]
          omega)]
        unfold Schema.lookupId
        simp only [Schema.define]
        rw [List.find?_cons_of_pos _ (by simp)]
        rfl
    · have hr1 : r.1 ≠ k := by
        intro hk
        apply hnd.1
        show r.1 ∈ List.map Prod.fst rest
        rw [hk]
        exact List.mem_map_of_mem Prod.fst hmem2
      obtain ⟨d, h1, h2, h3, h4, h5, h6, h7, h8⟩ :=
        ih ((s.define r.1 r.2).1) hnd.2 k fs hmem2 (by
          intro p hp
          simp only [Schema.define, List.mem_cons] at hp
          rcases hp with rfl | hp
          · exact hr1
          · exact hfresh p hp)
      refine ⟨d, h1, h2, h3, h4, h5, h6, ?_, ?_⟩
      · simp only [Schema.define] at h7
        omega
      · simp only [Schema.define] at h8
        simp only [List.length_cons]
        omega

theorem buildSchema_lookup (regs : List (String × List Field))
    (hnd : (regs.map Prod.fst).Nodup) (k : String) (fs : List Field)
    (hmem : (k, fs) ∈ regs) :
    ∃ d : Definition, (buildSchema regs).lookupKey k = some d ∧
      (buildSchema regs).lookupId d.id = some d ∧
      d.fields = fs ∧ d.key = k ∧ d.littleEndian = false ∧ d.byteLength = none ∧
      1 ≤ d.id ∧ d.id < 1 + regs.length := by
  exact foldl_define_lookup regs createSchema hnd k fs hmem (by intro p hp; cases hp)

/-! ### Ids are assigned monotonically from 1 -/

theorem foldl_define_ids (regs : List (String × List Field)) :
    ∀ s : Schema,
      (regs.foldl (fun s kf => (s.define kf.1 kf.2).1) s).definitionsById.map Prod.fst =
        (List.range' s.nextDefinitionId regs.length).reverse ++
          s.definitionsById.map Prod.fst := by
  induction regs with
  | nil => intro s; simp
  | cons r rest ih =>
    intro s
    rw [List.foldl_cons, ih]
    simp only [Schema.define, List.map_cons]
    rw [show List.range' s.nextDefinitionId (r :: rest).length =
      s.nextDefinitionId :: List.range' (s.nextDefinitionId + 1) rest.length from rfl]
    rw [List.reverse_cons, List.append_assoc, List.singleton_append]

theorem buildSchema_ids (regs : List (String × List Field)) :
    (buildSchema regs).definitionsById.map Prod.fst =
      (List.range' 1 regs.length).reverse := by
  rw [show buildSchema regs =
    regs.foldl (fun s kf => (s.define kf.1 kf.2).1) createSchema from rfl,
    foldl_define_ids regs createSchema]
  simp [createSchema, Schema.mkNew]

/-! ### Claim C1: id assignment and the schema round trip -/

/-- 256 registrations with distinct keys "0" … "255" and no fields. -/
def bigRegs : List (String × List Field) :=
  (List.range 256).map (fun i => (toString i, []))

def bigSchema : Schema := buildSchema bigRegs

set_option maxHeartbeats 4000000 in
/-- Claim C1 is refuted as stated: with 256 registrations the key "255"
is registered and the empty object is representable for its (empty) field
list, but the definition id 256 is clamped to the byte 255 by the uint8 id
codec, so parse of the stringified buffer returns the key "254" of the
definition whose id is 255, not "255". -/
theorem claim_C1_counterexample :
    ("255", ([] : List Field)) ∈ bigRegs ∧
    (bigRegs.map Prod.fst).Nodup ∧
    objRepresentable [] [] ∧
    bigSchema.stringify "255" [] = some [255] ∧
    bigSchema.parse [255] = some ("254", []) ∧
    ("254" : String) ≠ "255" := by
  refine ⟨by decide, by decide, fun f hf => absurd hf (List.not_mem_nil f),
    by decide, rfl, by decide⟩

/-- Claim C1 (amended): ids are assigned monotonically starting at 1 in
registration order — the by-id table lists ids regs.length … 1, newest
first — and, provided there are at most 255 registrations with distinct
keys, every registered key round-trips: for an object whose entries are
exactly the definition's fields in order with representable values,
parse (stringify k obj) = some (k, obj). -/
theorem claim_C1_ids_and_roundtrip :
    (∀ regs : List (String × List Field),
      (buildSchema regs).definitionsById.map Prod.fst =
        (List.range' 1 regs.length).reverse) ∧
    (∀ regs : List (String × List Field),
      (regs.map Prod.fst).Nodup → regs.length ≤ 255 →
      ∀ k fs, (k, fs) ∈ regs →
      ∀ obj : JObj, objRepresentable fs obj →
        obj = fs.map (fun f => (f.key, objGet obj f.key)) →
        ∃ out, (buildSchema regs).stringify k obj = some out ∧
          (buildSchema regs).parse out = some (k, obj)) := by
  refine ⟨buildSchema_ids, ?_⟩
  intro regs hnd hlen k fs hmem obj hrep hobj
  obtain ⟨d, hk, hid, hfs, hkey, hbe, hcache, hid1, hidlt⟩ :=
    buildSchema_lookup regs hnd k fs hmem
  obtain ⟨out, hs, hp⟩ := schema_roundtrip (buildSchema regs) k d hk hid
    (by omega) (buildSchema_idType regs) hbe hcache obj (by rw [hfs]; exact hrep)
  refine ⟨out, hs, ?_⟩
  rw [hp, hkey, hfs, ← hobj]

/-- The round-trip conjunct of Claim C1 at a concrete schema: one
registration "a" with a single uint8 field holding 7. -/
theorem claim_C1_ids_and_roundtrip_witness :
    ∃ out, (buildSchema [("a", [⟨"x", .prim .uint8⟩])]).stringify "a"
        [("x", .jnum (.fin ((7 : ℤ) : ℚ)))] = some out ∧
      (buildSchema [("a", [⟨"x", .prim .uint8⟩])]).parse out =
        some ("a", [("x", .jnum (.fin ((7 : ℤ) : ℚ)))]) :=
  claim_C1_ids_and_roundtrip.2 [("a", [⟨"x", .prim .uint8⟩])] (by decide) (by decide)
    "a" [⟨"x", .prim .uint8⟩] (List.mem_singleton.mpr rfl)
    [("x", .jnum (.fin ((7 : ℤ) : ℚ)))]
    (by
      intro f hf
      rcases List.mem_singleton.mp hf with rfl
      exact ⟨7, by norm_num, by norm_num, rfl⟩)
    rfl

end Jettison
